import Mathlib

/-!
# FFMPEG-H256-MWE: ray-sphere renderer and H265 encoding pipeline

A shallow embedding of `src/ffmpeg.cpp` (the per-pixel ray-sphere renderer and the
depth sorter) and of `src/H265.h` (the `H265Encoder` frame sequencer), with the
properties of the specification stated and settled against it.

Conventions of the embedding.

* Floating-point values are IEEE-754 values (`FP`: a finite rational, an infinity or
  NaN) and every operation rounds as the hardware does, to nearest, ties to even, in
  the format the C++ expression has: binary32 for `float` and the `glm` vectors,
  binary64 for the `double` subterms.  The two zeros are not told apart: no
  comparison of the code depends on the sign of a zero, and the only divisors are
  lengths, which are +0 when they are zero.
* The presentation timestamp of `H265Encoder::write` is binary64 as well (`fl`).
* Calls into FFmpeg are calls into an external library: their return codes are
  inputs of the embedding (`WriteEnv`, `FinishEnv`, `OpenEnv`), except where
  libavcodec documents the answer (`sendFrameResult`).
* `std::sort` is a library routine as well; it is a parameter `stdSort` with the
  postcondition the C++ standard gives it (`StdSortPost`), and the algorithm of
  libstdc++ is embedded as `gnuSort`.
-/

namespace H265MWE

/-! ## IEEE-754 arithmetic -/

/-- Floor of the binary logarithm by repeated halving (also `std::__lg`). -/
def lgAux : ℕ → ℕ → ℕ
  | 0, _ => 0
  | fuel + 1, n => if n < 2 then 0 else lgAux fuel (n / 2) + 1

/-- Floor of the binary logarithm of `n` (0 for `n = 0`). -/
def lg (n : ℕ) : ℕ := lgAux n n

/-- The binary exponent of a non-zero rational: the `e` with `2^e ≤ |q| < 2^(e+1)`. -/
def binExp (q : ℚ) : ℤ :=
  let e0 : ℤ := (lg q.num.natAbs : ℤ) - (lg q.den : ℤ)
  if (2 : ℚ) ^ e0 ≤ |q| then e0 else e0 - 1

/-- Rounding to the nearest integer, ties to the even one. -/
def roundNearestEven (q : ℚ) : ℤ :=
  if q - ⌊q⌋ < 1 / 2 then ⌊q⌋
  else if 1 / 2 < q - ⌊q⌋ then ⌊q⌋ + 1
  else if ⌊q⌋ % 2 = 0 then ⌊q⌋ else ⌊q⌋ + 1

/-- An IEEE-754 value: a finite number, an infinity (`neg` for the negative one) or
NaN. -/
inductive FP where
  | fin (q : ℚ)
  | inf (neg : Bool)
  | nan
  deriving DecidableEq

instance : Inhabited FP := ⟨FP.fin 0⟩

/-- A binary floating-point format: precision in bits, least and greatest exponent
of a normal number. -/
structure Fmt where
  prec : ℕ
  emin : ℤ
  emax : ℤ

/-- The format of `float`. -/
def binary32 : Fmt := ⟨24, -126, 127⟩

/-- The format of `double`. -/
def binary64 : Fmt := ⟨53, -1022, 1023⟩

/-- The spacing of the format's values around `q`: `2^(e - prec + 1)` for the binary
exponent `e` of `q`, and that of the least normal exponent below it (subnormals). -/
def Fmt.quantum (f : Fmt) (q : ℚ) : ℚ :=
  (2 : ℚ) ^ (max (binExp q) f.emin - ((f.prec : ℤ) - 1))

/-- Rounding to the nearest multiple of the quantum, ties to even, the exponent not
bounded above. -/
def Fmt.roundQ (f : Fmt) (q : ℚ) : ℚ :=
  if q = 0 then 0 else (roundNearestEven (q / f.quantum q) : ℚ) * f.quantum q

/-- Rounding of an exact result to the format: to nearest, ties to even; a rounded
magnitude of `2^(emax+1)` or more is an overflow and gives an infinity. -/
def Fmt.round (f : Fmt) (q : ℚ) : FP :=
  if (2 : ℚ) ^ (f.emax + 1) ≤ |f.roundQ q| then FP.inf (decide (q < 0)) else FP.fin (f.roundQ q)

/-- Negation. -/
def FP.neg : FP → FP
  | fin q => fin (-q)
  | inf s => inf (!s)
  | nan => nan

/-- Addition in format `f`. -/
def FP.add (f : Fmt) : FP → FP → FP
  | fin a, fin b => f.round (a + b)
  | fin _, inf s => inf s
  | inf s, fin _ => inf s
  | inf s, inf t => if s = t then inf s else nan
  | _, _ => nan

/-- Subtraction in format `f`. -/
def FP.sub (f : Fmt) (a b : FP) : FP := FP.add f a (FP.neg b)

/-- Multiplication in format `f`. -/
def FP.mul (f : Fmt) : FP → FP → FP
  | fin a, fin b => f.round (a * b)
  | fin a, inf s => if a = 0 then nan else inf (xor s (decide (a < 0)))
  | inf s, fin b => if b = 0 then nan else inf (xor s (decide (b < 0)))
  | inf s, inf t => inf (xor s t)
  | _, _ => nan

/-- Division in format `f`; a zero divisor is +0. -/
def FP.div (f : Fmt) : FP → FP → FP
  | fin a, fin b =>
    if b = 0 then (if a = 0 then nan else inf (decide (a < 0))) else f.round (a / b)
  | fin _, inf _ => fin 0
  | inf s, fin b => inf (xor s (decide (b < 0)))
  | _, _ => nan

/-- The comparison `a < b`; false when an operand is NaN. -/
def FP.lt : FP → FP → Bool
  | fin a, fin b => decide (a < b)
  | fin _, inf s => !s
  | inf s, fin _ => s
  | inf s, inf t => s && !t
  | _, _ => false

/-- The function `std::max(a, b)`, which is `(a < b) ? b : a`. -/
def FP.max (a b : FP) : FP := if FP.lt a b then b else a

/-- Integer square root, bit by bit from bit `k - 1` down. -/
def isqrtBits (n : ℕ) : ℕ → ℕ → ℕ
  | 0, r => r
  | k + 1, r =>
    if (r + 2 ^ k) * (r + 2 ^ k) ≤ n then isqrtBits n k (r + 2 ^ k) else isqrtBits n k r

/-- Integer square root, rounded down. -/
def isqrt (n : ℕ) : ℕ := isqrtBits n (lg n / 2 + 1) 0

/-- The quantum at the square root of `q`. -/
def Fmt.sqrtQuantum (f : Fmt) (q : ℚ) : ℚ :=
  (2 : ℚ) ^ (max (Int.fdiv (binExp q) 2) f.emin - ((f.prec : ℤ) - 1))

/-- The number `m = ⌊√q / u⌋` of whole quanta `u` in the square root of `q`. -/
def Fmt.sqrtQuanta (f : Fmt) (q : ℚ) : ℕ :=
  isqrt (⌊q / (f.sqrtQuantum q * f.sqrtQuantum q)⌋).toNat

/-- The square root of a rational, correctly rounded to the format (to nearest, ties
to even): with `u` the quantum at the root and `m` the whole quanta in it, the result
is `m * u` or `(m + 1) * u` according to the side of `(m + 1/2)²` on which `q / u²`
lies. -/
def Fmt.sqrtQ (f : Fmt) (q : ℚ) : ℚ :=
  if q ≤ 0 then 0
  else if q / (f.sqrtQuantum q * f.sqrtQuantum q)
      < (f.sqrtQuanta q : ℚ) * (f.sqrtQuanta q : ℚ) + (f.sqrtQuanta q : ℚ) + 1 / 4 then
    (f.sqrtQuanta q : ℚ) * f.sqrtQuantum q
  else if (f.sqrtQuanta q : ℚ) * (f.sqrtQuanta q : ℚ) + (f.sqrtQuanta q : ℚ) + 1 / 4
      < q / (f.sqrtQuantum q * f.sqrtQuantum q) then
    ((f.sqrtQuanta q : ℚ) + 1) * f.sqrtQuantum q
  else if f.sqrtQuanta q % 2 = 0 then (f.sqrtQuanta q : ℚ) * f.sqrtQuantum q
  else ((f.sqrtQuanta q : ℚ) + 1) * f.sqrtQuantum q

/-- The square root in format `f`: NaN for a negative operand. -/
def FP.sqrt (f : Fmt) : FP → FP
  | fin q => if q < 0 then nan else fin (f.sqrtQ q)
  | inf s => if s then nan else inf false
  | nan => nan

/-- Conversion of a value to format `f` (exact from `float` to `double`, a rounding
from `double` to `float`). -/
def FP.cvt (f : Fmt) : FP → FP
  | fin q => f.round q
  | x => x

/-- Truncation of a rational towards zero. -/
def truncToInt (q : ℚ) : ℤ := if 0 ≤ q then ⌊q⌋ else ⌈q⌉

/-- The conversion `uint8_t(x)` of a `float` as x86-64 compilers do it: the value is
truncated towards zero to a 32-bit integer and the low 8 bits are kept (-191.3
gives 65); a NaN or a value outside the 32-bit range gives the low byte of
`0x80000000`, which is 0.  (C++ leaves the result undefined outside 0..255.) -/
def toUInt8 : FP → ℕ
  | FP.fin q => if |truncToInt q| < 2147483648 then (truncToInt q % 256).toNat else 0
  | _ => 0

/-! ## Vectors (`glm::vec3`, `glm::vec4`) -/

/-- A `glm::vec3`: three `float` components. -/
@[ext]
structure Vec3 where
  x : FP
  y : FP
  z : FP
  deriving DecidableEq

/-- A `glm::vec4`, used for colours (`r`, `g`, `b`, `a`). -/
structure Vec4 where
  r : FP
  g : FP
  b : FP
  a : FP
  deriving DecidableEq

/-- Componentwise sum, `a + b` on `glm::vec3`. -/
def Vec3.add (a b : Vec3) : Vec3 :=
  ⟨FP.add binary32 a.x b.x, FP.add binary32 a.y b.y, FP.add binary32 a.z b.z⟩

/-- Componentwise difference, `a - b` on `glm::vec3`. -/
def Vec3.sub (a b : Vec3) : Vec3 :=
  ⟨FP.sub binary32 a.x b.x, FP.sub binary32 a.y b.y, FP.sub binary32 a.z b.z⟩

/-- Componentwise negation, `-a` on `glm::vec3`. -/
def Vec3.neg (a : Vec3) : Vec3 := ⟨FP.neg a.x, FP.neg a.y, FP.neg a.z⟩

/-- Scalar times vector, `s * v` on `glm::vec3`. -/
def Vec3.scale (s : FP) (v : Vec3) : Vec3 :=
  ⟨FP.mul binary32 s v.x, FP.mul binary32 s v.y, FP.mul binary32 s v.z⟩

/-- Vector divided by a scalar, `v / s` (and `v /= s`) on `glm::vec3`. -/
def Vec3.divs (v : Vec3) (s : FP) : Vec3 :=
  ⟨FP.div binary32 v.x s, FP.div binary32 v.y s, FP.div binary32 v.z s⟩

/-- The scalar product `glm::dot`, which is `(a.x*b.x + a.y*b.y) + a.z*b.z` in
`float`. -/
def Vec3.dot (a b : Vec3) : FP :=
  FP.add binary32 (FP.add binary32 (FP.mul binary32 a.x b.x) (FP.mul binary32 a.y b.y))
    (FP.mul binary32 a.z b.z)

/-- The Euclidean length `glm::length`, the square root of `dot v v`. -/
def Vec3.length (v : Vec3) : FP := FP.sqrt binary32 (Vec3.dot v v)

/-- A vector whose three components are finite (no infinity, no NaN). -/
def Vec3.finite : Vec3 → Bool
  | ⟨FP.fin _, FP.fin _, FP.fin _⟩ => true
  | _ => false

/-- The working range of the rounding analysis: a vector with finite components of
magnitude at most `2^40`, one of them at least `2^-40`. -/
def Vec3.moderate : Vec3 → Bool
  | ⟨FP.fin x, FP.fin y, FP.fin z⟩ =>
    decide (|x| ≤ 2 ^ 40) && decide (|y| ≤ 2 ^ 40) && decide (|z| ≤ 2 ^ 40) &&
      (decide (1 / 2 ^ 40 ≤ |x|) || decide (1 / 2 ^ 40 ≤ |y|) || decide (1 / 2 ^ 40 ≤ |z|))
  | _ => false

/-! ## `sphereIntersection` (ffmpeg.cpp, lines 11-28) -/

/-- Line 19: `b = dot(cameraPosition, rayDirector) - dot(rayDirector, center)`. -/
def rayB (center rayDirector cameraPosition : Vec3) : FP :=
  FP.sub binary32 (Vec3.dot cameraPosition rayDirector) (Vec3.dot rayDirector center)

/-- Lines 20-21: the value of `det` before the square root is taken,
`b*b - (dot(center,center) + dot(camera,camera) - r2 - 2.0*dot(center,camera))`.
The literal `2.0` is a `double`: the product with it, the subtraction of that
product and the subtraction from `b*b` are done in binary64, and the result is
converted to `float`. -/
def discriminant (center : Vec3) (radius : FP) (rayDirector cameraPosition : Vec3) : FP :=
  FP.cvt binary32
    (FP.sub binary64
      (FP.mul binary32 (rayB center rayDirector cameraPosition)
        (rayB center rayDirector cameraPosition))
      (FP.sub binary64
        (FP.sub binary32
          (FP.add binary32 (Vec3.dot center center) (Vec3.dot cameraPosition cameraPosition))
          (FP.mul binary32 radius radius))
        (FP.mul binary64 (FP.fin 2) (Vec3.dot center cameraPosition))))

/-- Lines 23-24: the ray parameter `-b + sqrt(det)` of the returned vector. -/
def hitParam (center : Vec3) (radius : FP) (rayDirector cameraPosition : Vec3) : FP :=
  FP.add binary32 (FP.neg (rayB center rayDirector cameraPosition))
    (FP.sqrt binary32 (discriminant center radius rayDirector cameraPosition))

/-- Line 24: `a = (-b + det) * rayDirector`, the first vector returned. -/
def hitOffset (center : Vec3) (radius : FP) (rayDirector cameraPosition : Vec3) : Vec3 :=
  Vec3.scale (hitParam center radius rayDirector cameraPosition) rayDirector

/-- Line 25: `an = a - center + cameraPosition`, before it is normalised. -/
def hitNormalRaw (center : Vec3) (radius : FP) (rayDirector cameraPosition : Vec3) : Vec3 :=
  Vec3.add (Vec3.sub (hitOffset center radius rayDirector cameraPosition) center)
    cameraPosition

/-- The function `sphereIntersection`.  The C++ returns `{false, {NaN.., NaN..}}` on a
miss and `{true, {a, an}}` on a hit; the pair is embedded as an `Option`, so the
`first` component of the C++ result is `Option.isSome` and the two vectors are
present exactly when it is true.  The miss is taken when `det < 0` holds, which it
does not for a NaN. -/
def sphereIntersection (center : Vec3) (radius : FP) (rayDirector cameraPosition : Vec3) :
    Option (Vec3 × Vec3) :=
  if FP.lt (discriminant center radius rayDirector cameraPosition) (FP.fin 0) = true then none
  else
    some (hitOffset center radius rayDirector cameraPosition,
      Vec3.divs (hitNormalRaw center radius rayDirector cameraPosition)
        (Vec3.length (hitNormalRaw center radius rayDirector cameraPosition)))

/-! ## Scene data (`caffeine.h`) -/

/-- Modelled from the spec: the `Atom` record of `caffeine.h`, a header that is not
among the sources.  The specification gives it three fields, "position: 3D float
vector, radius: float, element: enum/tag"; `ffmpeg.cpp` reads exactly these.  The
scene `caffeine` (a `std::array<Atom, 24>`) and the colour table `CPK_COLOURS` of
the same header are parameters of the definitions that read them. -/
structure Atom (E : Type) where
  position : Vec3
  radius : FP
  element : E
  deriving DecidableEq

/-! ## The depth sorter `sorted` (ffmpeg.cpp, lines 30-59) -/

/-- The key `glm::dot(r, r)` with `r = camera - position` (lines 35-36): the squared
distance as computed in `float`. -/
def sqDist (camera position : Vec3) : FP :=
  Vec3.dot (Vec3.sub camera position) (Vec3.sub camera position)

/-- Lines 32-37: the array `dists` of pairs (key, index), in index order. -/
def dists {E : Type} (caffeine : Fin 24 → Atom E) (camera : Vec3) : List (FP × Fin 24) :=
  List.ofFn fun i => (sqDist camera (caffeine i).position, i)

/-- Lines 42-49: the comparator handed to `std::sort`, `a.first < b.first`. -/
def distLess (a b : FP × Fin 24) : Bool := FP.lt a.1 b.1

/-- The function `sorted`: the scene atoms in the order of the sorted `dists`
(lines 51-58).  `stdSort` is the `std::sort` call of lines 38-50. -/
def sorted {E : Type} (stdSort : List (FP × Fin 24) → List (FP × Fin 24))
    (caffeine : Fin 24 → Atom E) (camera : Vec3) : List (Atom E) :=
  (stdSort (dists caffeine camera)).map fun di => caffeine di.2

/-- The postcondition the C++ standard gives `std::sort(first, last, comp)`: the range
holds a permutation of what it held, and no element compares less than an element
before it (`comp(*(i + n), *i)` is false).  Nothing is promised about the relative
order of elements that compare equivalent. -/
def StdSortPost {α : Type} (comp : α → α → Bool) (input output : List α) : Prop :=
  output.Perm input ∧ output.Pairwise fun a b => comp b a = false

/-! ### The `std::sort` of GNU libstdc++

`gnuSort` follows `std::__sort` of libstdc++ (`bits/stl_algo.h`): an introsort loop
that partitions around a median-of-three pivot while a range is longer than 16
elements, then one insertion sort over the whole range.  It is one conforming
`std::sort`, used where the embedding is evaluated on a concrete scene. -/

section GnuSort

variable {α : Type} [Inhabited α]

/-- The operation `std::iter_swap` on positions `i` and `j`. -/
def iterSwap (l : List α) (i j : ℕ) : List α :=
  (l.set i (l.getD j default)).set j (l.getD i default)

/-- The routine `std::__move_median_to_first(result, a, b, c, comp)`. -/
def moveMedianToFirst (comp : α → α → Bool) (l : List α) (result a b c : ℕ) : List α :=
  let va := l.getD a default
  let vb := l.getD b default
  let vc := l.getD c default
  if comp va vb then
    if comp vb vc then iterSwap l result b
    else if comp va vc then iterSwap l result c
    else iterSwap l result a
  else if comp va vc then iterSwap l result a
  else if comp vb vc then iterSwap l result c
  else iterSwap l result b

/-- The scan `while (comp(first, pivot)) ++first;`. -/
def scanUp (comp : α → α → Bool) (l : List α) (pivot : ℕ) : ℕ → ℕ → ℕ
  | 0, first => first
  | fuel + 1, first =>
    if comp (l.getD first default) (l.getD pivot default) then scanUp comp l pivot fuel (first + 1)
    else first

/-- The scan `while (comp(pivot, last)) --last;`. -/
def scanDown (comp : α → α → Bool) (l : List α) (pivot : ℕ) : ℕ → ℕ → ℕ
  | 0, last => last
  | fuel + 1, last =>
    if comp (l.getD pivot default) (l.getD last default) then scanDown comp l pivot fuel (last - 1)
    else last

/-- The routine `std::__unguarded_partition(first, last, pivot, comp)`; it returns the
range and the cut. -/
def unguardedPartition (comp : α → α → Bool) (pivot : ℕ) : ℕ → List α → ℕ → ℕ → List α × ℕ
  | 0, l, first, _ => (l, first)
  | fuel + 1, l, first, last =>
    let first1 := scanUp comp l pivot l.length first
    let last1 := scanDown comp l pivot l.length (last - 1)
    if first1 < last1 then
      unguardedPartition comp pivot fuel (iterSwap l first1 last1) (first1 + 1) last1
    else (l, first1)

/-- The routine `std::__unguarded_partition_pivot(first, last, comp)`. -/
def unguardedPartitionPivot (comp : α → α → Bool) (l : List α) (first last : ℕ) : List α × ℕ :=
  let mid := first + (last - first) / 2
  let l1 := moveMedianToFirst comp l first (first + 1) mid (last - 1)
  unguardedPartition comp first l1.length l1 (first + 1) last

/-- The routine `std::__introsort_loop(first, last, depth_limit, comp)`.  With the depth
limit exhausted on a range longer than 16 the library falls back to a heap sort,
which is not embedded: the result is `none` there.  (On 24 elements the limit is 8
and every partition shortens the range, so the fallback is not reached.) -/
def introsortLoop (comp : α → α → Bool) : ℕ → List α → ℕ → ℕ → ℕ → Option (List α)
  | 0, _, _, _, _ => none
  | fuel + 1, l, first, last, depthLimit =>
    if last - first > 16 then
      if depthLimit = 0 then none
      else
        let pc := unguardedPartitionPivot comp l first last
        match introsortLoop comp fuel pc.1 pc.2 last (depthLimit - 1) with
        | none => none
        | some l1 => introsortLoop comp fuel l1 first pc.2 (depthLimit - 1)
    else some l

/-- The routine `std::__unguarded_linear_insert(last, comp)`, with the moved value. -/
def unguardedLinearInsert (comp : α → α → Bool) (val : α) : ℕ → List α → ℕ → List α
  | 0, l, last => l.set last val
  | fuel + 1, l, last =>
    if comp val (l.getD (last - 1) default) then
      unguardedLinearInsert comp val fuel (l.set last (l.getD (last - 1) default)) (last - 1)
    else l.set last val

/-- One step of `std::__insertion_sort(first, last, comp)` at position `i`: an element
less than the first one is moved to the front (`std::move_backward`), any other is
inserted by `__unguarded_linear_insert`. -/
def insertionStep (comp : α → α → Bool) (l : List α) (first i : ℕ) : List α :=
  let val := l.getD i default
  if comp val (l.getD first default) then
    l.take first ++ val :: ((l.drop first).take (i - first) ++ l.drop (i + 1))
  else unguardedLinearInsert comp val l.length l i

/-- The loop `for (i = first + 1; i != last; ++i)` of `std::__insertion_sort`. -/
def insertionSortFrom (comp : α → α → Bool) (first : ℕ) : ℕ → List α → ℕ → List α
  | 0, l, _ => l
  | n + 1, l, i => insertionSortFrom comp first n (insertionStep comp l first i) (i + 1)

/-- The loop of `std::__unguarded_insertion_sort(first, last, comp)`. -/
def unguardedInsertionSortFrom (comp : α → α → Bool) : ℕ → List α → ℕ → List α
  | 0, l, _ => l
  | n + 1, l, i =>
    unguardedInsertionSortFrom comp n
      (unguardedLinearInsert comp (l.getD i default) l.length l i) (i + 1)

/-- The routine `std::__final_insertion_sort(first, last, comp)` on the whole range. -/
def finalInsertionSort (comp : α → α → Bool) (l : List α) : List α :=
  if l.length > 16 then
    unguardedInsertionSortFrom comp (l.length - 16) (insertionSortFrom comp 0 15 l 1) 16
  else insertionSortFrom comp 0 (l.length - 1) l 1

/-- The routine `std::__sort(first, last, comp)` of libstdc++ on a whole range. -/
def gnuSort (comp : α → α → Bool) (l : List α) : Option (List α) :=
  if l.length = 0 then some l
  else
    match introsortLoop comp (l.length + 1) l 0 l.length (lg l.length * 2) with
    | none => none
    | some l1 => some (finalInsertionSort comp l1)

end GnuSort

/-- The insertion of `val` into a list held in reverse (last element first), moving
past the elements that `val` is less than: what `__unguarded_linear_insert` does to
the part of the range before `last`, written as a function on lists. -/
def insertReversed {α : Type} (comp : α → α → Bool) (val : α) : List α → List α
  | [] => [val]
  | y :: ys => if comp val y then y :: insertReversed comp val ys else val :: y :: ys

/-! ## The per-pixel render loop of `main` (ffmpeg.cpp, lines 99-143) -/

/-- The frame-buffer index `i*width*4 + j*4` of the first byte of pixel (row `i`,
column `j`). -/
def pixelOffset (width i j : ℕ) : ℕ := i * width * 4 + j * 4

/-- Lines 129-130: the light vector `l = camera - atom.position`, normalised. -/
def lightVector (camera position : Vec3) : Vec3 :=
  Vec3.divs (Vec3.sub camera position) (Vec3.length (Vec3.sub camera position))

/-- The `double` literal `0.0001`. -/
def ambient : FP := binary64.round (1 / 10000)

/-- Line 131: `float lighting = 0.0001 + 0.75*std::max(glm::dot(-normal, l), 0.0f)`.
The scalar product and the maximum are `float`; the product with `0.75` and the sum
with `0.0001` are `double`; the initialisation converts the sum to `float`. -/
def lighting (camera position normal : Vec3) : FP :=
  FP.cvt binary32
    (FP.add binary64 ambient
      (FP.mul binary64 (FP.fin (3 / 4))
        (FP.max (Vec3.dot (Vec3.neg normal) (lightVector camera position)) (FP.fin 0))))

/-- Lines 132-134: a colour byte `uint8_t(255*channel*lighting)`; both products are
`float`. -/
def colourByte (channel lighting : FP) : ℕ :=
  toUInt8 (FP.mul binary32 (FP.mul binary32 (FP.fin 255) channel) lighting)

/-- Four byte stores `frame[off] = r; frame[off+1] = g; frame[off+2] = b;
frame[off+3] = a`. -/
def storePixel (frame : List ℕ) (off r g b a : ℕ) : List ℕ :=
  (((frame.set off r).set (off + 1) g).set (off + 2) b).set (off + 3) a

/-- Lines 117-138: the loop over the sorted atoms.  The first atom whose
`sphereIntersection` reports a hit is shaded and the loop is left (`break`); with no
hit the frame is returned as it came.  `CPK_COLOURS.at` throws `std::out_of_range`
for an element without an entry: the result is `none` then. -/
def shadeLoop {E : Type} (CPK_COLOURS : E → Option Vec4) (camera ray : Vec3)
    (off : ℕ) : List (Atom E) → List ℕ → Option (List ℕ)
  | [], frame => some frame
  | atom :: rest, frame =>
    match sphereIntersection atom.position atom.radius ray camera with
    | some posnorm =>
      match CPK_COLOURS atom.element with
      | none => none
      | some colour =>
        some (storePixel frame off
          (colourByte colour.r (lighting camera atom.position posnorm.2))
          (colourByte colour.g (lighting camera atom.position posnorm.2))
          (colourByte colour.b (lighting camera atom.position posnorm.2)) 255)
    | none => shadeLoop CPK_COLOURS camera ray off rest frame

/-- Lines 113-138, the body of the loop over `j` for one pixel: the background colour
(5, 5, 5, 255) is stored, then the atoms are tried in order. -/
def renderPixel {E : Type} (CPK_COLOURS : E → Option Vec4) (camera : Vec3)
    (atoms : List (Atom E)) (width i j : ℕ) (ray : Vec3) (frame : List ℕ) :
    Option (List ℕ) :=
  shadeLoop CPK_COLOURS camera ray (pixelOffset width i j) atoms
    (storePixel frame (pixelOffset width i j) 5 5 5 255)

/-- Lines 111-112: the ray through the view-plane point `(pj, pi, 0)`, normalised. -/
def pixelRay (camera : Vec3) (pj pi : FP) : Vec3 :=
  Vec3.divs (Vec3.sub ⟨pj, pi, FP.fin 0⟩ camera)
    (Vec3.length (Vec3.sub ⟨pj, pi, FP.fin 0⟩ camera))

/-- The value of `pj` (or `pi`) after `n` steps `pj += dj` from `0.0`. -/
def stepped (d : FP) : ℕ → FP
  | 0 => FP.fin 0
  | n + 1 => FP.add binary32 (stepped d n) d

/-- Lines 108-140: the loop over the columns `j` of row `i`; `pj` advances by `dj`.
The first argument counts the columns still to do. -/
def colLoop {E : Type} (CPK_COLOURS : E → Option Vec4) (camera : Vec3)
    (atoms : List (Atom E)) (width : ℕ) (dj : FP) (i : ℕ) (pi : FP) :
    ℕ → ℕ → FP → List ℕ → Option (List ℕ)
  | 0, _, _, frame => some frame
  | n + 1, j, pj, frame =>
    match renderPixel CPK_COLOURS camera atoms width i j (pixelRay camera pj pi) frame with
    | none => none
    | some frame1 =>
      colLoop CPK_COLOURS camera atoms width dj i pi n (j + 1) (FP.add binary32 pj dj) frame1

/-- Lines 104-142: the loop over the rows `i`; `pi` advances by `di`.  The first
argument counts the rows still to do. -/
def rowLoop {E : Type} (CPK_COLOURS : E → Option Vec4) (camera : Vec3)
    (atoms : List (Atom E)) (width : ℕ) (di dj : FP) :
    ℕ → ℕ → FP → List ℕ → Option (List ℕ)
  | 0, _, _, frame => some frame
  | n + 1, i, pi, frame =>
    match colLoop CPK_COLOURS camera atoms width dj i pi width 0 (FP.fin 0) frame with
    | none => none
    | some frame1 =>
      rowLoop CPK_COLOURS camera atoms width di dj n (i + 1) (FP.add binary32 pi di) frame1

/-- One pass of the frame loop of `main` (lines 104-142) over a frame buffer: all
`height` rows of `width` pixels, for the given sorted atoms. -/
def renderFrame {E : Type} (CPK_COLOURS : E → Option Vec4) (camera : Vec3)
    (atoms : List (Atom E)) (width height : ℕ) (di dj : FP) (frame : List ℕ) :
    Option (List ℕ) :=
  rowLoop CPK_COLOURS camera atoms width di dj height 0 (FP.fin 0) frame

/-! ## IEEE-754 binary64 arithmetic for the timestamp of `write`

The expression `(1.0 / float(fps)) * 90000 * (frameCounter++)` of `H265.h`, line 180,
is evaluated in `double`: `float(fps)` is exact for a 16-bit `fps`, and each of the
division and the two products is rounded to the nearest binary64 value, ties to
even.  The embedding keeps values as rationals and rounds them with `fl`.  The
exponent range is not bounded in `fl`; the values of line 180 lie between `2^-16` and
`2^33`, far from underflow and overflow. -/

/-- Rounding of a rational to binary64 (53 significant bits), to nearest, ties to
even. -/
def fl (q : ℚ) : ℚ :=
  if q = 0 then 0
  else (roundNearestEven (q / (2 : ℚ) ^ (binExp q - 52)) : ℚ) * (2 : ℚ) ^ (binExp q - 52)

/-- The `double` value of `(1.0 / float(fps)) * 90000`. -/
def ticksPerFrame (fps : ℕ) : ℚ := fl (fl (1 / (fps : ℚ)) * 90000)

/-- Line 180: the value stored in `videoFrame->pts` for a given `frameCounter`,
`(1.0 / float(fps)) * 90000 * frameCounter` converted to `int64_t` by truncation
towards zero. -/
def ptsOf (fps frameCounter : ℕ) : ℤ := truncToInt (fl (ticksPerFrame fps * (frameCounter : ℚ)))


/-! ## `H265Encoder` (H265.h) -/

/-- The value `AV_NOPTS_VALUE` that `av_frame_alloc` leaves in `pts`. -/
def AV_NOPTS_VALUE : ℤ := -9223372036854775808

/-- The error code `AVERROR(EINVAL)`. -/
def AVERROR_EINVAL : ℤ := -22

/-- The error code `AVERROR_EOF`. -/
def AVERROR_EOF : ℤ := -541478725

/-- The members of `struct H265Encoder` that its methods read and write, and the
state of the library objects they act on.  `videoFrame` is `none` for `nullptr`
and otherwise holds the frame's `pts`; `swsCtx` tells whether the conversion
context exists; `noFile` is the flag `oformat->flags & AVFMT_NOFILE`; `packets`
counts the packets handed to `av_interleaved_write_frame`.  `codecOpen` and
`draining` are the state of the codec context `cctx` inside libavcodec: whether
`avcodec_open2` has opened it, and whether a null frame has put it into draining
mode.  The encoder itself has no member that records its lifecycle. -/
structure H265Encoder where
  videoFrame : Option ℤ
  swsCtx : Bool
  noFile : Bool
  packets : ℕ
  codecOpen : Bool
  draining : Bool
  fps : ℕ
  width : ℕ
  height : ℕ
  bitrate : ℕ
  frameCounter : ℕ
  deriving DecidableEq

/-- What the FFmpeg calls of the constructor report. -/
structure ConstructEnv where
  guessFormat : Bool
  allocOutputContext : ℤ
  findEncoder : Bool
  newStream : Bool
  allocContext : Bool
  noFile : Bool

/-- The constructor (lines 32-91): five library objects are obtained, each failure
throws; the members keep their initialisers (`frameCounter = 0`, null frame and
conversion context).  The codec context is allocated, not opened. -/
def H265Encoder.construct (env : ConstructEnv) (width height fps : ℕ) :
    Except String H265Encoder :=
  if env.guessFormat = false then .error "Can't create output format"
  else if env.allocOutputContext ≠ 0 then .error "Can't create output context"
  else if env.findEncoder = false then .error "Can't create codec"
  else if env.newStream = false then .error "Can't find format"
  else if env.allocContext = false then .error "Can't create codec context"
  else .ok
    { videoFrame := none, swsCtx := false, noFile := env.noFile, packets := 0,
      codecOpen := false, draining := false,
      fps := fps % 65536, width := width % 65536, height := height % 65536,
      bitrate := 2000000, frameCounter := 0 }

/-- What the FFmpeg calls of `open` report: `avcodec_open2`, `avio_open`,
`avformat_write_header`. -/
structure OpenEnv where
  codecOpen : ℤ
  avioOpen : ℤ
  writeHeader : ℤ

/-- The method `open` (lines 113-134): the codec is opened, then the file, then the
header is written, a failure of each throwing.  A successful `avcodec_open2` leaves
the codec open whatever follows: an exception thrown for the file or the header
does not close it. -/
def H265Encoder.open (e : H265Encoder) (env : OpenEnv) : H265Encoder × Except String Unit :=
  if env.codecOpen < 0 then (e, .error "Failed to open codec")
  else if e.noFile = false ∧ env.avioOpen < 0 then
    ({ e with codecOpen := true }, .error "Failed to open file")
  else if env.writeHeader < 0 then ({ e with codecOpen := true }, .error "Failed to write header")
  else ({ e with codecOpen := true }, .ok ())

/-- What the FFmpeg calls of one `write` report: `av_frame_get_buffer` (consulted only
when the frame is allocated), `avcodec_send_frame` on an open codec that is not
draining, `avcodec_receive_packet`. -/
structure WriteEnv where
  getBuffer : ℤ
  sendFrame : ℤ
  receivePacket : ℤ

/-- The answer of `avcodec_send_frame(cctx, videoFrame)`.  libavcodec documents two
refusals (`avcodec.h`): `AVERROR(EINVAL)` when the codec is not opened and
`AVERROR_EOF` when the encoder has been flushed; otherwise the answer is the
library's (`env.sendFrame`). -/
def sendFrameResult (e : H265Encoder) (env : WriteEnv) : ℤ :=
  if e.codecOpen = false then AVERROR_EINVAL
  else if e.draining = true then AVERROR_EOF
  else env.sendFrame

/-- The method `write` (lines 136-196); the result pairs the encoder after the call
with the outcome, an error for a thrown `std::runtime_error`.

* lines 138-148: a null `videoFrame` is allocated; a failing `av_frame_get_buffer`
  throws, the frame staying allocated;
* lines 149-164: the conversion context is created if absent;
* line 180: `pts` is set from `frameCounter`, which is then incremented (16 bits);
* lines 181-184: a negative `avcodec_send_frame` throws;
* lines 186-195: a packet, if one is received, goes to the container.

The method consults no lifecycle state: the encoder has none. -/
def H265Encoder.write (e : H265Encoder) (env : WriteEnv) : H265Encoder × Except String Unit :=
  if e.videoFrame = none ∧ env.getBuffer < 0 then
    ({ e with videoFrame := some AV_NOPTS_VALUE }, .error "Failed to allocate picture")
  else
    let e1 : H265Encoder :=
      { e with
        videoFrame := some (ptsOf e.fps e.frameCounter)
        swsCtx := true
        frameCounter := (e.frameCounter + 1) % 65536 }
    if sendFrameResult e env < 0 then (e1, .error "Failed to send frame")
    else if env.receivePacket = 0 then ({ e1 with packets := e1.packets + 1 }, .ok ())
    else (e1, .ok ())

/-- What the FFmpeg calls of `finish` report.  `pending` is the number of packets the
encoder still holds: `avcodec_receive_packet` returns 0 that many times and a
non-zero code afterwards.  `writeTrailer` and `avioClose` are the results of
`av_write_trailer` and `avio_close`. -/
structure FinishEnv where
  pending : ℕ
  writeTrailer : ℤ
  avioClose : ℤ

/-- Lines 204-216: the drain loop of `finish`; each received packet is written, the
first non-zero result of `avcodec_receive_packet` ends the loop. -/
def drainLoop : ℕ → ℕ → ℕ
  | 0, packets => packets
  | pending + 1, packets => drainLoop pending (packets + 1)

/-- The method `finish` (lines 198-226): the encoder is drained, `av_write_trailer` is
called and its result is dropped (line 218), and, unless the format has
`AVFMT_NOFILE`, a negative `avio_close` throws (lines 219-225).  The null frame of
line 206 puts an open codec into draining mode; on a codec that is not open both
library calls of the loop fail and the loop ends at once. -/
def H265Encoder.finish (e : H265Encoder) (env : FinishEnv) : H265Encoder × Except String Unit :=
  let e1 : H265Encoder :=
    if e.codecOpen = true then
      { e with draining := true, packets := drainLoop env.pending e.packets }
    else e
  if e.noFile = false then
    if env.avioClose < 0 then (e1, .error "Failed to close file") else (e1, .ok ())
  else (e1, .ok ())

/-- Successive calls of `write`, one per library response, whatever each call's
outcome (a caller may catch the exception and go on). -/
def H265Encoder.writeAll (e : H265Encoder) : List WriteEnv → H265Encoder
  | [] => e
  | env :: rest => H265Encoder.writeAll (e.write env).1 rest

/-- The `pts` held by the encoder's frame after the first `k` calls of `write`, that
is, the timestamp assigned by the `k`-th call. -/
def ptsAfter (e : H265Encoder) (envs : List WriteEnv) (k : ℕ) : Option ℤ :=
  (e.writeAll (envs.take k)).videoFrame

/-! ## The claims' own words

Definitions that follow the wording of the specification where it differs from the
code; they are compared with the code in the theorems. -/

/-- The lighting factor with the light vector of the specification, "normalized
(camera position - hit point)": the computation of `lighting`, with the hit point
on the sphere in the place of the atom's centre. -/
def specLighting (camera hitPoint normal : Vec3) : FP :=
  FP.cvt binary32
    (FP.add binary64 ambient
      (FP.mul binary64 (FP.fin (3 / 4))
        (FP.max (Vec3.dot (Vec3.neg normal) (lightVector camera hitPoint)) (FP.fin 0))))

/-- The discriminant of the specification,
`b*b - (|center|^2 + |camera|^2 - radius^2 - 2*dot(center, camera))` with
`b = dot(camera, ray) - dot(ray, center)`, in exact arithmetic, for finite operands
(0 where an operand is not finite). -/
def exactDiscriminant : Vec3 → FP → Vec3 → Vec3 → ℚ
  | ⟨FP.fin cx, FP.fin cy, FP.fin cz⟩, FP.fin r, ⟨FP.fin dx, FP.fin dy, FP.fin dz⟩,
      ⟨FP.fin px, FP.fin py, FP.fin pz⟩ =>
    ((px * dx + py * dy + pz * dz) - (dx * cx + dy * cy + dz * cz))
        * ((px * dx + py * dy + pz * dz) - (dx * cx + dy * cy + dz * cz))
      - ((cx * cx + cy * cy + cz * cz) + (px * px + py * py + pz * pz) - r * r
          - 2 * (cx * px + cy * py + cz * pz))
  | _, _, _, _ => 0

/-- The squared Euclidean distance between two points with finite coordinates, exact:
the quantity the specification orders the atoms by.  (0 where a coordinate is
not finite.) -/
def exactSqDist (camera position : Vec3) : ℚ :=
  match camera, position with
  | ⟨FP.fin cx, FP.fin cy, FP.fin cz⟩, ⟨FP.fin px, FP.fin py, FP.fin pz⟩ =>
    (cx - px) * (cx - px) + (cy - py) * (cy - py) + (cz - pz) * (cz - pz)
  | _, _ => 0

/-! ## Scenes and encoders for concrete evaluation -/

/-- The point or vector with the given finite coordinates. -/
def vec (x y z : ℚ) : Vec3 := ⟨FP.fin x, FP.fin y, FP.fin z⟩

/-- A colour table giving every element the colour (1, 1/2, 0, 1). -/
def orangeTable (_ : ℕ) : Option Vec4 := some ⟨FP.fin 1, FP.fin (1 / 2), FP.fin 0, FP.fin 1⟩

/-- A colour table giving every element the colour white. -/
def whiteTable (_ : ℕ) : Option Vec4 := some ⟨FP.fin 1, FP.fin 1, FP.fin 1, FP.fin 1⟩

/-- An atom of radius 2 at the origin. -/
def originAtom : Atom ℕ := ⟨vec 0 0 0, FP.fin 2, 0⟩

/-- An atom of radius 13 centred at (12, 0, 16). -/
def sideAtom : Atom ℕ := ⟨vec 12 0 16, FP.fin 13, 0⟩

/-- The `std::sort` of libstdc++ as a total function on `dists` (the identity where
`gnuSort` has no value). -/
def gnuStdSort (l : List (FP × Fin 24)) : List (FP × Fin 24) := (gnuSort distLess l).getD l

/-- Twenty-four atoms on a line, atom `i` at `(i - 12, 0, 0)`, tagged by their index. -/
def lineScene (i : Fin 24) : Atom ℕ := ⟨vec ((i.val : ℚ) - 12) 0 0, FP.fin 1, i.val⟩

/-- Twenty-four atoms in two columns, atoms `2k` and `2k + 1` at `(3, k, 0)` and
`(-3, k, 0)`, tagged by their index: seen from a camera on the z axis the two atoms
of a pair are equidistant and the pairs are in order of increasing distance. -/
def ladderScene (i : Fin 24) : Atom ℕ :=
  ⟨vec (if i.val % 2 = 0 then 3 else -3) ((i.val / 2 : ℕ) : ℚ) 0, FP.fin 1, i.val⟩

/-- Twenty-four atoms close together on a line, atom `i` at `(i/8192, 0, 0)`, tagged
by their index. -/
def denseScene (i : Fin 24) : Atom ℕ := ⟨vec ((i.val : ℚ) / 8192) 0 0, FP.fin 1, i.val⟩

/-- Twenty-four atoms of which the first two are at (1/4, 0, 3/512) and
(1/256, 0, 5/1024) and atom `i`, for `i ≥ 2`, is at `(i, 0, 0)`, tagged by their
index.  From the camera (0, 0, 32) atom 0 is the nearest and atom 1 the next, by
3/1048576 in squared distance. -/
def invertedScene (i : Fin 24) : Atom ℕ :=
  ⟨if i.val = 0 then vec (1 / 4) 0 (3 / 512)
    else if i.val = 1 then vec (1 / 256) 0 (5 / 1024)
    else vec (i.val : ℚ) 0 0, FP.fin 1, i.val⟩

/-- Library responses under which the constructor succeeds, for a format that needs
a file (`AVFMT_NOFILE` clear). -/
def okConstructEnv : ConstructEnv :=
  { guessFormat := true, allocOutputContext := 0, findEncoder := true, newStream := true,
    allocContext := true, noFile := false }

/-- The encoder as the constructor leaves it for `("out.mp4", 64, 64, 30)`: nothing
opened, nothing written. -/
def freshEncoder : H265Encoder :=
  { videoFrame := none, swsCtx := false, noFile := false, packets := 0,
    codecOpen := false, draining := false, fps := 30,
    width := 64, height := 64, bitrate := 2000000, frameCounter := 0 }

/-- Library responses of an `open` in which every call succeeds. -/
def okOpenEnv : OpenEnv := { codecOpen := 0, avioOpen := 0, writeHeader := 0 }

/-- Library responses of a `write` in which every call succeeds and the encoder
yields no packet yet (`avcodec_receive_packet` returns `AVERROR(EAGAIN)`, -11). -/
def okWriteEnv : WriteEnv := { getBuffer := 0, sendFrame := 0, receivePacket := -11 }

/-- Library responses of a `finish` in which writing the trailer fails (-5,
`AVERROR(EIO)`) and closing the file succeeds. -/
def trailerFailsEnv : FinishEnv := { pending := 0, writeTrailer := -5, avioClose := 0 }

/-- Library responses of a `finish` in which everything succeeds, two packets being
drained. -/
def okFinishEnv : FinishEnv := { pending := 2, writeTrailer := 0, avioClose := 0 }

/-- The encoder for `("out.mp4", 64, 64, 30)` after a successful `open`. -/
def openedEncoder : H265Encoder := (freshEncoder.open okOpenEnv).1

/-- The encoder for a frame rate of 7 after a successful `open`. -/
def sevenFpsEncoder : H265Encoder := { openedEncoder with fps := 7 }

/-! ## Theorems -/

/-! ### Rounding -/

theorem lgAux_spec (fuel : ℕ) : ∀ n : ℕ, n ≤ fuel → 1 ≤ n →
    2 ^ lgAux fuel n ≤ n ∧ n < 2 ^ (lgAux fuel n + 1) := by
  induction fuel with
  | zero => intro n h0 h1; omega
  | succ fuel ih =>
    intro n hn h1
    unfold lgAux
    split
    · constructor <;> simp <;> omega
    · rename_i h2
      have hdiv : n / 2 ≤ fuel := by omega
      have hdiv1 : 1 ≤ n / 2 := by omega
      obtain ⟨ha, hb⟩ := ih (n / 2) hdiv hdiv1
      rw [pow_succ] at hb ⊢
      rw [pow_succ]
      constructor <;> omega

theorem lg_spec (n : ℕ) (h : 1 ≤ n) : 2 ^ lg n ≤ n ∧ n < 2 ^ (lg n + 1) :=
  lgAux_spec n n le_rfl h

theorem abs_eq_natAbs_div_den (q : ℚ) : |q| = (q.num.natAbs : ℚ) / (q.den : ℚ) := by
  have h : (q.num.natAbs : ℚ) = |(q.num : ℚ)| := by
    rw [Nat.cast_natAbs, Int.cast_abs]
  rw [h]
  nth_rewrite 1 [← Rat.num_div_den q]
  rw [abs_div, abs_of_pos (show (0 : ℚ) < (q.den : ℚ) by exact_mod_cast q.den_pos)]

theorem two_zpow_binExp_le (q : ℚ) (hq : q ≠ 0) : (2 : ℚ) ^ binExp q ≤ |q| := by
  unfold binExp
  simp only
  split
  · assumption
  · have hn : 1 ≤ q.num.natAbs := Nat.one_le_iff_ne_zero.mpr (by simpa using hq)
    have hd : 1 ≤ q.den := q.den_pos
    obtain ⟨hn1, _⟩ := lg_spec _ hn
    obtain ⟨_, hd2⟩ := lg_spec _ hd
    have h1 : (2 : ℚ) ^ lg q.num.natAbs ≤ (q.num.natAbs : ℚ) := by exact_mod_cast hn1
    have h2 : (q.den : ℚ) ≤ (2 : ℚ) ^ (lg q.den + 1) := by exact_mod_cast hd2.le
    have hdpos : (0 : ℚ) < (q.den : ℚ) := by exact_mod_cast q.den_pos
    have e : (2 : ℚ) ^ ((lg q.num.natAbs : ℤ) - (lg q.den : ℤ) - 1)
        = (2 : ℚ) ^ lg q.num.natAbs / (2 : ℚ) ^ (lg q.den + 1) := by
      have : ((lg q.num.natAbs : ℤ) - (lg q.den : ℤ) - 1)
          = ((lg q.num.natAbs : ℕ) : ℤ) - ((lg q.den + 1 : ℕ) : ℤ) := by push_cast; ring
      rw [this, zpow_sub₀ (two_ne_zero), zpow_natCast, zpow_natCast]
    rw [e, abs_eq_natAbs_div_den]
    calc (2 : ℚ) ^ lg q.num.natAbs / (2 : ℚ) ^ (lg q.den + 1)
        ≤ (q.num.natAbs : ℚ) / (2 : ℚ) ^ (lg q.den + 1) :=
          div_le_div_of_nonneg_right h1 (by positivity)
      _ ≤ (q.num.natAbs : ℚ) / (q.den : ℚ) :=
          div_le_div_of_nonneg_left (by positivity) hdpos h2

theorem abs_roundNearestEven_sub_le (q : ℚ) : |(roundNearestEven q : ℚ) - q| ≤ 1 / 2 := by
  have h0 := Int.floor_le q
  have h1 := Int.lt_floor_add_one q
  unfold roundNearestEven
  split
  · rw [abs_le]; constructor <;> linarith
  · split
    · rw [abs_le]; push_cast; constructor <;> linarith
    · split
      · rw [abs_le]; constructor <;> linarith
      · rw [abs_le]; push_cast; constructor <;> linarith

theorem roundNearestEven_intCast (z : ℤ) : roundNearestEven (z : ℚ) = z := by
  unfold roundNearestEven
  simp

theorem quantum_pos (f : Fmt) (q : ℚ) : 0 < f.quantum q := by
  unfold Fmt.quantum; positivity

theorem quantum_le (f : Fmt) (q : ℚ) (hq : q ≠ 0) :
    f.quantum q ≤ |q| * (2 : ℚ) ^ (-((f.prec : ℤ) - 1)) + (2 : ℚ) ^ (f.emin - ((f.prec : ℤ) - 1)) := by
  unfold Fmt.quantum
  have hb := two_zpow_binExp_le q hq
  have h1 : (0 : ℚ) ≤ |q| * (2 : ℚ) ^ (-((f.prec : ℤ) - 1)) := by positivity
  have h2 : (0 : ℚ) ≤ (2 : ℚ) ^ (f.emin - ((f.prec : ℤ) - 1)) := by positivity
  rcases le_total (binExp q) f.emin with h | h
  · rw [max_eq_right h]; linarith
  · rw [max_eq_left h]
    have e : (2 : ℚ) ^ (binExp q - ((f.prec : ℤ) - 1))
        = (2 : ℚ) ^ binExp q * (2 : ℚ) ^ (-((f.prec : ℤ) - 1)) := by
      rw [← zpow_add₀ (two_ne_zero)]; congr 1
    rw [e]
    have h3 : (2 : ℚ) ^ binExp q * (2 : ℚ) ^ (-((f.prec : ℤ) - 1))
        ≤ |q| * (2 : ℚ) ^ (-((f.prec : ℤ) - 1)) :=
      mul_le_mul_of_nonneg_right hb (by positivity)
    linarith

theorem abs_roundQ_sub_le (f : Fmt) (q : ℚ) :
    |f.roundQ q - q| ≤ (|q| * (2 : ℚ) ^ (-((f.prec : ℤ) - 1))
      + (2 : ℚ) ^ (f.emin - ((f.prec : ℤ) - 1))) / 2 := by
  unfold Fmt.roundQ
  split
  · rename_i h
    subst h
    simp only [sub_self, abs_zero, zero_mul, zero_add]
    positivity
  · rename_i hq
    have hU := quantum_pos f q
    have hr := abs_roundNearestEven_sub_le (q / f.quantum q)
    have hle := quantum_le f q hq
    have e1 : (roundNearestEven (q / f.quantum q) : ℚ) * f.quantum q - q
        = ((roundNearestEven (q / f.quantum q) : ℚ) - q / f.quantum q) * f.quantum q := by
      field_simp
    rw [e1, abs_mul, abs_of_pos hU]
    calc |(roundNearestEven (q / f.quantum q) : ℚ) - q / f.quantum q| * f.quantum q
        ≤ 1 / 2 * f.quantum q := mul_le_mul_of_nonneg_right hr hU.le
      _ ≤ _ := by linarith

/-- binary32 rounding: error at most `|q|/2^24 + 1/2^150`, and no overflow up to `2^127`. -/
theorem round32 (q : ℚ) (hq : |q| ≤ 2 ^ 127) :
    binary32.round q = FP.fin (binary32.roundQ q) ∧
    |binary32.roundQ q - q| ≤ |q| / 2 ^ 24 + 1 / 2 ^ 150 := by
  have h := abs_roundQ_sub_le binary32 q
  have e1 : (2 : ℚ) ^ (-(((binary32.prec : ℕ) : ℤ) - 1)) = 1 / 2 ^ 23 := by
    norm_num [binary32]
  have e2 : (2 : ℚ) ^ (binary32.emin - (((binary32.prec : ℕ) : ℤ) - 1)) = 1 / 2 ^ 149 := by
    norm_num [binary32]
  rw [e1, e2] at h
  have hb : |binary32.roundQ q - q| ≤ |q| / 2 ^ 24 + 1 / 2 ^ 150 := by
    have : (|q| * (1 / 2 ^ 23) + 1 / 2 ^ 149) / 2 = |q| / 2 ^ 24 + 1 / 2 ^ 150 := by ring
    rw [this] at h; exact h
  refine ⟨?_, hb⟩
  unfold Fmt.round
  have hlt : |binary32.roundQ q| < (2 : ℚ) ^ (binary32.emax + 1) := by
    have h3 : |binary32.roundQ q| ≤ |binary32.roundQ q - q| + |q| := by
      have := abs_add (binary32.roundQ q - q) q
      simpa using this
    have e3 : (2 : ℚ) ^ (binary32.emax + 1) = 2 ^ 128 := by
      norm_num [binary32]
    rw [e3]
    have h4 : |q| / 2 ^ 24 + 1 / 2 ^ 150 + |q| < (2 : ℚ) ^ 128 := by
      have : (0 : ℚ) ≤ |q| := abs_nonneg q
      norm_num at hq ⊢
      linarith
    linarith
  rw [if_neg (not_le.mpr hlt)]


theorem roundNearestEven_nonneg (q : ℚ) (hq : 0 ≤ q) : 0 ≤ roundNearestEven q := by
  have h0 : (0 : ℤ) ≤ ⌊q⌋ := Int.floor_nonneg.mpr hq
  unfold roundNearestEven
  split_ifs <;> omega

theorem roundQ_nonneg (f : Fmt) (q : ℚ) (hq : 0 ≤ q) : 0 ≤ f.roundQ q := by
  unfold Fmt.roundQ
  split
  · exact le_refl 0
  · have hU := quantum_pos f q
    have h1 : 0 ≤ roundNearestEven (q / f.quantum q) :=
      roundNearestEven_nonneg _ (div_nonneg hq hU.le)
    have h2 : (0 : ℚ) ≤ (roundNearestEven (q / f.quantum q) : ℚ) := by exact_mod_cast h1
    exact mul_nonneg h2 hU.le

/-- binary64 rounding: error at most `|q|/2^53 + 1/2^1075`, and no overflow up to
`2^1023`. -/
theorem round64 (q : ℚ) (hq : |q| ≤ 2 ^ 1023) :
    binary64.round q = FP.fin (binary64.roundQ q) ∧
    |binary64.roundQ q - q| ≤ |q| / 2 ^ 53 + 1 / 2 ^ 1075 := by
  have h := abs_roundQ_sub_le binary64 q
  have e1 : (2 : ℚ) ^ (-(((binary64.prec : ℕ) : ℤ) - 1)) = 1 / 2 ^ 52 := by
    norm_num [binary64]
  have e2 : (2 : ℚ) ^ (binary64.emin - (((binary64.prec : ℕ) : ℤ) - 1)) = 1 / 2 ^ 1074 := by
    norm_num [binary64]
  rw [e1, e2] at h
  have hb : |binary64.roundQ q - q| ≤ |q| / 2 ^ 53 + 1 / 2 ^ 1075 := by
    have : (|q| * (1 / 2 ^ 52) + 1 / 2 ^ 1074) / 2 = |q| / 2 ^ 53 + 1 / 2 ^ 1075 := by ring
    rw [this] at h; exact h
  refine ⟨?_, hb⟩
  unfold Fmt.round
  have hlt : |binary64.roundQ q| < (2 : ℚ) ^ (binary64.emax + 1) := by
    have h3 : |binary64.roundQ q| ≤ |binary64.roundQ q - q| + |q| := by
      have := abs_add (binary64.roundQ q - q) q
      simpa using this
    have e3 : (2 : ℚ) ^ (binary64.emax + 1) = 2 ^ 1024 := by
      norm_num [binary64]
    rw [e3]
    have h4 : |q| / 2 ^ 53 + 1 / 2 ^ 1075 + |q| < (2 : ℚ) ^ 1024 := by
      have : (0 : ℚ) ≤ |q| := abs_nonneg q
      norm_num at hq ⊢
      linarith
    linarith
  rw [if_neg (not_le.mpr hlt)]

/-- A binary32 rounding of a value of magnitude at most `K ≤ 2^127` is finite and
within `K/2^24 + 1/2^150` of it. -/
theorem round32_within (q K : ℚ) (hq : |q| ≤ K) (hK : K ≤ 2 ^ 127) :
    ∃ r : ℚ, binary32.round q = FP.fin r ∧ |r - q| ≤ K / 2 ^ 24 + 1 / 2 ^ 150 ∧
      (0 ≤ q → 0 ≤ r) := by
  obtain ⟨h1, h2⟩ := round32 q (le_trans hq hK)
  refine ⟨binary32.roundQ q, h1, ?_, roundQ_nonneg binary32 q⟩
  have : |q| / 2 ^ 24 ≤ K / 2 ^ 24 := by
    apply div_le_div_of_nonneg_right hq; positivity
  linarith

/-- A binary64 rounding of a value of magnitude at most `K ≤ 2^1023` is finite and
within `K/2^53 + 1/2^1075` of it. -/
theorem round64_within (q K : ℚ) (hq : |q| ≤ K) (hK : K ≤ 2 ^ 1023) :
    ∃ r : ℚ, binary64.round q = FP.fin r ∧ |r - q| ≤ K / 2 ^ 53 + 1 / 2 ^ 1075 ∧
      (0 ≤ q → 0 ≤ r) := by
  obtain ⟨h1, h2⟩ := round64 q (le_trans hq hK)
  refine ⟨binary64.roundQ q, h1, ?_, roundQ_nonneg binary64 q⟩
  have : |q| / 2 ^ 53 ≤ K / 2 ^ 53 := by
    apply div_le_div_of_nonneg_right hq; positivity
  linarith

/-- The scalar product of two finite vectors whose componentwise products have
magnitude at most `K`: the `float` result is finite and within `14K/2^24 + 7/2^150`
of the exact scalar product. -/
theorem dot_within (ax ay az bx b_y bz K : ℚ)
    (hx : |ax * bx| ≤ K) (hy : |ay * b_y| ≤ K) (hz : |az * bz| ≤ K) (hK : K ≤ 2 ^ 120) :
    ∃ d : ℚ, Vec3.dot (vec ax ay az) (vec bx b_y bz) = FP.fin d ∧
      |d - (ax * bx + ay * b_y + az * bz)| ≤ 14 * K / 2 ^ 24 + 7 / 2 ^ 150 := by
  have hK0 : 0 ≤ K := le_trans (abs_nonneg _) hx
  have hK127 : K ≤ 2 ^ 127 := by
    refine le_trans hK ?_; norm_num
  obtain ⟨px, epx, hpx, -⟩ := round32_within (ax * bx) K hx hK127
  obtain ⟨py, epy, hpy, -⟩ := round32_within (ay * b_y) K hy hK127
  obtain ⟨pz, epz, hpz, -⟩ := round32_within (az * bz) K hz hK127
  have hpx1 := abs_le.mp hpx
  have hpy1 := abs_le.mp hpy
  have hpz1 := abs_le.mp hpz
  have hx1 := abs_le.mp hx
  have hy1 := abs_le.mp hy
  have hz1 := abs_le.mp hz
  norm_num at hK hpx1 hpy1 hpz1
  have hs1 : |px + py| ≤ 3 * K + 2 / 2 ^ 150 := by
    rw [abs_le]; norm_num; constructor <;> linarith
  have hs1K : 3 * K + 2 / 2 ^ 150 ≤ (2 : ℚ) ^ 127 := by
    norm_num; linarith
  obtain ⟨s1, es1, hs1e, -⟩ := round32_within (px + py) _ hs1 hs1K
  have hs1e1 := abs_le.mp hs1e
  norm_num at hs1e1
  have hs2 : |s1 + pz| ≤ 5 * K + 5 / 2 ^ 150 := by
    rw [abs_le]; norm_num; constructor <;> linarith
  have hs2K : 5 * K + 5 / 2 ^ 150 ≤ (2 : ℚ) ^ 127 := by
    norm_num; linarith
  obtain ⟨s2, es2, hs2e, -⟩ := round32_within (s1 + pz) _ hs2 hs2K
  have hs2e1 := abs_le.mp hs2e
  norm_num at hs2e1
  refine ⟨s2, ?_, ?_⟩
  · have e : Vec3.dot (vec ax ay az) (vec bx b_y bz)
        = FP.add binary32 (FP.add binary32 (binary32.round (ax * bx))
            (binary32.round (ay * b_y))) (binary32.round (az * bz)) := rfl
    rw [e, epx, epy, epz]
    have e1 : FP.add binary32 (FP.fin px) (FP.fin py) = binary32.round (px + py) := rfl
    rw [e1, es1]
    have e2 : FP.add binary32 (FP.fin s1) (FP.fin pz) = binary32.round (s1 + pz) := rfl
    rw [e2, es2]
  · rw [abs_le]; norm_num; constructor <;> linarith

theorem isqrtBits_spec (n : ℕ) : ∀ k r : ℕ, r * r ≤ n → n < (r + 2 ^ k) * (r + 2 ^ k) →
    isqrtBits n k r * isqrtBits n k r ≤ n ∧ n < (isqrtBits n k r + 1) * (isqrtBits n k r + 1) := by
  intro k
  induction k with
  | zero =>
    intro r h1 h2
    simpa [isqrtBits] using And.intro h1 h2
  | succ k ih =>
    intro r h1 h2
    unfold isqrtBits
    split
    · rename_i h
      apply ih _ h
      have e : r + 2 ^ k + 2 ^ k = r + 2 ^ (k + 1) := by rw [pow_succ]; ring
      rw [e]; exact h2
    · rename_i h
      exact ih _ h1 (not_le.mp h)

theorem isqrt_spec (n : ℕ) : isqrt n * isqrt n ≤ n ∧ n < (isqrt n + 1) * (isqrt n + 1) := by
  unfold isqrt
  apply isqrtBits_spec
  · simp
  · rcases Nat.eq_zero_or_pos n with h | h
    · subst h; simp
    · have h1 := (lg_spec n h).2
      have h2 : lg n + 1 ≤ (lg n / 2 + 1) + (lg n / 2 + 1) := by omega
      have h3 : 2 ^ (lg n + 1) ≤ 2 ^ ((lg n / 2 + 1) + (lg n / 2 + 1)) :=
        Nat.pow_le_pow_right (by norm_num) h2
      simp only [zero_add]
      calc n < 2 ^ (lg n + 1) := h1
        _ ≤ 2 ^ ((lg n / 2 + 1) + (lg n / 2 + 1)) := h3
        _ = 2 ^ (lg n / 2 + 1) * 2 ^ (lg n / 2 + 1) := pow_add _ _ _

/-- A value whose square is below `q (1 - d)²` stays below `q` in square after a step
`U` with `U² ≤ d² q`. -/
theorem sq_lower_of_step (L U q d : ℚ) (hU : 0 ≤ U) (hq : 0 ≤ q) (hd0 : 0 ≤ d)
    (hd1 : d ≤ 1) (hstep : q < (L + U) * (L + U)) (hUq : U * U ≤ d * d * q) :
    q * ((1 - d) * (1 - d)) ≤ L * L := by
  by_contra hcon
  rw [not_le] at hcon
  have h1 : L * U ≤ (1 - d) * d * q := by
    have hsq : (L * U) * (L * U) ≤ ((1 - d) * d * q) * ((1 - d) * d * q) := by
      have : (L * U) * (L * U) = (L * L) * (U * U) := by ring
      rw [this]
      have h2 : (L * L) * (U * U) ≤ (q * ((1 - d) * (1 - d))) * (d * d * q) :=
        mul_le_mul hcon.le hUq (mul_nonneg hU hU) (by
          apply mul_nonneg hq; exact mul_self_nonneg _)
      calc (L * L) * (U * U) ≤ (q * ((1 - d) * (1 - d))) * (d * d * q) := h2
        _ = _ := by ring
    have hr : 0 ≤ (1 - d) * d * q := by
      apply mul_nonneg (mul_nonneg _ hd0) hq; linarith
    exact abs_le_of_sq_le_sq' (by simpa [sq] using hsq) hr |>.2
  nlinarith

/-- A value `a + U` with `a² ≤ q` and `U² ≤ d² q` has square at most `q (1 + d)²`. -/
theorem sq_upper_of_step (a U q d : ℚ) (hU : 0 ≤ U) (hq : 0 ≤ q) (hd0 : 0 ≤ d)
    (ha2 : a * a ≤ q) (hUq : U * U ≤ d * d * q) :
    (a + U) * (a + U) ≤ q * ((1 + d) * (1 + d)) := by
  have h1 : a * U ≤ d * q := by
    have hsq : (a * U) * (a * U) ≤ (d * q) * (d * q) := by
      have : (a * U) * (a * U) = (a * a) * (U * U) := by ring
      rw [this]
      calc (a * a) * (U * U) ≤ q * (d * d * q) :=
            mul_le_mul ha2 hUq (mul_nonneg hU hU) hq
        _ = _ := by ring
    have hr : 0 ≤ d * q := mul_nonneg hd0 hq
    exact abs_le_of_sq_le_sq' (by simpa [sq] using hsq) hr |>.2
  nlinarith

/-- The binary32 square root of `q ≥ 2^-252` is positive and its square is within the
factors `(1 ± 2^-23)²` of `q`. -/
theorem sqrtQ32_spec (q : ℚ) (hq : 1 / 2 ^ 252 ≤ q) :
    0 < binary32.sqrtQ q ∧
    q * ((1 - 1 / 2 ^ 23) * (1 - 1 / 2 ^ 23)) ≤ binary32.sqrtQ q * binary32.sqrtQ q ∧
    binary32.sqrtQ q * binary32.sqrtQ q ≤ q * ((1 + 1 / 2 ^ 23) * (1 + 1 / 2 ^ 23)) := by
  have hq0 : 0 < q := lt_of_lt_of_le (by positivity) hq
  have hU : 0 < binary32.sqrtQuantum q := by unfold Fmt.sqrtQuantum; positivity
  -- the quantum squared is at most 2^-46 q
  have hUq : binary32.sqrtQuantum q * binary32.sqrtQuantum q ≤ 1 / 2 ^ 23 * (1 / 2 ^ 23) * q := by
    have hb := two_zpow_binExp_le q hq0.ne'
    rw [abs_of_pos hq0] at hb
    have key : ∀ e : ℤ, (2 : ℚ) ^ (e + e) ≤ q →
        (2 : ℚ) ^ (e - 23) * (2 : ℚ) ^ (e - 23) ≤ 1 / 2 ^ 23 * (1 / 2 ^ 23) * q := by
      intro e he
      have e1 : (2 : ℚ) ^ (e - 23) * (2 : ℚ) ^ (e - 23)
          = 1 / 2 ^ 23 * (1 / 2 ^ 23) * (2 : ℚ) ^ (e + e) := by
        rw [zpow_sub₀ (two_ne_zero), zpow_add₀ (two_ne_zero)]
        norm_num
        ring
      rw [e1]
      exact mul_le_mul_of_nonneg_left he (by positivity)
    have hprec : ((binary32.prec : ℕ) : ℤ) - 1 = 23 := by norm_num [binary32]
    unfold Fmt.sqrtQuantum
    rw [hprec]
    apply key
    rcases le_total (Int.fdiv (binExp q) 2) binary32.emin with h | h
    · rw [max_eq_right h]
      have : (2 : ℚ) ^ (binary32.emin + binary32.emin) = 1 / 2 ^ 252 := by
        norm_num [binary32]
      rw [this]; exact hq
    · rw [max_eq_left h]
      have h2 : Int.fdiv (binExp q) 2 + Int.fdiv (binExp q) 2 ≤ binExp q := by
        rw [Int.fdiv_eq_ediv _ (by norm_num : (0 : ℤ) ≤ 2)]
        omega
      exact le_trans (zpow_le_zpow_right₀ (by norm_num) h2) hb
  -- the integer square root brackets q / U²
  set U := binary32.sqrtQuantum q with hUdef
  set m := binary32.sqrtQuanta q with hmdef
  have hx0 : 0 ≤ q / (U * U) := by positivity
  have hN1 : ((⌊q / (U * U)⌋.toNat : ℕ) : ℚ) ≤ q / (U * U) := by
    have h1 : ((⌊q / (U * U)⌋.toNat : ℕ) : ℤ) = ⌊q / (U * U)⌋ :=
      Int.toNat_of_nonneg (Int.floor_nonneg.mpr hx0)
    have h2 : ((⌊q / (U * U)⌋.toNat : ℕ) : ℚ) = ((⌊q / (U * U)⌋ : ℤ) : ℚ) := by
      exact_mod_cast congrArg (fun z : ℤ => (z : ℚ)) h1
    rw [h2]; exact Int.floor_le _
  have hN2 : q / (U * U) < ((⌊q / (U * U)⌋.toNat : ℕ) : ℚ) + 1 := by
    have h1 : ((⌊q / (U * U)⌋.toNat : ℕ) : ℤ) = ⌊q / (U * U)⌋ :=
      Int.toNat_of_nonneg (Int.floor_nonneg.mpr hx0)
    have h2 : ((⌊q / (U * U)⌋.toNat : ℕ) : ℚ) = ((⌊q / (U * U)⌋ : ℤ) : ℚ) := by
      exact_mod_cast congrArg (fun z : ℤ => (z : ℚ)) h1
    rw [h2]; exact Int.lt_floor_add_one _
  have hs := isqrt_spec (⌊q / (U * U)⌋.toNat)
  have hm1 : (m : ℚ) * (m : ℚ) ≤ q / (U * U) := by
    have : ((m * m : ℕ) : ℚ) ≤ ((⌊q / (U * U)⌋.toNat : ℕ) : ℚ) := by
      exact_mod_cast hs.1
    push_cast at this
    linarith
  have hm2 : q / (U * U) < ((m : ℚ) + 1) * ((m : ℚ) + 1) := by
    have : ((⌊q / (U * U)⌋.toNat + 1 : ℕ) : ℚ) ≤ (((m + 1) * (m + 1) : ℕ) : ℚ) := by
      exact_mod_cast hs.2
    push_cast at this
    linarith
  have hUU : 0 < U * U := mul_pos hU hU
  have hlo : ((m : ℚ) * U) * ((m : ℚ) * U) ≤ q := by
    have := (le_div_iff₀ hUU).mp hm1
    nlinarith
  have hhi : q < (((m : ℚ) + 1) * U) * (((m : ℚ) + 1) * U) := by
    have := (div_lt_iff₀ hUU).mp hm2
    nlinarith
  have hm0 : (0 : ℚ) ≤ (m : ℚ) := Nat.cast_nonneg m
  have hd0 : (0 : ℚ) ≤ 1 / 2 ^ 23 := by positivity
  have hd1 : (1 : ℚ) / 2 ^ 23 ≤ 1 := by norm_num
  -- the two candidates
  have candLo : q * ((1 - 1 / 2 ^ 23) * (1 - 1 / 2 ^ 23)) ≤ ((m : ℚ) * U) * ((m : ℚ) * U) ∧
      ((m : ℚ) * U) * ((m : ℚ) * U) ≤ q * ((1 + 1 / 2 ^ 23) * (1 + 1 / 2 ^ 23)) := by
    constructor
    · apply sq_lower_of_step ((m : ℚ) * U) U q (1 / 2 ^ 23) hU.le hq0.le
        hd0 hd1 _ hUq
      have : (m : ℚ) * U + U = ((m : ℚ) + 1) * U := by ring
      rw [this]; exact hhi
    · refine le_trans hlo ?_
      have : (1 : ℚ) ≤ (1 + 1 / 2 ^ 23) * (1 + 1 / 2 ^ 23) := by norm_num
      nlinarith
  have candHi : q * ((1 - 1 / 2 ^ 23) * (1 - 1 / 2 ^ 23))
        ≤ (((m : ℚ) + 1) * U) * (((m : ℚ) + 1) * U) ∧
      (((m : ℚ) + 1) * U) * (((m : ℚ) + 1) * U) ≤ q * ((1 + 1 / 2 ^ 23) * (1 + 1 / 2 ^ 23)) := by
    constructor
    · refine le_trans ?_ hhi.le
      have : (1 - 1 / 2 ^ 23) * (1 - 1 / 2 ^ 23) ≤ (1 : ℚ) := by norm_num
      nlinarith
    · have := sq_upper_of_step ((m : ℚ) * U) U q (1 / 2 ^ 23) hU.le hq0.le
        hd0 hlo hUq
      have e : (m : ℚ) * U + U = ((m : ℚ) + 1) * U := by ring
      rw [e] at this; exact this
  have hpos : ∀ L : ℚ, 0 ≤ L → q * ((1 - 1 / 2 ^ 23) * (1 - 1 / 2 ^ 23)) ≤ L * L → 0 < L := by
    intro L hL0 hL
    rcases eq_or_lt_of_le hL0 with h | h
    · exfalso
      rw [← h] at hL
      have : (0 : ℚ) < q * ((1 - 1 / 2 ^ 23) * (1 - 1 / 2 ^ 23)) := by
        apply mul_pos hq0; norm_num
      linarith
    · exact h
  have hcases : binary32.sqrtQ q = (m : ℚ) * U ∨ binary32.sqrtQ q = ((m : ℚ) + 1) * U := by
    unfold Fmt.sqrtQ
    rw [if_neg (not_le.mpr hq0)]
    split_ifs
    · left; rfl
    · right; rfl
    · left; rfl
    · right; rfl
  rcases hcases with h | h
  · rw [h]
    exact ⟨hpos _ (mul_nonneg hm0 hU.le) candLo.1, candLo.1, candLo.2⟩
  · rw [h]
    exact ⟨hpos _ (mul_nonneg (by linarith) hU.le) candHi.1, candHi.1, candHi.2⟩

theorem ambient_eq : ambient = FP.fin (7378697629483821 / 73786976294838206464) := by
  decide!

/-- Membership in the working range, spelled out. -/
theorem moderate_iff (v : Vec3) : v.moderate = true ↔
    ∃ x y z : ℚ, v = vec x y z ∧ |x| ≤ 2 ^ 40 ∧ |y| ≤ 2 ^ 40 ∧ |z| ≤ 2 ^ 40 ∧
      (1 / 2 ^ 40 ≤ |x| ∨ 1 / 2 ^ 40 ≤ |y| ∨ 1 / 2 ^ 40 ≤ |z|) := by
  constructor
  · intro h
    rcases v with ⟨x, y, z⟩
    cases x <;> cases y <;> cases z <;> simp [Vec3.moderate] at h
    rename_i x y z
    refine ⟨x, y, z, rfl, ?_⟩
    simpa [and_assoc, or_assoc] using h
  · rintro ⟨x, y, z, rfl, h⟩
    simp only [vec, Vec3.moderate]
    simpa [and_assoc, or_assoc] using h

/-- The exact squared length of a vector in the working range is between `2^-80` and
`3 * 2^80`. -/
theorem moderate_sq_bounds (x y z : ℚ) (hx : |x| ≤ 2 ^ 40) (hy : |y| ≤ 2 ^ 40)
    (hz : |z| ≤ 2 ^ 40)
    (hbig : 1 / 2 ^ 40 ≤ |x| ∨ 1 / 2 ^ 40 ≤ |y| ∨ 1 / 2 ^ 40 ≤ |z|) :
    1 / 2 ^ 80 ≤ x * x + y * y + z * z ∧ x * x + y * y + z * z ≤ 3 * 2 ^ 80 := by
  have sq_le : ∀ t : ℚ, |t| ≤ 2 ^ 40 → t * t ≤ 2 ^ 80 := by
    intro t ht
    have h0 : 0 ≤ |t| := abs_nonneg t
    have : |t| * |t| ≤ 2 ^ 40 * 2 ^ 40 := mul_le_mul ht ht h0 (by positivity)
    rw [abs_mul_abs_self] at this
    calc t * t ≤ 2 ^ 40 * 2 ^ 40 := this
      _ = 2 ^ 80 := by norm_num
  have sq_ge : ∀ t : ℚ, 1 / 2 ^ 40 ≤ |t| → 1 / 2 ^ 80 ≤ t * t := by
    intro t ht
    have h0 : (0 : ℚ) ≤ 1 / 2 ^ 40 := by positivity
    have : 1 / 2 ^ 40 * (1 / 2 ^ 40) ≤ |t| * |t| := mul_le_mul ht ht h0 (abs_nonneg t)
    rw [abs_mul_abs_self] at this
    calc (1 : ℚ) / 2 ^ 80 = 1 / 2 ^ 40 * (1 / 2 ^ 40) := by norm_num
      _ ≤ t * t := this
  have hx0 := mul_self_nonneg x
  have hy0 := mul_self_nonneg y
  have hz0 := mul_self_nonneg z
  have hx1 := sq_le x hx
  have hy1 := sq_le y hy
  have hz1 := sq_le z hz
  constructor
  · rcases hbig with h | h | h
    · have := sq_ge x h; linarith
    · have := sq_ge y h; linarith
    · have := sq_ge z h; linarith
  · linarith

/-- A quotient `x / L` with `x² ≤ 4 L²` has magnitude at most 2. -/
theorem abs_div_le_two (x L : ℚ) (hL : 0 < L) (h : x * x ≤ 4 * (L * L)) : |x / L| ≤ 2 := by
  have h1 : |x| ≤ 2 * L := by
    have hsq : x ^ 2 ≤ (2 * L) ^ 2 := by nlinarith
    have := abs_le_of_sq_le_sq' hsq (by linarith)
    exact abs_le.mpr this
  rw [abs_div, abs_of_pos hL, div_le_iff₀ hL]
  exact h1

/-- Squaring a perturbed value: `|(a + e)² - a²| ≤ 5 ε` for `|a| ≤ 2`, `|e| ≤ ε ≤ 1`. -/
theorem sq_perturb (a e ε : ℚ) (ha : |a| ≤ 2) (he : |e| ≤ ε) (hε : ε ≤ 1) :
    |(a + e) * (a + e) - a * a| ≤ 5 * ε := by
  have he0 : 0 ≤ |e| := abs_nonneg e
  have ha0 : 0 ≤ |a| := abs_nonneg a
  have h1 : |a * e| ≤ 2 * ε := by
    rw [abs_mul]
    exact mul_le_mul ha he he0 (by norm_num)
  have h2 : |e * e| ≤ ε := by
    rw [abs_mul]
    calc |e| * |e| ≤ ε * 1 := mul_le_mul he (le_trans he hε) he0 (le_trans he0 he)
      _ = ε := mul_one ε
  have e1 : (a + e) * (a + e) - a * a = 2 * (a * e) + e * e := by ring
  rw [e1]
  have h3 := abs_add (2 * (a * e)) (e * e)
  have h4 : |2 * (a * e)| = 2 * |a * e| := by
    rw [abs_mul]; norm_num
  linarith

/-- Normalisation in `float` (`v / glm::length(v)`, as `glm::normalize` and line 26
do it) of a vector in the working range gives a finite vector whose exact squared
length is within `2^-17` of 1. -/
theorem normalize_within (x y z : ℚ) (hx : |x| ≤ 2 ^ 40) (hy : |y| ≤ 2 ^ 40)
    (hz : |z| ≤ 2 ^ 40)
    (hbig : 1 / 2 ^ 40 ≤ |x| ∨ 1 / 2 ^ 40 ≤ |y| ∨ 1 / 2 ^ 40 ≤ |z|) :
    ∃ nx ny nz : ℚ,
      Vec3.divs (vec x y z) (Vec3.length (vec x y z)) = vec nx ny nz ∧
      |nx * nx + ny * ny + nz * nz - 1| ≤ 1 / 2 ^ 17 := by
  obtain ⟨hT1, hT2⟩ := moderate_sq_bounds x y z hx hy hz hbig
  have hx0 := mul_self_nonneg x
  have hy0 := mul_self_nonneg y
  have hz0 := mul_self_nonneg z
  set T := x * x + y * y + z * z with hT
  have hT0 : 0 < T := lt_of_lt_of_le (by positivity) hT1
  have hK : T ≤ 2 ^ 120 := le_trans hT2 (by norm_num)
  obtain ⟨S, eS, hS⟩ := dot_within x y z x y z T
    (by rw [abs_of_nonneg hx0]; linarith) (by rw [abs_of_nonneg hy0]; linarith)
    (by rw [abs_of_nonneg hz0]; linarith) hK
  have hS1 := abs_le.mp hS
  rw [← hT] at hS1
  norm_num at hS1 hT1
  have hSlo : T * (1 - 1 / 2 ^ 20) ≤ S := by norm_num; linarith
  have hShi : S ≤ T * (1 + 1 / 2 ^ 20) := by norm_num; linarith
  have hS252 : (1 : ℚ) / 2 ^ 252 ≤ S := by norm_num at hSlo ⊢; linarith
  obtain ⟨hL0, hLlo, hLhi⟩ := sqrtQ32_spec S hS252
  set L := binary32.sqrtQ S with hL
  have hS0 : 0 ≤ S := le_trans (by positivity) hS252
  have eL : Vec3.length (vec x y z) = FP.fin L := by
    unfold Vec3.length
    rw [eS]
    simp only [FP.sqrt]
    rw [if_neg (not_lt.mpr hS0)]
  -- the square of the length against the exact squared length
  have hLT1 : T * (1 - 1 / 2 ^ 19) ≤ L * L := by
    have h1 : T * (1 - 1 / 2 ^ 20) * ((1 - 1 / 2 ^ 23) * (1 - 1 / 2 ^ 23))
        ≤ S * ((1 - 1 / 2 ^ 23) * (1 - 1 / 2 ^ 23)) :=
      mul_le_mul_of_nonneg_right hSlo (by norm_num)
    have h2 : T * (1 - 1 / 2 ^ 19)
        ≤ T * (1 - 1 / 2 ^ 20) * ((1 - 1 / 2 ^ 23) * (1 - 1 / 2 ^ 23)) := by
      have : (1 - 1 / 2 ^ 19 : ℚ) ≤ (1 - 1 / 2 ^ 20) * ((1 - 1 / 2 ^ 23) * (1 - 1 / 2 ^ 23)) := by
        norm_num
      calc T * (1 - 1 / 2 ^ 19)
          ≤ T * ((1 - 1 / 2 ^ 20) * ((1 - 1 / 2 ^ 23) * (1 - 1 / 2 ^ 23))) :=
            mul_le_mul_of_nonneg_left this hT0.le
        _ = _ := by ring
    linarith
  have hLT2 : L * L ≤ T * (1 + 1 / 2 ^ 19) := by
    have h1 : S * ((1 + 1 / 2 ^ 23) * (1 + 1 / 2 ^ 23))
        ≤ T * (1 + 1 / 2 ^ 20) * ((1 + 1 / 2 ^ 23) * (1 + 1 / 2 ^ 23)) :=
      mul_le_mul_of_nonneg_right hShi (by norm_num)
    have h2 : T * (1 + 1 / 2 ^ 20) * ((1 + 1 / 2 ^ 23) * (1 + 1 / 2 ^ 23))
        ≤ T * (1 + 1 / 2 ^ 19) := by
      have : (1 + 1 / 2 ^ 20) * ((1 + 1 / 2 ^ 23) * (1 + 1 / 2 ^ 23)) ≤ (1 + 1 / 2 ^ 19 : ℚ) := by
        norm_num
      calc T * (1 + 1 / 2 ^ 20) * ((1 + 1 / 2 ^ 23) * (1 + 1 / 2 ^ 23))
          = T * ((1 + 1 / 2 ^ 20) * ((1 + 1 / 2 ^ 23) * (1 + 1 / 2 ^ 23))) := by ring
        _ ≤ T * (1 + 1 / 2 ^ 19) := mul_le_mul_of_nonneg_left this hT0.le
    linarith
  norm_num at hLT1 hLT2
  have hLL : 0 < L * L := mul_pos hL0 hL0
  -- the exact quotients
  have hq : ∀ t : ℚ, t * t ≤ T → |t / L| ≤ 2 := by
    intro t ht
    apply abs_div_le_two t L hL0
    linarith
  have hd : ∀ t : ℚ, t * t ≤ T →
      ∃ n : ℚ, FP.div binary32 (FP.fin t) (FP.fin L) = FP.fin n ∧
        |(t / L + (n - t / L)) * (t / L + (n - t / L)) - t / L * (t / L)| ≤ 5 * (3 / 2 ^ 24) := by
    intro t ht
    obtain ⟨n, en, hn, -⟩ := round32_within (t / L) 2 (hq t ht) (by norm_num)
    refine ⟨n, ?_, ?_⟩
    · simp only [FP.div]
      rw [if_neg hL0.ne', en]
    · apply sq_perturb _ _ _ (hq t ht) _ (by norm_num)
      refine le_trans hn ?_
      norm_num
  obtain ⟨nx, enx, hnx⟩ := hd x (by linarith)
  obtain ⟨ny, eny, hny⟩ := hd y (by linarith)
  obtain ⟨nz, enz, hnz⟩ := hd z (by linarith)
  refine ⟨nx, ny, nz, ?_, ?_⟩
  · rw [eL]
    simp only [Vec3.divs, vec]
    rw [enx, eny, enz]
  · have e1 : ∀ t n : ℚ, (t / L + (n - t / L)) = n := by intro t n; ring
    rw [e1] at hnx hny hnz
    have hW : x / L * (x / L) + y / L * (y / L) + z / L * (z / L) = T / (L * L) := by
      rw [hT]; field_simp
    have hW1 : T / (L * L) ≤ 1 + 1 / 2 ^ 18 := by
      rw [div_le_iff₀ hLL]
      norm_num
      linarith
    have hW2 : 1 - 1 / 2 ^ 18 ≤ T / (L * L) := by
      rw [le_div_iff₀ hLL]
      norm_num
      linarith
    have hnx1 := abs_le.mp hnx
    have hny1 := abs_le.mp hny
    have hnz1 := abs_le.mp hnz
    norm_num at hnx1 hny1 hnz1 hW1 hW2
    rw [abs_le]
    norm_num
    constructor <;> linarith

/-- The square of a rounded difference against the square of the exact one. -/
theorem sq_sub_sq_le (e r : ℚ) (he : |e| ≤ 2 ^ 40) (h : |r - e| ≤ |e| / 2 ^ 24 + 1 / 2 ^ 150) :
    |r * r - e * e| ≤ 3 * (e * e) / 2 ^ 24 + 1 / 2 ^ 108 := by
  have ha0 : 0 ≤ |e| := abs_nonneg e
  have hd0 : 0 ≤ |r - e| := abs_nonneg _
  have hX : |e| * |e| = e * e := abs_mul_abs_self e
  have e1 : r * r - e * e = (r - e) * ((r - e) + 2 * e) := by ring
  have h2 : |(r - e) + 2 * e| ≤ |r - e| + 2 * |e| := by
    have := abs_add (r - e) (2 * e)
    have e2 : |2 * e| = 2 * |e| := by rw [abs_mul]; norm_num
    linarith
  have h3 : |r * r - e * e| ≤ |r - e| * (|r - e| + 2 * |e|) := by
    rw [e1, abs_mul]
    exact mul_le_mul_of_nonneg_left h2 hd0
  have h4 : |r - e| * (|r - e| + 2 * |e|)
      ≤ (|e| / 2 ^ 24 + 1 / 2 ^ 150) * ((|e| / 2 ^ 24 + 1 / 2 ^ 150) + 2 * |e|) :=
    mul_le_mul h (by linarith) (by positivity) (by positivity)
  have h5 : (|e| / 2 ^ 24 + 1 / 2 ^ 150) * ((|e| / 2 ^ 24 + 1 / 2 ^ 150) + 2 * |e|)
      = e * e * (1 / 2 ^ 48 + 2 / 2 ^ 24) + |e| * (2 / 2 ^ 174 + 2 / 2 ^ 150) + 1 / 2 ^ 300 := by
    rw [← hX]; ring
  have h6 : |e| * (2 / 2 ^ 174 + 2 / 2 ^ 150) ≤ 2 ^ 40 * (2 / 2 ^ 174 + 2 / 2 ^ 150) :=
    mul_le_mul_of_nonneg_right he (by positivity)
  have h7 : e * e * (1 / 2 ^ 48 + 2 / 2 ^ 24) ≤ e * e * (3 / 2 ^ 24) :=
    mul_le_mul_of_nonneg_left (by norm_num) (mul_self_nonneg e)
  have h8 : (2 : ℚ) ^ 40 * (2 / 2 ^ 174 + 2 / 2 ^ 150) + 1 / 2 ^ 300 ≤ 1 / 2 ^ 108 := by
    norm_num
  have h9 : e * e * (3 / 2 ^ 24) = 3 * (e * e) / 2 ^ 24 := by ring
  linarith

/-- The key of lines 35-36 against the exact squared distance: for a camera and a
centre with finite coordinates whose exact difference has components of magnitude
at most `2^40`, one of them at least `2^-40`, the key computed in `float` is finite
and within the relative error `2^-19` of the squared Euclidean distance. -/
theorem sqDist_within (cx cy cz px py pz : ℚ)
    (hmod : (vec (cx - px) (cy - py) (cz - pz)).moderate = true) :
    ∃ k : ℚ, sqDist (vec cx cy cz) (vec px py pz) = FP.fin k ∧
      |k - ((cx - px) * (cx - px) + (cy - py) * (cy - py) + (cz - pz) * (cz - pz))|
        ≤ ((cx - px) * (cx - px) + (cy - py) * (cy - py) + (cz - pz) * (cz - pz)) / 2 ^ 19 := by
  obtain ⟨x, y, z, hv, hx, hy, hz, hbig⟩ := (moderate_iff _).mp hmod
  have hvx : cx - px = x := by
    have := congrArg Vec3.x hv; simpa [vec] using this
  have hvy : cy - py = y := by
    have := congrArg Vec3.y hv; simpa [vec] using this
  have hvz : cz - pz = z := by
    have := congrArg Vec3.z hv; simpa [vec] using this
  rw [hvx, hvy, hvz]
  obtain ⟨hE1, hE2⟩ := moderate_sq_bounds x y z hx hy hz hbig
  have h127 : ∀ t : ℚ, |t| ≤ 2 ^ 40 → |t| ≤ 2 ^ 127 := fun t ht => le_trans ht (by norm_num)
  obtain ⟨erx, hrx⟩ := round32 x (h127 x hx)
  obtain ⟨ery, hry⟩ := round32 y (h127 y hy)
  obtain ⟨erz, hrz⟩ := round32 z (h127 z hz)
  have hsx := sq_sub_sq_le x _ hx hrx
  have hsy := sq_sub_sq_le y _ hy hry
  have hsz := sq_sub_sq_le z _ hz hrz
  have hsx1 := abs_le.mp hsx
  have hsy1 := abs_le.mp hsy
  have hsz1 := abs_le.mp hsz
  have hx0 := mul_self_nonneg x
  have hy0 := mul_self_nonneg y
  have hz0 := mul_self_nonneg z
  have hrx0 := mul_self_nonneg (binary32.roundQ x)
  have hry0 := mul_self_nonneg (binary32.roundQ y)
  have hrz0 := mul_self_nonneg (binary32.roundQ z)
  norm_num at hsx1 hsy1 hsz1 hE1 hE2
  -- the exact squared length of the rounded difference
  have hT1 : (x * x + y * y + z * z) * (1 - 4 / 2 ^ 24)
      ≤ binary32.roundQ x * binary32.roundQ x + binary32.roundQ y * binary32.roundQ y
        + binary32.roundQ z * binary32.roundQ z := by
    norm_num; linarith
  have hT2 : binary32.roundQ x * binary32.roundQ x + binary32.roundQ y * binary32.roundQ y
        + binary32.roundQ z * binary32.roundQ z
      ≤ (x * x + y * y + z * z) * (1 + 4 / 2 ^ 24) := by
    norm_num; linarith
  norm_num at hT1 hT2
  obtain ⟨k, ek, hk⟩ := dot_within (binary32.roundQ x) (binary32.roundQ y) (binary32.roundQ z)
    (binary32.roundQ x) (binary32.roundQ y) (binary32.roundQ z)
    (binary32.roundQ x * binary32.roundQ x + binary32.roundQ y * binary32.roundQ y
        + binary32.roundQ z * binary32.roundQ z)
    (by rw [abs_of_nonneg hrx0]; linarith) (by rw [abs_of_nonneg hry0]; linarith)
    (by rw [abs_of_nonneg hrz0]; linarith) (by norm_num; linarith)
  have hk1 := abs_le.mp hk
  norm_num at hk1
  refine ⟨k, ?_, ?_⟩
  · have e : sqDist (vec cx cy cz) (vec px py pz)
        = Vec3.dot
            ⟨binary32.round (cx + -px), binary32.round (cy + -py), binary32.round (cz + -pz)⟩
            ⟨binary32.round (cx + -px), binary32.round (cy + -py), binary32.round (cz + -pz)⟩ :=
      rfl
    have e1 : cx + -px = x := by rw [← hvx]; ring
    have e2 : cy + -py = y := by rw [← hvy]; ring
    have e3 : cz + -pz = z := by rw [← hvz]; ring
    rw [e, e1, e2, e3, erx, ery, erz]
    exact ek
  · rw [abs_le]
    norm_num
    constructor <;> linarith

/-- The Cauchy-Schwarz inequality for three components. -/
theorem dot_sq_le (ax ay az bx b_y bz : ℚ) :
    (ax * bx + ay * b_y + az * bz) * (ax * bx + ay * b_y + az * bz)
      ≤ (ax * ax + ay * ay + az * az) * (bx * bx + b_y * b_y + bz * bz) := by
  nlinarith [sq_nonneg (ax * b_y - ay * bx), sq_nonneg (ax * bz - az * bx),
    sq_nonneg (ay * bz - az * b_y)]

theorem abs_mul_le_half_sq (a b : ℚ) : |a * b| ≤ (a * a + b * b) / 2 := by
  rw [abs_le]
  constructor
  · nlinarith [sq_nonneg (a + b)]
  · nlinarith [sq_nonneg (a - b)]

/-- The maximum `std::max(d, 0.0f)` of a finite value. -/
theorem max_fin_zero (d : ℚ) : FP.max (FP.fin d) (FP.fin 0) = FP.fin (max d 0) := by
  unfold FP.max
  simp only [FP.lt]
  by_cases h : d < 0
  · rw [if_pos (by simpa using h), max_eq_right h.le]
  · rw [if_neg (by simpa using h), max_eq_left (not_lt.mp h)]

/-- A binary64 rounding of a value of magnitude at most 1 is within `10^-15` of it. -/
theorem round64_unit (q : ℚ) (hq : |q| ≤ 1) :
    ∃ r : ℚ, binary64.round q = FP.fin r ∧ |r - q| ≤ 1 / 1000000000000000 ∧ (0 ≤ q → 0 ≤ r) := by
  obtain ⟨r, er, hr, h0⟩ := round64_within q 1 hq (by norm_num)
  refine ⟨r, er, le_trans hr ?_, h0⟩
  norm_num

/-- A binary32 rounding of a value of magnitude at most 1 is within `6/10^8` of it. -/
theorem round32_unit (q : ℚ) (hq : |q| ≤ 1) :
    ∃ r : ℚ, binary32.round q = FP.fin r ∧ |r - q| ≤ 6 / 100000000 ∧ (0 ≤ q → 0 ≤ r) := by
  obtain ⟨r, er, hr, h0⟩ := round32_within q 1 hq (by norm_num)
  refine ⟨r, er, le_trans hr ?_, h0⟩
  norm_num

/-- The lighting expression of line 131 on two finite vectors whose exact squared
lengths are within `2^-17` of 1: the `float` result is finite and lies between
0.0000999 and 0.7502. -/
theorem lighting_within (nx ny nz lx ly lz : ℚ)
    (hn : |nx * nx + ny * ny + nz * nz - 1| ≤ 1 / 2 ^ 17)
    (hl : |lx * lx + ly * ly + lz * lz - 1| ≤ 1 / 2 ^ 17) :
    ∃ lam : ℚ,
      FP.cvt binary32
        (FP.add binary64 ambient
          (FP.mul binary64 (FP.fin (3 / 4))
            (FP.max (Vec3.dot (Vec3.neg (vec nx ny nz)) (vec lx ly lz)) (FP.fin 0))))
        = FP.fin lam ∧
      999 / 10000000 ≤ lam ∧ lam ≤ 7502 / 10000 := by
  have hn1 := abs_le.mp hn
  have hl1 := abs_le.mp hl
  norm_num at hn1 hl1
  have hnx := mul_self_nonneg nx
  have hny := mul_self_nonneg ny
  have hnz := mul_self_nonneg nz
  have hlx := mul_self_nonneg lx
  have hly := mul_self_nonneg ly
  have hlz := mul_self_nonneg lz
  have hprod : ∀ a b : ℚ, a * a ≤ 2 → b * b ≤ 2 → |-a * b| ≤ 2 := by
    intro a b ha hb
    have := abs_mul_le_half_sq (-a) b
    have e : -a * -a = a * a := by ring
    rw [e] at this
    linarith
  obtain ⟨d, ed, hd⟩ := dot_within (-nx) (-ny) (-nz) lx ly lz 2
    (hprod nx lx (by linarith) (by linarith)) (hprod ny ly (by linarith) (by linarith))
    (hprod nz lz (by linarith) (by linarith)) (by norm_num)
  have hd2 : |d - (-nx * lx + -ny * ly + -nz * lz)| ≤ 1 / 500000 :=
    le_trans hd (by norm_num)
  have hd1 := abs_le.mp hd2
  -- the exact scalar product is at most 1 + 2^-17
  have hD : -nx * lx + -ny * ly + -nz * lz ≤ 1 + 1 / 100000 := by
    have hcs := dot_sq_le (-nx) (-ny) (-nz) lx ly lz
    have e : -nx * -nx + -ny * -ny + -nz * -nz = nx * nx + ny * ny + nz * nz := by ring
    rw [e] at hcs
    have hNL : (nx * nx + ny * ny + nz * nz) * (lx * lx + ly * ly + lz * lz)
        ≤ (1 + 1 / 100000) * (1 + 1 / 100000) := by
      apply mul_le_mul _ _ (by linarith) (by norm_num)
      · linarith
      · linarith
    have hsq : (-nx * lx + -ny * ly + -nz * lz) ^ 2 ≤ (1 + 1 / 100000 : ℚ) ^ 2 := by
      rw [sq, sq]; linarith
    exact (abs_le_of_sq_le_sq' hsq (by norm_num)).2
  have hm0 : 0 ≤ max d 0 := le_max_right d 0
  have hm1 : max d 0 ≤ 1 + 2 / 100000 := by
    apply max_le
    · linarith
    · norm_num
  obtain ⟨t, et, ht, ht0⟩ := round64_unit (3 / 4 * max d 0)
    (by rw [abs_of_nonneg (by positivity)]; linarith)
  have ht1 := abs_le.mp ht
  have ht2 := ht0 (by positivity)
  obtain ⟨s, es, hs, -⟩ := round64_unit (7378697629483821 / 73786976294838206464 + t)
    (by
      rw [abs_of_nonneg (by positivity)]
      linarith)
  have hs1 := abs_le.mp hs
  have hs_lo : 9999 / 100000000 ≤ s := by linarith
  have hs_hi : s ≤ 75015 / 100000 := by linarith
  obtain ⟨lam, elam, hlam, -⟩ := round32_unit s
    (by rw [abs_of_nonneg (by linarith)]; linarith)
  have hlam1 := abs_le.mp hlam
  refine ⟨lam, ?_, ?_, ?_⟩
  · have e1 : Vec3.neg (vec nx ny nz) = vec (-nx) (-ny) (-nz) := rfl
    rw [e1, ed, max_fin_zero, ambient_eq]
    have e2 : FP.mul binary64 (FP.fin (3 / 4)) (FP.fin (max d 0))
        = binary64.round (3 / 4 * max d 0) := rfl
    rw [e2, et]
    have e3 : FP.add binary64 (FP.fin (7378697629483821 / 73786976294838206464)) (FP.fin t)
        = binary64.round (7378697629483821 / 73786976294838206464 + t) := rfl
    rw [e3, es]
    exact elam
  · linarith
  · linarith

/-- A colour byte `uint8_t(255*c*lighting)` for a channel `c` in [0, 1] and a lighting
factor in [0, 0.7502]: the `float` product `X` is in [0, 256), the byte is its integer
part (nothing wraps around) and is at most `255 c`. -/
theorem colourByte_within (c lam : ℚ) (hc0 : 0 ≤ c) (hc1 : c ≤ 1) (hl0 : 0 ≤ lam)
    (hl1 : lam ≤ 7502 / 10000) :
    ∃ X : ℚ, FP.mul binary32 (FP.mul binary32 (FP.fin 255) (FP.fin c)) (FP.fin lam) = FP.fin X ∧
      0 ≤ X ∧ X < 256 ∧ colourByte (FP.fin c) (FP.fin lam) = ⌊X⌋.toNat ∧
      ((colourByte (FP.fin c) (FP.fin lam) : ℕ) : ℚ) ≤ 255 * c := by
  have h255 : (0 : ℚ) ≤ 255 * c := by positivity
  obtain ⟨p, ep, hp, hp0⟩ := round32_within (255 * c) (255 * c)
    (by rw [abs_of_nonneg h255]) (by norm_num; linarith)
  have hp1 := abs_le.mp hp
  have hp2 := hp0 h255
  have hpl0 : 0 ≤ p * lam := mul_nonneg hp2 hl0
  have hpl1 : p * lam ≤ p * (7502 / 10000) := mul_le_mul_of_nonneg_left hl1 hp2
  obtain ⟨X, eX, hX, hX0⟩ := round32_within (p * lam) (p * lam)
    (by rw [abs_of_nonneg hpl0]) (by norm_num at hp1 ⊢; linarith)
  have hX1 := abs_le.mp hX
  have hX2 := hX0 hpl0
  have hXhi : X ≤ 255 * c * (7503 / 10000) + 2 / 2 ^ 150 := by
    norm_num at hp1 hX1 hpl1 ⊢
    linarith
  have hX256 : X < 256 := by
    norm_num at hXhi ⊢
    linarith
  have eprod : FP.mul binary32 (FP.mul binary32 (FP.fin 255) (FP.fin c)) (FP.fin lam)
      = FP.fin X := by
    have e1 : FP.mul binary32 (FP.fin 255) (FP.fin c) = binary32.round (255 * c) := rfl
    rw [e1, ep]
    exact eX
  have hfl0 : 0 ≤ ⌊X⌋ := Int.floor_nonneg.mpr hX2
  have hfl1 : ⌊X⌋ < 256 := by
    apply Int.floor_lt.mpr
    exact_mod_cast hX256
  have ebyte : colourByte (FP.fin c) (FP.fin lam) = ⌊X⌋.toNat := by
    unfold colourByte
    rw [eprod]
    have ht : truncToInt X = ⌊X⌋ := by
      unfold truncToInt; rw [if_pos hX2]
    simp only [toUInt8, ht]
    rw [if_pos (by rw [abs_of_nonneg hfl0]; omega)]
    congr 1
    omega
  refine ⟨X, eprod, hX2, hX256, ebyte, ?_⟩
  rw [ebyte]
  have hcast : ((⌊X⌋.toNat : ℕ) : ℚ) = ((⌊X⌋ : ℤ) : ℚ) := by
    have h1 : ((⌊X⌋.toNat : ℕ) : ℤ) = ⌊X⌋ := Int.toNat_of_nonneg hfl0
    exact_mod_cast congrArg (fun z : ℤ => (z : ℚ)) h1
  rw [hcast]
  rcases eq_or_lt_of_le hfl0 with h0 | hpos
  · rw [← h0]; simpa using h255
  · have h1 : (1 : ℤ) ≤ ⌊X⌋ := hpos
    have h1q : (1 : ℚ) ≤ ((⌊X⌋ : ℤ) : ℚ) := by exact_mod_cast h1
    have hfX : ((⌊X⌋ : ℤ) : ℚ) ≤ X := Int.floor_le X
    norm_num at hXhi
    linarith

/-! ### `sphereIntersection` -/

/-- C7, as the code has it: `sphereIntersection` reports a hit exactly when the
comparison `det < 0` of line 22 is false for the `det` that lines 19-21 compute in
floating point.  For a finite computed `det` that is when it is 0 or more (a
computed 0 is a hit); a `det` that is NaN or +infinity is a hit as well, one that
is -infinity is a miss.  The computed `det` is
`b*b - (dot(center,center) + dot(camera,camera) - radius*radius - 2.0*dot(center,camera))`
with `b = dot(camera, ray) - dot(ray, center)`, in `float` except for the product
with `2.0` and the two subtractions around it, which are in `double`. -/
theorem sphereIntersection_hit_iff_not_det_lt_zero (center : Vec3) (radius : FP)
    (rayDirector cameraPosition : Vec3) :
    ((sphereIntersection center radius rayDirector cameraPosition).isSome = true ↔
      FP.lt (discriminant center radius rayDirector cameraPosition) (FP.fin 0) = false) ∧
    (∀ q : ℚ, discriminant center radius rayDirector cameraPosition = FP.fin q →
      ((sphereIntersection center radius rayDirector cameraPosition).isSome = true ↔ 0 ≤ q)) ∧
    (discriminant center radius rayDirector cameraPosition = FP.nan →
      (sphereIntersection center radius rayDirector cameraPosition).isSome = true) ∧
    (discriminant center radius rayDirector cameraPosition = FP.inf false →
      (sphereIntersection center radius rayDirector cameraPosition).isSome = true) ∧
    (discriminant center radius rayDirector cameraPosition = FP.inf true →
      (sphereIntersection center radius rayDirector cameraPosition).isSome = false) ∧
    discriminant center radius rayDirector cameraPosition
      = FP.cvt binary32
          (FP.sub binary64
            (FP.mul binary32
              (FP.sub binary32 (Vec3.dot cameraPosition rayDirector)
                (Vec3.dot rayDirector center))
              (FP.sub binary32 (Vec3.dot cameraPosition rayDirector)
                (Vec3.dot rayDirector center)))
            (FP.sub binary64
              (FP.sub binary32
                (FP.add binary32 (Vec3.dot center center)
                  (Vec3.dot cameraPosition cameraPosition))
                (FP.mul binary32 radius radius))
              (FP.mul binary64 (FP.fin 2) (Vec3.dot center cameraPosition)))) := by
  have key : (sphereIntersection center radius rayDirector cameraPosition).isSome = true ↔
      FP.lt (discriminant center radius rayDirector cameraPosition) (FP.fin 0) = false := by
    unfold sphereIntersection
    cases h : FP.lt (discriminant center radius rayDirector cameraPosition) (FP.fin 0) <;> simp
  refine ⟨key, ?_, ?_, ?_, ?_, rfl⟩
  · intro q hq
    rw [key, hq]
    simp [FP.lt]
  · intro h
    rw [key, h]
    rfl
  · intro h
    rw [key, h]
    rfl
  · intro h
    have : ¬ ((sphereIntersection center radius rayDirector cameraPosition).isSome = true) := by
      rw [key, h]
      simp [FP.lt]
    simpa using this

/-- C7 as stated fails, in both directions.  (1) Camera (0, 0, 32), ray (0, 0, -1), a
sphere of radius 459/2048 centred at (459/2048, 0, 6): the ray is tangent to the
sphere, the discriminant of the claim is exactly 0, but the `det` computed in
`float` is -1/8192 and a miss is reported.  (2) Camera (2^64, 2, 0), ray (1, 0, 0), a
sphere of radius 1 at the origin: the ray passes at distance 2 from the centre, the
discriminant of the claim is -3, but the computed `det` is NaN (infinity minus
infinity), `det < 0` is false and a hit is reported, with NaN vectors. -/
theorem sphereIntersection_tangent_miss_and_nan_hit :
    (exactDiscriminant (vec (459 / 2048) 0 6) (FP.fin (459 / 2048)) (vec 0 0 (-1)) (vec 0 0 32) = 0 ∧
      discriminant (vec (459 / 2048) 0 6) (FP.fin (459 / 2048)) (vec 0 0 (-1)) (vec 0 0 32)
        = FP.fin (-1 / 8192) ∧
      sphereIntersection (vec (459 / 2048) 0 6) (FP.fin (459 / 2048)) (vec 0 0 (-1)) (vec 0 0 32)
        = none) ∧
    (exactDiscriminant (vec 0 0 0) (FP.fin 1) (vec 1 0 0) (vec (2 ^ 64) 2 0) = -3 ∧
      discriminant (vec 0 0 0) (FP.fin 1) (vec 1 0 0) (vec (2 ^ 64) 2 0) = FP.nan ∧
      sphereIntersection (vec 0 0 0) (FP.fin 1) (vec 1 0 0) (vec (2 ^ 64) 2 0)
        = some (⟨FP.nan, FP.nan, FP.nan⟩, ⟨FP.nan, FP.nan, FP.nan⟩)) := by
  refine ⟨⟨by decide!, by decide!, by decide!⟩, by decide!, by decide!, by decide!⟩

/-- The result of `sphereIntersection` on the hit branch, and the unit length of the
normal up to rounding. -/
theorem sphereIntersection_of_not_det_lt_zero (center : Vec3) (radius : FP)
    (rayDirector cameraPosition : Vec3)
    (hdet : FP.lt (discriminant center radius rayDirector cameraPosition) (FP.fin 0) = false) :
    sphereIntersection center radius rayDirector cameraPosition
      = some (hitOffset center radius rayDirector cameraPosition,
          Vec3.divs (hitNormalRaw center radius rayDirector cameraPosition)
            (Vec3.length (hitNormalRaw center radius rayDirector cameraPosition))) := by
  unfold sphereIntersection
  rw [hdet]
  rfl

/-- A normalised vector of the working range is finite with squared length within
`2^-17` of 1. -/
theorem normalize_moderate (v : Vec3) (h : v.moderate = true) :
    ∃ nx ny nz : ℚ, Vec3.divs v (Vec3.length v) = vec nx ny nz ∧
      |nx * nx + ny * ny + nz * nz - 1| ≤ 1 / 2 ^ 17 := by
  obtain ⟨x, y, z, rfl, hx, hy, hz, hbig⟩ := (moderate_iff v).mp h
  exact normalize_within x y z hx hy hz hbig

theorem storePixel_length (frame : List ℕ) (off r g b a : ℕ) :
    (storePixel frame off r g b a).length = frame.length := by
  simp [storePixel]

theorem storePixel_getElem? (frame : List ℕ) (off r g b a : ℕ) (h : off + 3 < frame.length) :
    (storePixel frame off r g b a)[off]? = some r ∧
    (storePixel frame off r g b a)[off + 1]? = some g ∧
    (storePixel frame off r g b a)[off + 2]? = some b ∧
    (storePixel frame off r g b a)[off + 3]? = some a := by
  have h0 : off < frame.length := by omega
  have h1 : off + 1 < frame.length := by omega
  have h2 : off + 2 < frame.length := by omega
  refine ⟨?_, ?_, ?_, ?_⟩ <;> simp [storePixel, List.getElem?_set, h0, h1, h2, h]

theorem storePixel_getElem?_other (frame : List ℕ) (off r g b a idx : ℕ)
    (h : idx < off ∨ off + 4 ≤ idx) :
    (storePixel frame off r g b a)[idx]? = frame[idx]? := by
  have e0 : off ≠ idx := by omega
  have e1 : off + 1 ≠ idx := by omega
  have e2 : off + 2 ≠ idx := by omega
  have e3 : off + 3 ≠ idx := by omega
  simp [storePixel, List.getElem?_set_ne, e0, e1, e2, e3]

theorem shadeLoop_all_miss {E : Type} (CPK_COLOURS : E → Option Vec4)
    (camera ray : Vec3) (off : ℕ) (atoms : List (Atom E)) (frame : List ℕ)
    (hmiss : ∀ atom ∈ atoms,
      sphereIntersection atom.position atom.radius ray camera = none) :
    shadeLoop CPK_COLOURS camera ray off atoms frame = some frame := by
  induction atoms with
  | nil => rfl
  | cons atom rest ih =>
    have h1 := hmiss atom (List.mem_cons_self _ _)
    simp only [shadeLoop, h1]
    exact ih fun a ha => hmiss a (List.mem_cons_of_mem _ ha)

theorem shadeLoop_first_hit {E : Type} (CPK_COLOURS : E → Option Vec4)
    (camera ray : Vec3) (off : ℕ) (nearer : List (Atom E)) (atom : Atom E)
    (farther : List (Atom E)) (frame : List ℕ) (posnorm : Vec3 × Vec3) (colour : Vec4)
    (hmiss : ∀ other ∈ nearer,
      sphereIntersection other.position other.radius ray camera = none)
    (hhit : sphereIntersection atom.position atom.radius ray camera = some posnorm)
    (hcol : CPK_COLOURS atom.element = some colour) :
    shadeLoop CPK_COLOURS camera ray off (nearer ++ atom :: farther) frame
      = some (storePixel frame off
          (colourByte colour.r (lighting camera atom.position posnorm.2))
          (colourByte colour.g (lighting camera atom.position posnorm.2))
          (colourByte colour.b (lighting camera atom.position posnorm.2)) 255) := by
  induction nearer with
  | nil => simp only [List.nil_append, shadeLoop, hhit, hcol]
  | cons other rest ih =>
    have h1 := hmiss other (List.mem_cons_self _ _)
    simp only [List.cons_append, shadeLoop, h1]
    exact ih fun a ha => hmiss a (List.mem_cons_of_mem _ ha)

theorem storePixel_storePixel_getElem? (frame : List ℕ) (off r g b a r1 g1 b1 a1 : ℕ)
    (h : off + 3 < frame.length) :
    (storePixel (storePixel frame off r g b a) off r1 g1 b1 a1)[off]? = some r1 ∧
    (storePixel (storePixel frame off r g b a) off r1 g1 b1 a1)[off + 1]? = some g1 ∧
    (storePixel (storePixel frame off r g b a) off r1 g1 b1 a1)[off + 2]? = some b1 ∧
    (storePixel (storePixel frame off r g b a) off r1 g1 b1 a1)[off + 3]? = some a1 :=
  storePixel_getElem? _ off r1 g1 b1 a1 (by rw [storePixel_length]; exact h)

theorem renderPixel_eq_of_all_miss {E : Type} (CPK_COLOURS : E → Option Vec4)
    (camera : Vec3) (atoms : List (Atom E)) (width i j : ℕ) (ray : Vec3)
    (frame : List ℕ)
    (hmiss : ∀ atom ∈ atoms,
      sphereIntersection atom.position atom.radius ray camera = none) :
    renderPixel CPK_COLOURS camera atoms width i j ray frame
      = some (storePixel frame (pixelOffset width i j) 5 5 5 255) :=
  shadeLoop_all_miss CPK_COLOURS camera ray _ atoms _ hmiss

/-- The lighting of line 131 for a hit whose un-normalised normal and light vector are
in the working range. -/
theorem lighting_of_moderate (camera position raw : Vec3) (hraw : raw.moderate = true)
    (hlight : (Vec3.sub camera position).moderate = true) :
    ∃ lam : ℚ, lighting camera position (Vec3.divs raw (Vec3.length raw)) = FP.fin lam ∧
      999 / 10000000 ≤ lam ∧ lam ≤ 7502 / 10000 := by
  obtain ⟨nx, ny, nz, en, hn⟩ := normalize_moderate raw hraw
  obtain ⟨lx, ly, lz, el, hl⟩ := normalize_moderate (Vec3.sub camera position) hlight
  obtain ⟨lam, elam, h1, h2⟩ := lighting_within nx ny nz lx ly lz hn hl
  refine ⟨lam, ?_, h1, h2⟩
  unfold lighting lightVector
  rw [en, el]
  exact elam

/-- C4: for a pixel (i, j) inside the frame buffer, if `sphereIntersection` reports no
hit for any atom of the sorted sequence, the pixel loop completes and the four bytes
at offset `i*width*4 + j*4` are the background colour (5, 5, 5) with alpha 255; the
buffer keeps its length. -/
theorem renderPixel_no_hit_background {E : Type} (CPK_COLOURS : E → Option Vec4)
    (camera : Vec3) (atoms : List (Atom E)) (width i j : ℕ) (ray : Vec3)
    (frame : List ℕ) (hoff : i * width * 4 + j * 4 + 3 < frame.length)
    (hmiss : ∀ atom ∈ atoms,
      sphereIntersection atom.position atom.radius ray camera = none) :
    ∃ out, renderPixel CPK_COLOURS camera atoms width i j ray frame = some out ∧
      out.length = frame.length ∧
      out[i * width * 4 + j * 4]? = some 5 ∧
      out[i * width * 4 + j * 4 + 1]? = some 5 ∧
      out[i * width * 4 + j * 4 + 2]? = some 5 ∧
      out[i * width * 4 + j * 4 + 3]? = some 255 := by
  exact ⟨storePixel frame (pixelOffset width i j) 5 5 5 255,
    renderPixel_eq_of_all_miss CPK_COLOURS camera atoms width i j ray frame hmiss,
    storePixel_length _ _ _ _ _ _,
    storePixel_getElem? frame (pixelOffset width i j) 5 5 5 255 hoff⟩

/-- C4 on a one-atom scene: camera (0, 0, 32), the atom `originAtom`, a ray along the
x axis, which misses it; the one-pixel frame held (9, 9, 9, 9). -/
theorem renderPixel_no_hit_background_witness :
    ∃ out, renderPixel orangeTable (vec 0 0 32) [originAtom] 1 0 0 (vec 1 0 0) [9, 9, 9, 9]
        = some out ∧
      out.length = [9, 9, 9, 9].length ∧
      out[0 * 1 * 4 + 0 * 4]? = some 5 ∧
      out[0 * 1 * 4 + 0 * 4 + 1]? = some 5 ∧
      out[0 * 1 * 4 + 0 * 4 + 2]? = some 5 ∧
      out[0 * 1 * 4 + 0 * 4 + 3]? = some 255 :=
  renderPixel_no_hit_background orangeTable (vec 0 0 32) [originAtom] 1 0 0 (vec 1 0 0)
    [9, 9, 9, 9] (by decide) (by decide!)

/-- C9, as the code has it: when the first atom hit by a pixel's ray is `atom`, with
returned normal `an`, the light vector `l` of the Lambertian term is the normalised
vector from the atom's centre to the camera, `normalize(camera - atom.position)`
(not from the hit point); the lighting factor `lam` is
`0.0001 + 0.75*max(dot(-an, l), 0)`, the scalar product and the maximum taken in
`float`, the product and the sum in `double`, the result converted to `float`; and
the bytes stored for the pixel are `uint8(255 * channel * lam)`, both products in
`float`, for the three channels of the atom's colour, then 255. -/
theorem renderPixel_first_hit_shading {E : Type} (CPK_COLOURS : E → Option Vec4)
    (camera : Vec3) (nearer : List (Atom E)) (atom : Atom E) (farther : List (Atom E))
    (width i j : ℕ) (ray : Vec3) (frame : List ℕ) (a an : Vec3) (colour : Vec4)
    (hoff : i * width * 4 + j * 4 + 3 < frame.length)
    (hmiss : ∀ other ∈ nearer,
      sphereIntersection other.position other.radius ray camera = none)
    (hhit : sphereIntersection atom.position atom.radius ray camera = some (a, an))
    (hcol : CPK_COLOURS atom.element = some colour) :
    ∃ (l : Vec3) (lam : FP) (out : List ℕ),
      l = Vec3.divs (Vec3.sub camera atom.position)
        (Vec3.length (Vec3.sub camera atom.position)) ∧
      lam = FP.cvt binary32
        (FP.add binary64 (binary64.round (1 / 10000))
          (FP.mul binary64 (FP.fin (3 / 4))
            (FP.max (Vec3.dot (Vec3.neg an) l) (FP.fin 0)))) ∧
      renderPixel CPK_COLOURS camera (nearer ++ atom :: farther) width i j ray frame
        = some out ∧
      out[i * width * 4 + j * 4]?
        = some (toUInt8 (FP.mul binary32 (FP.mul binary32 (FP.fin 255) colour.r) lam)) ∧
      out[i * width * 4 + j * 4 + 1]?
        = some (toUInt8 (FP.mul binary32 (FP.mul binary32 (FP.fin 255) colour.g) lam)) ∧
      out[i * width * 4 + j * 4 + 2]?
        = some (toUInt8 (FP.mul binary32 (FP.mul binary32 (FP.fin 255) colour.b) lam)) ∧
      out[i * width * 4 + j * 4 + 3]? = some 255 := by
  refine ⟨_, _, _, rfl, rfl, shadeLoop_first_hit CPK_COLOURS camera ray _ nearer atom farther _
    (a, an) colour hmiss hhit hcol, ?_⟩
  exact storePixel_storePixel_getElem? frame (pixelOffset width i j) 5 5 5 255 _ _ _ 255 hoff

/-- C9 as the code has it, on the one-atom scene `sideAtom`, camera at the origin, ray
(0, 0, 1), white colour table, a one-pixel frame. -/
theorem renderPixel_first_hit_shading_witness :
    ∃ (l : Vec3) (lam : FP) (out : List ℕ),
      l = Vec3.divs (Vec3.sub (vec 0 0 0) sideAtom.position)
        (Vec3.length (Vec3.sub (vec 0 0 0) sideAtom.position)) ∧
      lam = FP.cvt binary32
        (FP.add binary64 (binary64.round (1 / 10000))
          (FP.mul binary64 (FP.fin (3 / 4))
            (FP.max (Vec3.dot (Vec3.neg (vec (-15486661 / 16777216) 0 (12905551 / 33554432))) l)
              (FP.fin 0)))) ∧
      renderPixel whiteTable (vec 0 0 0) ([] ++ sideAtom :: []) 1 0 0 (vec 0 0 1) [0, 0, 0, 0]
        = some out ∧
      out[0 * 1 * 4 + 0 * 4]?
        = some (toUInt8 (FP.mul binary32 (FP.mul binary32 (FP.fin 255) (FP.fin 1)) lam)) ∧
      out[0 * 1 * 4 + 0 * 4 + 1]?
        = some (toUInt8 (FP.mul binary32 (FP.mul binary32 (FP.fin 255) (FP.fin 1)) lam)) ∧
      out[0 * 1 * 4 + 0 * 4 + 2]?
        = some (toUInt8 (FP.mul binary32 (FP.mul binary32 (FP.fin 255) (FP.fin 1)) lam)) ∧
      out[0 * 1 * 4 + 0 * 4 + 3]? = some 255 :=
  renderPixel_first_hit_shading whiteTable (vec 0 0 0) [] sideAtom [] 1 0 0 (vec 0 0 1)
    [0, 0, 0, 0] (vec 0 0 21) (vec (-15486661 / 16777216) 0 (12905551 / 33554432))
    ⟨FP.fin 1, FP.fin 1, FP.fin 1, FP.fin 1⟩ (by decide)
    (fun _ h => absurd h (List.not_mem_nil _)) (by decide!) rfl

/-- C9 as stated fails.  Camera at the origin, ray (0, 0, 1), one white atom of radius
13 centred at (12, 0, 16).  The ray hits; `sphereIntersection` returns the offset
(0, 0, 21) and the normal (-12/13, 0, 5/13) rounded to `float`.  With the light vector
of the claim, `normalize(camera - hitPoint)` (hit point `camera + (0, 0, 21)`), the
red byte would be 73; the code, whose light vector is
`normalize(camera - atom.position)`, stores 0 (the Lambertian term is clamped to 0,
only the ambient 0.0001 is left). -/
theorem shading_light_vector_not_from_hit_point :
    sphereIntersection sideAtom.position sideAtom.radius (vec 0 0 1) (vec 0 0 0)
      = some (vec 0 0 21, vec (-15486661 / 16777216) 0 (12905551 / 33554432)) ∧
    colourByte (FP.fin 1) (specLighting (vec 0 0 0) (Vec3.add (vec 0 0 0) (vec 0 0 21))
      (vec (-15486661 / 16777216) 0 (12905551 / 33554432))) = 73 ∧
    renderPixel whiteTable (vec 0 0 0) [sideAtom] 1 0 0 (vec 0 0 1) [0, 0, 0, 0]
      = some [0, 0, 0, 255] := by
  refine ⟨by decide!, by decide!, by decide!⟩

/-- C5, as the code has it: for a pixel inside the frame buffer whose ray first hits
`atom`, an atom whose colour channels lie in [0, 1], when the un-normalised normal
`a - atom.position + camera` of line 25 and the vector `camera - atom.position` of
line 129 have finite components of magnitude at most `2^40`, not all below `2^-40`:
the lighting factor computed on line 131 is a finite `float` in [0.0000999, 0.7502];
each of the stored R, G, B bytes is `uint8(255*channel*lighting)`, where the `float`
product is in [0, 256) (the conversion takes its integer part, nothing wraps
around) and the byte is at most 255 times the colour channel; the alpha byte is
255. -/
theorem renderPixel_hit_within_base_colour {E : Type} (CPK_COLOURS : E → Option Vec4)
    (camera : Vec3) (nearer : List (Atom E)) (atom : Atom E) (farther : List (Atom E))
    (width i j : ℕ) (ray : Vec3) (frame : List ℕ) (colour : Vec4) (cr cg cb : ℚ)
    (hoff : i * width * 4 + j * 4 + 3 < frame.length)
    (hmiss : ∀ other ∈ nearer,
      sphereIntersection other.position other.radius ray camera = none)
    (hhit : (sphereIntersection atom.position atom.radius ray camera).isSome = true)
    (hcol : CPK_COLOURS atom.element = some colour)
    (hr : colour.r = FP.fin cr) (hg : colour.g = FP.fin cg) (hb : colour.b = FP.fin cb)
    (hcr : 0 ≤ cr ∧ cr ≤ 1) (hcg : 0 ≤ cg ∧ cg ≤ 1) (hcb : 0 ≤ cb ∧ cb ≤ 1)
    (hnormal : (hitNormalRaw atom.position atom.radius ray camera).moderate = true)
    (hlight : (Vec3.sub camera atom.position).moderate = true) :
    ∃ (a an : Vec3) (lam : ℚ) (out : List ℕ),
      sphereIntersection atom.position atom.radius ray camera = some (a, an) ∧
      lighting camera atom.position an = FP.fin lam ∧
      999 / 10000000 ≤ lam ∧ lam ≤ 7502 / 10000 ∧
      renderPixel CPK_COLOURS camera (nearer ++ atom :: farther) width i j ray frame
        = some out ∧
      (∃ X : ℚ, FP.mul binary32 (FP.mul binary32 (FP.fin 255) colour.r) (FP.fin lam) = FP.fin X ∧
        0 ≤ X ∧ X < 256 ∧ out[i * width * 4 + j * 4]? = some ⌊X⌋.toNat ∧
        ((⌊X⌋.toNat : ℕ) : ℚ) ≤ 255 * cr) ∧
      (∃ X : ℚ, FP.mul binary32 (FP.mul binary32 (FP.fin 255) colour.g) (FP.fin lam) = FP.fin X ∧
        0 ≤ X ∧ X < 256 ∧ out[i * width * 4 + j * 4 + 1]? = some ⌊X⌋.toNat ∧
        ((⌊X⌋.toNat : ℕ) : ℚ) ≤ 255 * cg) ∧
      (∃ X : ℚ, FP.mul binary32 (FP.mul binary32 (FP.fin 255) colour.b) (FP.fin lam) = FP.fin X ∧
        0 ≤ X ∧ X < 256 ∧ out[i * width * 4 + j * 4 + 2]? = some ⌊X⌋.toNat ∧
        ((⌊X⌋.toNat : ℕ) : ℚ) ≤ 255 * cb) ∧
      out[i * width * 4 + j * 4 + 3]? = some 255 := by
  have hdet : FP.lt (discriminant atom.position atom.radius ray camera) (FP.fin 0) = false := by
    unfold sphereIntersection at hhit
    cases h : FP.lt (discriminant atom.position atom.radius ray camera) (FP.fin 0)
    · rfl
    · rw [h] at hhit; simp at hhit
  have hsi := sphereIntersection_of_not_det_lt_zero atom.position atom.radius ray camera hdet
  obtain ⟨lam, elam, hl0, hl1⟩ :=
    lighting_of_moderate camera atom.position _ hnormal hlight
  have hlam0 : 0 ≤ lam := le_trans (by norm_num) hl0
  have hpix := shadeLoop_first_hit CPK_COLOURS camera ray (pixelOffset width i j) nearer atom
    farther (storePixel frame (pixelOffset width i j) 5 5 5 255) _ colour hmiss hsi hcol
  have hbytes := storePixel_storePixel_getElem? frame (pixelOffset width i j) 5 5 5 255
    (colourByte colour.r (FP.fin lam)) (colourByte colour.g (FP.fin lam))
    (colourByte colour.b (FP.fin lam)) 255 hoff
  simp only [elam] at hpix
  obtain ⟨Xr, eXr, hXr0, hXr1, ebr, hbr⟩ := colourByte_within cr lam hcr.1 hcr.2 hlam0 hl1
  obtain ⟨Xg, eXg, hXg0, hXg1, ebg, hbg⟩ := colourByte_within cg lam hcg.1 hcg.2 hlam0 hl1
  obtain ⟨Xb, eXb, hXb0, hXb1, ebb, hbb⟩ := colourByte_within cb lam hcb.1 hcb.2 hlam0 hl1
  rw [← hr] at eXr ebr hbr
  rw [← hg] at eXg ebg hbg
  rw [← hb] at eXb ebb hbb
  rw [ebr, ebg, ebb] at hbytes
  rw [ebr, ebg, ebb] at hpix
  rw [ebr] at hbr
  rw [ebg] at hbg
  rw [ebb] at hbb
  exact ⟨_, _, lam, _, hsi, elam, hl0, hl1, hpix,
    ⟨Xr, eXr, hXr0, hXr1, hbytes.1, hbr⟩,
    ⟨Xg, eXg, hXg0, hXg1, hbytes.2.1, hbg⟩,
    ⟨Xb, eXb, hXb0, hXb1, hbytes.2.2.1, hbb⟩, hbytes.2.2.2⟩

/-- C5 as the code has it, on the one-atom scene `originAtom` with colour (1, 1/2, 0),
camera (0, 0, 32), ray (0, 0, -1), a one-pixel frame: the lighting is
6292295/8388608 and the bytes are (191, 95, 0, 255). -/
theorem renderPixel_hit_within_base_colour_witness :
    ∃ (a an : Vec3) (lam : ℚ) (out : List ℕ),
      sphereIntersection originAtom.position originAtom.radius (vec 0 0 (-1)) (vec 0 0 32)
        = some (a, an) ∧
      lighting (vec 0 0 32) originAtom.position an = FP.fin lam ∧
      999 / 10000000 ≤ lam ∧ lam ≤ 7502 / 10000 ∧
      renderPixel orangeTable (vec 0 0 32) ([] ++ originAtom :: []) 1 0 0 (vec 0 0 (-1))
        [0, 0, 0, 0] = some out ∧
      (∃ X : ℚ, FP.mul binary32 (FP.mul binary32 (FP.fin 255) (FP.fin 1)) (FP.fin lam) = FP.fin X ∧
        0 ≤ X ∧ X < 256 ∧ out[0 * 1 * 4 + 0 * 4]? = some ⌊X⌋.toNat ∧
        ((⌊X⌋.toNat : ℕ) : ℚ) ≤ 255 * 1) ∧
      (∃ X : ℚ, FP.mul binary32 (FP.mul binary32 (FP.fin 255) (FP.fin (1 / 2))) (FP.fin lam)
          = FP.fin X ∧
        0 ≤ X ∧ X < 256 ∧ out[0 * 1 * 4 + 0 * 4 + 1]? = some ⌊X⌋.toNat ∧
        ((⌊X⌋.toNat : ℕ) : ℚ) ≤ 255 * (1 / 2)) ∧
      (∃ X : ℚ, FP.mul binary32 (FP.mul binary32 (FP.fin 255) (FP.fin 0)) (FP.fin lam) = FP.fin X ∧
        0 ≤ X ∧ X < 256 ∧ out[0 * 1 * 4 + 0 * 4 + 2]? = some ⌊X⌋.toNat ∧
        ((⌊X⌋.toNat : ℕ) : ℚ) ≤ 255 * 0) ∧
      out[0 * 1 * 4 + 0 * 4 + 3]? = some 255 :=
  renderPixel_hit_within_base_colour orangeTable (vec 0 0 32) [] originAtom [] 1 0 0
    (vec 0 0 (-1)) [0, 0, 0, 0] ⟨FP.fin 1, FP.fin (1 / 2), FP.fin 0, FP.fin 1⟩ 1 (1 / 2) 0
    (by decide) (fun _ h => absurd h (List.not_mem_nil _)) (by decide!) rfl rfl rfl rfl
    (by norm_num) (by norm_num) (by norm_num) (by decide!) (by decide!)

/-- C5 as stated fails: the lighting factor is a `float` and leaves [0.0001, 0.7501] at
both ends.  (1) Camera (0, 0, 32), ray (0, 0, -1), the atom of radius 2 at the origin:
the ray hits, the normal is (0, 0, -1), and the lighting computed on line 131 is
6292295/8388608 = 0.750100016..., which is more than 0.7501.  (2) Camera at the
origin, ray (0, 0, 1), the atom of radius 13 at (12, 0, 16): the ray hits, the
Lambertian term is clamped to 0 and the lighting is the `float` nearest to 0.0001,
13743895/137438953472 = 0.0000999999974..., which is less than 0.0001. -/
theorem lighting_outside_claimed_interval :
    (sphereIntersection originAtom.position originAtom.radius (vec 0 0 (-1)) (vec 0 0 32)
        = some (vec 0 0 (-34), vec 0 0 (-1)) ∧
      lighting (vec 0 0 32) originAtom.position (vec 0 0 (-1)) = FP.fin (6292295 / 8388608) ∧
      (7501 : ℚ) / 10000 < 6292295 / 8388608) ∧
    (sphereIntersection sideAtom.position sideAtom.radius (vec 0 0 1) (vec 0 0 0)
        = some (vec 0 0 21, vec (-15486661 / 16777216) 0 (12905551 / 33554432)) ∧
      lighting (vec 0 0 0) sideAtom.position
          (vec (-15486661 / 16777216) 0 (12905551 / 33554432))
        = FP.fin (13743895 / 137438953472) ∧
      (13743895 : ℚ) / 137438953472 < 1 / 10000) := by
  refine ⟨⟨by decide!, by decide!, by norm_num⟩, by decide!, by decide!, by norm_num⟩

/-! ### The frame loops -/

theorem stepped_eq_iterate (d : FP) (n : ℕ) :
    stepped d n = (fun p => FP.add binary32 p d)^[n] (FP.fin 0) := by
  induction n with
  | zero => rfl
  | succ n ih =>
    rw [Function.iterate_succ_apply', ← ih]
    rfl

theorem shadeLoop_cases {E : Type} (CPK_COLOURS : E → Option Vec4)
    (camera ray : Vec3) (off : ℕ) (atoms : List (Atom E)) (frame : List ℕ)
    (hcol : ∀ atom ∈ atoms, ∃ colour, CPK_COLOURS atom.element = some colour) :
    shadeLoop CPK_COLOURS camera ray off atoms frame = some frame ∨
    ∃ r g b, shadeLoop CPK_COLOURS camera ray off atoms frame
      = some (storePixel frame off r g b 255) := by
  induction atoms with
  | nil => exact Or.inl rfl
  | cons atom rest ih =>
    unfold shadeLoop
    cases hsi : sphereIntersection atom.position atom.radius ray camera with
    | none => exact ih fun a ha => hcol a (List.mem_cons_of_mem _ ha)
    | some posnorm =>
      obtain ⟨colour, hc⟩ := hcol atom (List.mem_cons_self _ _)
      simp only [hc]
      exact Or.inr ⟨_, _, _, rfl⟩

theorem renderPixel_footprint {E : Type} (CPK_COLOURS : E → Option Vec4)
    (camera : Vec3) (atoms : List (Atom E)) (width i j : ℕ) (ray : Vec3)
    (frame : List ℕ)
    (hcol : ∀ atom ∈ atoms, ∃ colour, CPK_COLOURS atom.element = some colour) :
    ∃ out, renderPixel CPK_COLOURS camera atoms width i j ray frame = some out ∧
      out.length = frame.length ∧
      ∀ idx, idx < pixelOffset width i j ∨ pixelOffset width i j + 4 ≤ idx →
        out[idx]? = frame[idx]? := by
  unfold renderPixel
  rcases shadeLoop_cases CPK_COLOURS camera ray (pixelOffset width i j) atoms
    (storePixel frame (pixelOffset width i j) 5 5 5 255) hcol with h | ⟨r, g, b, h⟩
  · refine ⟨_, h, storePixel_length _ _ _ _ _ _, ?_⟩
    intro idx hidx
    exact storePixel_getElem?_other _ _ _ _ _ _ idx hidx
  · refine ⟨_, h, ?_, ?_⟩
    · rw [storePixel_length, storePixel_length]
    · intro idx hidx
      rw [storePixel_getElem?_other _ _ _ _ _ _ idx hidx,
        storePixel_getElem?_other _ _ _ _ _ _ idx hidx]

theorem colLoop_spec {E : Type} (CPK_COLOURS : E → Option Vec4) (camera : Vec3)
    (atoms : List (Atom E)) (width : ℕ) (dj : FP) (i : ℕ) (pi : FP)
    (hcol : ∀ atom ∈ atoms, ∃ colour, CPK_COLOURS atom.element = some colour) :
    ∀ (n j0 : ℕ) (pj : FP) (frame : List ℕ),
      ∃ out, colLoop CPK_COLOURS camera atoms width dj i pi n j0 pj frame = some out ∧
        out.length = frame.length ∧
        (∀ idx, idx < pixelOffset width i j0 ∨ pixelOffset width i (j0 + n) ≤ idx →
          out[idx]? = frame[idx]?) ∧
        (∀ m, m < n → pixelOffset width i (j0 + m) + 3 < frame.length →
          (∀ atom ∈ atoms, sphereIntersection atom.position atom.radius
            (pixelRay camera ((fun p => FP.add binary32 p dj)^[m] pj) pi) camera = none) →
          out[pixelOffset width i (j0 + m)]? = some 5 ∧
          out[pixelOffset width i (j0 + m) + 1]? = some 5 ∧
          out[pixelOffset width i (j0 + m) + 2]? = some 5 ∧
          out[pixelOffset width i (j0 + m) + 3]? = some 255) := by
  intro n
  induction n with
  | zero =>
    intro j0 pj frame
    exact ⟨frame, rfl, rfl, fun _ _ => rfl, fun m hm => absurd hm (Nat.not_lt_zero m)⟩
  | succ n ih =>
    intro j0 pj frame
    obtain ⟨frame1, hp, hlen1, hout1⟩ := renderPixel_footprint CPK_COLOURS camera atoms
      width i j0 (pixelRay camera pj pi) frame hcol
    obtain ⟨out, hc, hlen, hout, hpix⟩ := ih (j0 + 1) (FP.add binary32 pj dj) frame1
    refine ⟨out, ?_, by rw [hlen, hlen1], ?_, ?_⟩
    · simp only [colLoop, hp, hc]
    · intro idx hidx
      have h1 : out[idx]? = frame1[idx]? := by
        apply hout
        unfold pixelOffset at hidx ⊢
        omega
      rw [h1]
      apply hout1
      unfold pixelOffset at hidx ⊢
      omega
    · intro m hm hoff hmiss
      rcases m with _ | m
      · rw [Function.iterate_zero, id] at hmiss
        have hp1 := renderPixel_eq_of_all_miss CPK_COLOURS camera atoms width i j0
          (pixelRay camera pj pi) frame hmiss
        rw [hp] at hp1
        have hf : frame1 = storePixel frame (pixelOffset width i j0) 5 5 5 255 :=
          Option.some.inj hp1
        obtain ⟨b0, b1, b2, b3⟩ := storePixel_getElem? frame (pixelOffset width i j0) 5 5 5 255
          (by simpa using hoff)
        rw [← hf] at b0 b1 b2 b3
        unfold pixelOffset at b0 b1 b2 b3
        have hsame : ∀ c, c < 4 → out[pixelOffset width i (j0 + 0) + c]?
            = frame1[pixelOffset width i (j0 + 0) + c]? := by
          intro c hc4
          apply hout
          unfold pixelOffset
          omega
        have h0 := hsame 0 (by norm_num)
        have h1 := hsame 1 (by norm_num)
        have h2 := hsame 2 (by norm_num)
        have h3 := hsame 3 (by norm_num)
        simp only [Nat.add_zero, pixelOffset] at h0 h1 h2 h3 ⊢
        rw [h0, h1, h2, h3]
        exact ⟨b0, b1, b2, b3⟩
      · have hidx : j0 + (m + 1) = j0 + 1 + m := by omega
        rw [hidx] at hoff ⊢
        apply hpix m (by omega) (by rw [hlen1]; exact hoff)
        rw [Function.iterate_succ_apply] at hmiss
        exact hmiss

theorem pixelOffset_row_succ (width i : ℕ) :
    pixelOffset width (i + 1) 0 = pixelOffset width i width := by
  unfold pixelOffset
  ring

theorem pixelOffset_row_mono (width i k : ℕ) :
    pixelOffset width i 0 ≤ pixelOffset width (i + k) 0 := by
  unfold pixelOffset
  have := Nat.mul_le_mul_right width (Nat.le_add_right i k)
  omega

theorem rowLoop_spec {E : Type} (CPK_COLOURS : E → Option Vec4) (camera : Vec3)
    (atoms : List (Atom E)) (width : ℕ) (di dj : FP)
    (hcol : ∀ atom ∈ atoms, ∃ colour, CPK_COLOURS atom.element = some colour) :
    ∀ (n i0 : ℕ) (pi : FP) (frame : List ℕ),
      ∃ out, rowLoop CPK_COLOURS camera atoms width di dj n i0 pi frame = some out ∧
        out.length = frame.length ∧
        (∀ idx, idx < pixelOffset width i0 0 ∨ pixelOffset width (i0 + n) 0 ≤ idx →
          out[idx]? = frame[idx]?) ∧
        (∀ m j, m < n → j < width → pixelOffset width (i0 + m) j + 3 < frame.length →
          (∀ atom ∈ atoms, sphereIntersection atom.position atom.radius
            (pixelRay camera (stepped dj j) ((fun p => FP.add binary32 p di)^[m] pi))
            camera = none) →
          out[pixelOffset width (i0 + m) j]? = some 5 ∧
          out[pixelOffset width (i0 + m) j + 1]? = some 5 ∧
          out[pixelOffset width (i0 + m) j + 2]? = some 5 ∧
          out[pixelOffset width (i0 + m) j + 3]? = some 255) := by
  intro n
  induction n with
  | zero =>
    intro i0 pi frame
    exact ⟨frame, rfl, rfl, fun _ _ => rfl, fun m _ hm => absurd hm (Nat.not_lt_zero m)⟩
  | succ n ih =>
    intro i0 pi frame
    obtain ⟨frame1, hc, hlen1, hout1, hpix1⟩ := colLoop_spec CPK_COLOURS camera atoms
      width dj i0 pi hcol width 0 (FP.fin 0) frame
    obtain ⟨out, hr, hlen, hout, hpix⟩ := ih (i0 + 1) (FP.add binary32 pi di) frame1
    have hsucc := pixelOffset_row_succ width i0
    have hmono := pixelOffset_row_mono width (i0 + 1) n
    refine ⟨out, ?_, by rw [hlen, hlen1], ?_, ?_⟩
    · simp only [rowLoop, hc, hr]
    · intro idx hidx
      have e : i0 + (n + 1) = i0 + 1 + n := by omega
      rw [e] at hidx
      have h1 : out[idx]? = frame1[idx]? := by
        apply hout
        have : pixelOffset width i0 0 ≤ pixelOffset width (i0 + 1) 0 := by
          rw [hsucc]; unfold pixelOffset; omega
        omega
      rw [h1]
      apply hout1
      rw [Nat.zero_add, ← hsucc]
      omega
    · intro m j hm hj hoff hmiss
      rcases m with _ | m
      · rw [Function.iterate_zero, id] at hmiss
        simp only [Nat.add_zero] at hoff ⊢
        obtain ⟨b0, b1, b2, b3⟩ := hpix1 j hj (by rw [Nat.zero_add]; exact hoff)
          (by rw [← stepped_eq_iterate]; exact hmiss)
        rw [Nat.zero_add] at b0 b1 b2 b3
        have hsame : ∀ c, c < 4 → out[pixelOffset width i0 j + c]?
            = frame1[pixelOffset width i0 j + c]? := by
          intro c hc4
          apply hout
          left
          rw [hsucc]
          unfold pixelOffset
          omega
        have h0 := hsame 0 (by norm_num)
        have h1 := hsame 1 (by norm_num)
        have h2 := hsame 2 (by norm_num)
        have h3 := hsame 3 (by norm_num)
        rw [Nat.add_zero] at h0
        rw [h0, h1, h2, h3]
        exact ⟨b0, b1, b2, b3⟩
      · have hidx : i0 + (m + 1) = i0 + 1 + m := by omega
        rw [hidx] at hoff ⊢
        apply hpix m j (by omega) hj (by rw [hlen1]; exact hoff)
        rw [Function.iterate_succ_apply] at hmiss
        exact hmiss

/-- The finished frame: for a frame buffer of `width*height*4` bytes and a colour table
that has an entry for every atom of the scene, the frame loop completes, and every
pixel (i, j) whose ray, through the view-plane point reached after `j` steps `dj`
and `i` steps `di`, misses every atom holds the background colour (5, 5, 5, 255) in
the finished frame: pixels rendered later do not touch it. -/
theorem renderFrame_no_hit_background {E : Type} (CPK_COLOURS : E → Option Vec4)
    (camera : Vec3) (atoms : List (Atom E)) (width height : ℕ) (di dj : FP)
    (frame : List ℕ) (i j : ℕ) (hi : i < height) (hj : j < width)
    (hlen : frame.length = width * height * 4)
    (hcol : ∀ atom ∈ atoms, ∃ colour, CPK_COLOURS atom.element = some colour)
    (hmiss : ∀ atom ∈ atoms, sphereIntersection atom.position atom.radius
      (pixelRay camera (stepped dj j) (stepped di i)) camera = none) :
    ∃ out, renderFrame CPK_COLOURS camera atoms width height di dj frame = some out ∧
      out.length = frame.length ∧
      out[i * width * 4 + j * 4]? = some 5 ∧
      out[i * width * 4 + j * 4 + 1]? = some 5 ∧
      out[i * width * 4 + j * 4 + 2]? = some 5 ∧
      out[i * width * 4 + j * 4 + 3]? = some 255 := by
  obtain ⟨out, hr, hl, _, hpix⟩ := rowLoop_spec CPK_COLOURS camera atoms width di dj hcol
    height 0 (FP.fin 0) frame
  have hoff : pixelOffset width (0 + i) j + 3 < frame.length := by
    rw [hlen, Nat.zero_add]
    unfold pixelOffset
    have h1 : (i + 1) * width ≤ height * width := Nat.mul_le_mul_right width hi
    have h2 : (i + 1) * width = i * width + width := by ring
    have h3 : width * height = height * width := Nat.mul_comm _ _
    rw [h3]
    omega
  obtain ⟨b0, b1, b2, b3⟩ := hpix i j hi hj hoff (by rw [← stepped_eq_iterate]; exact hmiss)
  rw [Nat.zero_add] at b0 b1 b2 b3
  exact ⟨out, hr, hl, b0, b1, b2, b3⟩

/-! ### The depth sorter -/

theorem FP.lt_asymm (a b : FP) (h : FP.lt a b = true) : FP.lt b a = false := by
  rcases a with p | s | _ <;> rcases b with q | t | _ <;> simp [FP.lt] at h ⊢
  · exact le_of_lt h
  · exact h
  · exact h
  · intro ht; rw [ht] at h; simp at h

theorem FP.lt_of_not_lt (a b : FP) (ha : a ≠ FP.nan) (hb : b ≠ FP.nan) (hne : a ≠ b)
    (h : FP.lt b a = false) : FP.lt a b = true := by
  rcases a with p | s | _ <;> rcases b with q | t | _ <;> simp [FP.lt] at h ha hb hne ⊢
  · exact lt_of_le_of_ne h hne
  · exact h
  · exact h
  · cases s <;> cases t <;> simp_all

/-- A value that is a finite non-negative number or +infinity. -/
theorem round_nonneg_cases (f : Fmt) (q : ℚ) (hq : 0 ≤ q) :
    (∃ r : ℚ, 0 ≤ r ∧ f.round q = FP.fin r) ∨ f.round q = FP.inf false := by
  unfold Fmt.round
  split
  · right
    have : ¬ q < 0 := not_lt.mpr hq
    simp [this]
  · left
    exact ⟨_, roundQ_nonneg f q hq, rfl⟩

theorem round_cases (f : Fmt) (q : ℚ) :
    (∃ r : ℚ, f.round q = FP.fin r) ∨ (∃ s : Bool, f.round q = FP.inf s) := by
  unfold Fmt.round
  split
  · right; exact ⟨_, rfl⟩
  · left; exact ⟨_, rfl⟩

/-- The square `x * x` in `float` of a finite or infinite `x` is a finite
non-negative number or +infinity. -/
theorem mul_self_cases (x : FP) (hx : x ≠ FP.nan) :
    (∃ r : ℚ, 0 ≤ r ∧ FP.mul binary32 x x = FP.fin r) ∨ FP.mul binary32 x x = FP.inf false := by
  cases x with
  | fin q => exact round_nonneg_cases binary32 (q * q) (mul_self_nonneg q)
  | inf s => right; cases s <;> rfl
  | nan => exact absurd rfl hx

theorem add_nonneg_cases (a b : FP)
    (ha : (∃ r : ℚ, 0 ≤ r ∧ a = FP.fin r) ∨ a = FP.inf false)
    (hb : (∃ r : ℚ, 0 ≤ r ∧ b = FP.fin r) ∨ b = FP.inf false) :
    (∃ r : ℚ, 0 ≤ r ∧ FP.add binary32 a b = FP.fin r) ∨ FP.add binary32 a b = FP.inf false := by
  rcases ha with ⟨p, hp, rfl⟩ | rfl <;> rcases hb with ⟨q, hq, rfl⟩ | rfl
  · exact round_nonneg_cases binary32 (p + q) (add_nonneg hp hq)
  · right; rfl
  · right; rfl
  · right; rfl

/-- The key of an atom is never NaN when the camera and the atom's centre have finite
coordinates: it is a finite non-negative number or +infinity. -/
theorem sqDist_ne_nan (camera position : Vec3) (hc : camera.finite = true)
    (hp : position.finite = true) : sqDist camera position ≠ FP.nan := by
  rcases camera with ⟨cx, cy, cz⟩
  rcases position with ⟨px, py, pz⟩
  cases cx <;> cases cy <;> cases cz <;> simp [Vec3.finite] at hc
  cases px <;> cases py <;> cases pz <;> simp [Vec3.finite] at hp
  rename_i cx cy cz px py pz
  have hsub : ∀ a b : ℚ, FP.sub binary32 (FP.fin a) (FP.fin b) ≠ FP.nan := by
    intro a b
    have e : FP.sub binary32 (FP.fin a) (FP.fin b) = binary32.round (a + -b) := rfl
    rw [e]
    rcases round_cases binary32 (a + -b) with ⟨r, hr⟩ | ⟨s, hs⟩
    · rw [hr]; simp
    · rw [hs]; simp
  have h := add_nonneg_cases _ _
    (add_nonneg_cases _ _ (mul_self_cases _ (hsub cx px)) (mul_self_cases _ (hsub cy py)))
    (mul_self_cases _ (hsub cz pz))
  have e : sqDist ⟨FP.fin cx, FP.fin cy, FP.fin cz⟩ ⟨FP.fin px, FP.fin py, FP.fin pz⟩
      = FP.add binary32
          (FP.add binary32
            (FP.mul binary32 (FP.sub binary32 (FP.fin cx) (FP.fin px))
              (FP.sub binary32 (FP.fin cx) (FP.fin px)))
            (FP.mul binary32 (FP.sub binary32 (FP.fin cy) (FP.fin py))
              (FP.sub binary32 (FP.fin cy) (FP.fin py))))
          (FP.mul binary32 (FP.sub binary32 (FP.fin cz) (FP.fin pz))
            (FP.sub binary32 (FP.fin cz) (FP.fin pz))) := rfl
  rw [e]
  rcases h with ⟨r, -, hr⟩ | hr
  · rw [hr]; simp
  · rw [hr]; simp

theorem dists_map_snd {E : Type} (caffeine : Fin 24 → Atom E) (camera : Vec3) :
    (dists caffeine camera).map Prod.snd = List.finRange 24 := by
  unfold dists
  rw [List.map_ofFn, ← List.ofFn_id]
  rfl

theorem fst_eq_of_mem_dists {E : Type} (caffeine : Fin 24 → Atom E) (camera : Vec3)
    (p : FP × Fin 24) (hp : p ∈ dists caffeine camera) :
    p.1 = sqDist camera (caffeine p.2).position := by
  unfold dists at hp
  rw [List.mem_ofFn] at hp
  obtain ⟨i, hi⟩ := hp
  rw [← hi]

theorem dists_keys_distinct {E : Type} (caffeine : Fin 24 → Atom E) (camera : Vec3)
    (hdistinct : ∀ i j : Fin 24, i ≠ j →
      sqDist camera (caffeine i).position ≠ sqDist camera (caffeine j).position) :
    (dists caffeine camera).Pairwise fun a b => a.1 ≠ b.1 := by
  unfold dists
  rw [List.pairwise_ofFn]
  intro i j hij
  exact hdistinct i j (ne_of_lt hij)

theorem strictly_sorted_of_post (input output : List (FP × Fin 24))
    (hpost : StdSortPost distLess input output)
    (hnan : ∀ a ∈ input, a.1 ≠ FP.nan)
    (hkeys : input.Pairwise fun a b => a.1 ≠ b.1) :
    output.Pairwise fun a b => FP.lt a.1 b.1 = true := by
  obtain ⟨hperm, hsorted⟩ := hpost
  have hk : output.Pairwise fun a b => a.1 ≠ b.1 :=
    (hperm.pairwise_iff fun h => Ne.symm h).mpr hkeys
  refine (hsorted.and hk).imp_of_mem ?_
  intro a b ha hb h
  obtain ⟨h1, h2⟩ := h
  exact FP.lt_of_not_lt a.1 b.1 (hnan a (hperm.subset ha)) (hnan b (hperm.subset hb)) h2 h1

theorem eq_of_perm_of_strictly_sorted (l₁ l₂ : List (FP × Fin 24)) (hp : l₁.Perm l₂)
    (h₁ : l₁.Pairwise fun a b => FP.lt a.1 b.1 = true)
    (h₂ : l₂.Pairwise fun a b => FP.lt a.1 b.1 = true) :
    l₁ = l₂ := by
  haveI : IsAntisymm (FP × Fin 24) (fun a b => FP.lt a.1 b.1 = true) :=
    ⟨fun a b h1 h2 => by
      have := FP.lt_asymm a.1 b.1 h1
      rw [h2] at this
      cases this⟩
  exact List.eq_of_perm_of_sorted hp h₁ h₂

/-! ### The `std::sort` of libstdc++ meets the postcondition -/

theorem perm_set_of_getElem {α : Type} [DecidableEq α] (l : List α) (i : ℕ) (a : α) (hi : i < l.length) :
    ∀ b : α, (l.set i a).count b + (if l[i] = b then 1 else 0)
      = l.count b + (if a = b then 1 else 0) := by
  intro b
  induction l generalizing i with
  | nil => simp at hi
  | cons x xs ih =>
    cases i with
    | zero =>
      simp only [List.set_cons_zero, List.count_cons, List.getElem_cons_zero, beq_iff_eq]
      omega
    | succ k =>
      have hk : k < xs.length := by simpa using hi
      have := ih k hk
      simp only [List.set_cons_succ, List.count_cons, List.getElem_cons_succ, beq_iff_eq]
      omega

theorem set_length_append {α : Type} (pre post : List α) (x a : α) :
    (pre ++ x :: post).set pre.length a = pre ++ a :: post := by
  induction pre with
  | nil => rfl
  | cons y ys ih => simp [ih]

theorem insertReversed_perm {α : Type} (comp : α → α → Bool) (val : α) (ys : List α) :
    (insertReversed comp val ys).Perm (val :: ys) := by
  induction ys with
  | nil => exact List.Perm.refl _
  | cons y ys ih =>
    unfold insertReversed
    split
    · exact (List.Perm.cons y ih).trans (List.Perm.swap val y ys)
    · exact List.Perm.refl _

/-- Inserting into a list in which no element is less than a later one keeps it so,
for a comparison that is asymmetric and negatively transitive on the elements. -/
theorem insertReversed_sorted {α : Type} (comp : α → α → Bool) (P : α → Prop)
    (hasym : ∀ a b : α, comp a b = true → comp b a = false)
    (hnt : ∀ a b c : α, P a → P b → P c → comp a b = false → comp b c = false →
      comp a c = false)
    (val : α) (hval : P val) (ys : List α) (hys : ∀ y ∈ ys, P y)
    (hsorted : ys.Pairwise fun a b => comp a b = false) :
    (insertReversed comp val ys).Pairwise fun a b => comp a b = false := by
  induction ys with
  | nil => simp [insertReversed]
  | cons y ys ih =>
    rw [List.pairwise_cons] at hsorted
    obtain ⟨hy, htail⟩ := hsorted
    have hPy : P y := hys y (List.mem_cons_self _ _)
    have hPys : ∀ z ∈ ys, P z := fun z hz => hys z (List.mem_cons_of_mem _ hz)
    unfold insertReversed
    by_cases hc : comp val y = true
    · rw [if_pos hc, List.pairwise_cons]
      refine ⟨?_, ih hPys htail⟩
      intro z hz
      have hz1 := (insertReversed_perm comp val ys).subset hz
      rcases List.mem_cons.mp hz1 with h | h
      · rw [h]; exact hasym _ _ hc
      · exact hy z h
    · rw [if_neg hc, List.pairwise_cons]
      have hc1 : comp val y = false := by simpa using hc
      refine ⟨?_, List.pairwise_cons.mpr ⟨hy, htail⟩⟩
      intro z hz
      rcases List.mem_cons.mp hz with h | h
      · rw [h]; exact hc1
      · exact hnt val y z hval hPy (hPys z h) hc1 (hy z h)

section GnuSortProofs

variable {α : Type} [Inhabited α]

theorem getD_of_lt (l : List α) (i : ℕ) (h : i < l.length) : l.getD i default = l[i] := by
  rw [List.getD_eq_getElem?_getD, List.getElem?_eq_getElem h]
  rfl

theorem length_iterSwap (l : List α) (i j : ℕ) : (iterSwap l i j).length = l.length := by
  simp [iterSwap]

theorem getD_iterSwap_right (l : List α) (i j : ℕ) (hj : j < l.length) :
    (iterSwap l i j).getD j default = l.getD i default := by
  unfold iterSwap
  rw [List.getD_eq_getElem?_getD, List.getElem?_set_self (by simpa using hj)]
  rfl

theorem getD_iterSwap_left (l : List α) (i j : ℕ) (hi : i < l.length) :
    (iterSwap l i j).getD i default = l.getD j default := by
  unfold iterSwap
  by_cases hij : j = i
  · subst hij
    rw [List.getD_eq_getElem?_getD, List.getElem?_set_self (by simpa using hi)]
    rfl
  · rw [List.getD_eq_getElem?_getD, List.getElem?_set_ne hij, List.getElem?_set_self hi]
    rfl

theorem getD_iterSwap_other (l : List α) (i j k : ℕ) (hi : k ≠ i) (hj : k ≠ j) :
    (iterSwap l i j).getD k default = l.getD k default := by
  unfold iterSwap
  rw [List.getD_eq_getElem?_getD, List.getElem?_set_ne (Ne.symm hj),
    List.getElem?_set_ne (Ne.symm hi), ← List.getD_eq_getElem?_getD]

theorem perm_iterSwap [DecidableEq α] (l : List α) (i j : ℕ) (hi : i < l.length)
    (hj : j < l.length) : (iterSwap l i j).Perm l := by
  rw [List.perm_iff_count]
  intro b
  have h1 := perm_set_of_getElem l i (l.getD j default) hi b
  have hj1 : j < (l.set i (l.getD j default)).length := by simpa using hj
  have h2 := perm_set_of_getElem (l.set i (l.getD j default)) j (l.getD i default) hj1 b
  have e1 : (l.set i (l.getD j default))[j] = l.getD j default := by
    by_cases hij : i = j
    · subst hij; simp
    · rw [List.getElem_set_ne hij]; exact (getD_of_lt l j hj).symm
  rw [e1] at h2
  rw [← getD_of_lt l i hi] at h1
  unfold iterSwap
  omega

theorem scanUp_ge (comp : α → α → Bool) (l : List α) (pivot : ℕ) :
    ∀ fuel first : ℕ, first ≤ scanUp comp l pivot fuel first := by
  intro fuel
  induction fuel with
  | zero => intro first; exact le_refl _
  | succ n ih =>
    intro first
    unfold scanUp
    split
    · exact le_trans (Nat.le_succ _) (ih (first + 1))
    · exact le_refl _

/-- With an element that is not less than the pivot at `s`, the upward scan stops at
or before `s`, on an element that is not less than the pivot. -/
theorem scanUp_sentinel (comp : α → α → Bool) (l : List α) (pivot s : ℕ)
    (hsent : comp (l.getD s default) (l.getD pivot default) = false) :
    ∀ fuel first : ℕ, first ≤ s → s - first < fuel →
      scanUp comp l pivot fuel first ≤ s ∧
      comp (l.getD (scanUp comp l pivot fuel first) default) (l.getD pivot default) = false := by
  intro fuel
  induction fuel with
  | zero => intro first _ h; omega
  | succ n ih =>
    intro first h1 h2
    unfold scanUp
    by_cases hc : comp (l.getD first default) (l.getD pivot default) = true
    · rw [if_pos hc]
      have hne : first ≠ s := by
        intro e; rw [e, hsent] at hc; cases hc
      exact ih (first + 1) (by omega) (by omega)
    · rw [if_neg hc]
      exact ⟨h1, by simpa using hc⟩

theorem scanDown_le (comp : α → α → Bool) (l : List α) (pivot : ℕ) :
    ∀ fuel last : ℕ, scanDown comp l pivot fuel last ≤ last := by
  intro fuel
  induction fuel with
  | zero => intro last; exact le_refl _
  | succ n ih =>
    intro last
    unfold scanDown
    split
    · exact le_trans (ih (last - 1)) (Nat.sub_le _ _)
    · exact le_refl _

/-- The partition loop returns a permutation and a cut between its start and the
bound, given an element not less than the pivot at or before the bound. -/
theorem unguardedPartition_spec [DecidableEq α] (comp : α → α → Bool) (pivot bound : ℕ) :
    ∀ (fuel : ℕ) (l : List α) (first last : ℕ), last ≤ l.length → last ≤ bound + 1 →
      pivot < first →
      (∃ s, first ≤ s ∧ s ≤ bound ∧ s < l.length ∧
        comp (l.getD s default) (l.getD pivot default) = false) →
      (unguardedPartition comp pivot fuel l first last).1.Perm l ∧
      first ≤ (unguardedPartition comp pivot fuel l first last).2 ∧
      (unguardedPartition comp pivot fuel l first last).2 ≤ bound := by
  intro fuel
  induction fuel with
  | zero =>
    intro l first last _ _ _ hs
    obtain ⟨s, h1, h2, _, _⟩ := hs
    exact ⟨List.Perm.refl _, le_refl _, le_trans h1 h2⟩
  | succ n ih =>
    intro l first last hlast hbound hpivot hs
    obtain ⟨s, h1, h2, h3, h4⟩ := hs
    obtain ⟨hup1, hup2⟩ := scanUp_sentinel comp l pivot s h4 l.length first h1 (by omega)
    have hup0 := scanUp_ge comp l pivot l.length first
    have hdown := scanDown_le comp l pivot l.length (last - 1)
    unfold unguardedPartition
    simp only
    split
    · rename_i hlt
      have hl1 : scanDown comp l pivot l.length (last - 1) < l.length := by omega
      have hf1 : scanUp comp l pivot l.length first < l.length := by omega
      have hperm := perm_iterSwap l _ _ hf1 hl1
      have hlen := length_iterSwap l (scanUp comp l pivot l.length first)
        (scanDown comp l pivot l.length (last - 1))
      obtain ⟨r1, r2, r3⟩ := ih (iterSwap l (scanUp comp l pivot l.length first)
          (scanDown comp l pivot l.length (last - 1)))
        (scanUp comp l pivot l.length first + 1)
        (scanDown comp l pivot l.length (last - 1))
        (by rw [hlen]; omega) (by omega) (by omega)
        ⟨scanDown comp l pivot l.length (last - 1), by omega, by omega, by rw [hlen]; omega, by
          rw [getD_iterSwap_right l _ _ hl1,
            getD_iterSwap_other l _ _ pivot (by omega) (by omega)]
          exact hup2⟩
      exact ⟨r1.trans hperm, by omega, r3⟩
    · exact ⟨List.Perm.refl _, hup0, le_trans hup1 h2⟩

/-- The median of three is moved to `first`, and an element not less than it is left
between `first + 1` and `last - 1`. -/
theorem moveMedianToFirst_spec [DecidableEq α] (comp : α → α → Bool)
    (hasym : ∀ a b : α, comp a b = true → comp b a = false)
    (l : List α) (first mid last : ℕ) (h1 : first + 1 < mid) (h2 : mid + 1 < last)
    (h3 : last ≤ l.length) :
    (moveMedianToFirst comp l first (first + 1) mid (last - 1)).Perm l ∧
    ∃ s, first + 1 ≤ s ∧ s ≤ last - 1 ∧
      s < (moveMedianToFirst comp l first (first + 1) mid (last - 1)).length ∧
      comp ((moveMedianToFirst comp l first (first + 1) mid (last - 1)).getD s default)
        ((moveMedianToFirst comp l first (first + 1) mid (last - 1)).getD first default)
        = false := by
  have hf : first < l.length := by omega
  have hswap : ∀ X s : ℕ, X < l.length → first + 1 ≤ s → s ≤ last - 1 → s ≠ X →
      comp (l.getD s default) (l.getD X default) = false →
      (iterSwap l first X).Perm l ∧
      ∃ s, first + 1 ≤ s ∧ s ≤ last - 1 ∧ s < (iterSwap l first X).length ∧
        comp ((iterSwap l first X).getD s default) ((iterSwap l first X).getD first default)
          = false := by
    intro X s hX hs1 hs2 hsX hc
    refine ⟨perm_iterSwap l first X hf hX, s, hs1, hs2, ?_, ?_⟩
    · rw [length_iterSwap]; omega
    · rw [getD_iterSwap_left l first X hf, getD_iterSwap_other l first X s (by omega) hsX]
      exact hc
  unfold moveMedianToFirst
  simp only
  by_cases hab : comp (l.getD (first + 1) default) (l.getD mid default) = true
  · rw [if_pos hab]
    by_cases hbc : comp (l.getD mid default) (l.getD (last - 1) default) = true
    · rw [if_pos hbc]
      exact hswap mid (last - 1) (by omega) (by omega) (le_refl _) (by omega) (hasym _ _ hbc)
    · rw [if_neg hbc]
      by_cases hac : comp (l.getD (first + 1) default) (l.getD (last - 1) default) = true
      · rw [if_pos hac]
        exact hswap (last - 1) mid (by omega) (by omega) (by omega) (by omega)
          (by simpa using hbc)
      · rw [if_neg hac]
        exact hswap (first + 1) mid (by omega) (by omega) (by omega) (by omega)
          (hasym _ _ hab)
  · rw [if_neg hab]
    by_cases hac : comp (l.getD (first + 1) default) (l.getD (last - 1) default) = true
    · rw [if_pos hac]
      exact hswap (first + 1) (last - 1) (by omega) (by omega) (le_refl _) (by omega)
        (hasym _ _ hac)
    · rw [if_neg hac]
      by_cases hbc : comp (l.getD mid default) (l.getD (last - 1) default) = true
      · rw [if_pos hbc]
        exact hswap (last - 1) (first + 1) (by omega) (le_refl _) (by omega) (by omega)
          (by simpa using hac)
      · rw [if_neg hbc]
        exact hswap mid (first + 1) (by omega) (le_refl _) (by omega) (by omega)
          (by simpa using hab)

/-- A partition step on a range longer than 16 returns a permutation and a cut
strictly inside the range. -/
theorem unguardedPartitionPivot_spec [DecidableEq α] (comp : α → α → Bool)
    (hasym : ∀ a b : α, comp a b = true → comp b a = false)
    (l : List α) (first last : ℕ) (hlast : last ≤ l.length) (hlen : 16 < last - first) :
    (unguardedPartitionPivot comp l first last).1.Perm l ∧
    first + 1 ≤ (unguardedPartitionPivot comp l first last).2 ∧
    (unguardedPartitionPivot comp l first last).2 ≤ last - 1 := by
  obtain ⟨hperm, s, hs1, hs2, hs3, hs4⟩ := moveMedianToFirst_spec comp hasym l first
    (first + (last - first) / 2) last (by omega) (by omega) hlast
  unfold unguardedPartitionPivot
  simp only
  obtain ⟨r1, r2, r3⟩ := unguardedPartition_spec comp first (last - 1)
    (moveMedianToFirst comp l first (first + 1) (first + (last - first) / 2) (last - 1)).length
    (moveMedianToFirst comp l first (first + 1) (first + (last - first) / 2) (last - 1))
    (first + 1) last (by rw [hperm.length_eq]; exact hlast) (by omega) (by omega)
    ⟨s, hs1, hs2, hs3, hs4⟩
  exact ⟨r1.trans hperm, r2, r3⟩

/-- The introsort loop returns a permutation when the depth limit covers the excess of
the range over 16 elements. -/
theorem introsortLoop_spec [DecidableEq α] (comp : α → α → Bool)
    (hasym : ∀ a b : α, comp a b = true → comp b a = false) :
    ∀ (fuel : ℕ) (l : List α) (first last depthLimit : ℕ), last ≤ l.length →
      last - first ≤ depthLimit + 16 → depthLimit < fuel →
      ∃ out, introsortLoop comp fuel l first last depthLimit = some out ∧ out.Perm l := by
  intro fuel
  induction fuel with
  | zero => intro l first last d _ _ h; omega
  | succ n ih =>
    intro l first last d hlast hlen hd
    unfold introsortLoop
    by_cases h16 : last - first > 16
    · rw [if_pos h16]
      have hd0 : d ≠ 0 := by omega
      rw [if_neg hd0]
      obtain ⟨p1, p2, p3⟩ := unguardedPartitionPivot_spec comp hasym l first last hlast h16
      simp only
      obtain ⟨l1, e1, q1⟩ := ih (unguardedPartitionPivot comp l first last).1
        (unguardedPartitionPivot comp l first last).2 last (d - 1)
        (by rw [p1.length_eq]; exact hlast) (by omega) (by omega)
      rw [e1]
      simp only
      obtain ⟨l2, e2, q2⟩ := ih l1 first (unguardedPartitionPivot comp l first last).2 (d - 1)
        (by rw [q1.length_eq, p1.length_eq]; omega) (by omega) (by omega)
      exact ⟨l2, e2, q2.trans (q1.trans p1)⟩
    · rw [if_neg h16]
      exact ⟨l, rfl, List.Perm.refl _⟩

theorem getD_length_append (pre post : List α) (x : α) :
    (pre ++ x :: post).getD pre.length default = x := by
  induction pre with
  | nil => rfl
  | cons y ys ih => simpa using ih

/-- The unguarded linear insertion, as a function on lists: the part before `last` is
replaced by the insertion of `val` into it. -/
theorem unguardedLinearInsert_eq (comp : α → α → Bool) (val : α) :
    ∀ (fuel : ℕ) (pre post : List α) (x : α), pre.length ≤ fuel →
      unguardedLinearInsert comp val fuel (pre ++ x :: post) pre.length
        = (insertReversed comp val pre.reverse).reverse ++ post := by
  intro fuel
  induction fuel with
  | zero =>
    intro pre post x h
    have hp : pre = [] := List.eq_nil_of_length_eq_zero (by omega)
    subst hp
    rfl
  | succ n ih =>
    intro pre post x h
    unfold unguardedLinearInsert
    rcases List.eq_nil_or_concat pre with hp | ⟨pre1, y, hp⟩
    · subst hp
      simp only [List.length_nil, List.nil_append, List.reverse_nil]
      by_cases hc : comp val ((x :: post).getD (0 - 1) default) = true
      · rw [if_pos hc]
        have := ih [] post x (by simp)
        simpa using this
      · rw [if_neg hc]
        rfl
    · rw [List.concat_eq_append] at hp
      subst hp
      have hlen : (pre1 ++ [y]).length - 1 = pre1.length := by simp
      have hget : (pre1 ++ [y] ++ x :: post).getD ((pre1 ++ [y]).length - 1) default = y := by
        rw [hlen]
        have : pre1 ++ [y] ++ x :: post = pre1 ++ y :: (x :: post) := by simp
        rw [this]
        exact getD_length_append pre1 (x :: post) y
      rw [hget]
      have hrev : (pre1 ++ [y]).reverse = y :: pre1.reverse := by simp
      rw [hrev]
      by_cases hc : comp val y = true
      · rw [if_pos hc]
        have hset : (pre1 ++ [y] ++ x :: post).set (pre1 ++ [y]).length y
            = pre1 ++ y :: (y :: post) := by
          rw [set_length_append]; simp
        rw [hset, hlen]
        have := ih pre1 (y :: post) y (by simp at h; omega)
        rw [this]
        simp [insertReversed, hc]
      · rw [if_neg hc]
        rw [set_length_append]
        simp [insertReversed, hc]

/-- One step of the insertion sort on `pre ++ x :: post` with `pre` in order: the part
before `post` becomes a permutation of `pre ++ [x]` in order, by the guarded step and
by the unguarded one. -/
theorem insertionStep_spec (comp : α → α → Bool) (P : α → Prop)
    (hasym : ∀ a b : α, comp a b = true → comp b a = false)
    (hnt : ∀ a b c : α, P a → P b → P c → comp a b = false → comp b c = false →
      comp a c = false)
    (pre post : List α) (x : α) (hP : ∀ z ∈ pre ++ x :: post, P z)
    (hsorted : pre.Pairwise fun a b => comp b a = false) :
    (∃ newpre, insertionStep comp (pre ++ x :: post) 0 pre.length = newpre ++ post ∧
      newpre.Perm (pre ++ [x]) ∧ newpre.Pairwise fun a b => comp b a = false) ∧
    (∃ newpre, unguardedLinearInsert comp x (pre ++ x :: post).length (pre ++ x :: post)
        pre.length = newpre ++ post ∧
      newpre.Perm (pre ++ [x]) ∧ newpre.Pairwise fun a b => comp b a = false) := by
  have hPx : P x := hP x (by simp)
  have hPpre : ∀ z ∈ pre, P z := fun z hz => hP z (by simp [hz])
  have hun : ∃ newpre, unguardedLinearInsert comp x (pre ++ x :: post).length
      (pre ++ x :: post) pre.length = newpre ++ post ∧
      newpre.Perm (pre ++ [x]) ∧ newpre.Pairwise fun a b => comp b a = false := by
    refine ⟨(insertReversed comp x pre.reverse).reverse,
      unguardedLinearInsert_eq comp x _ pre post x (by simp), ?_, ?_⟩
    · refine (List.reverse_perm _).trans ((insertReversed_perm comp x pre.reverse).trans ?_)
      refine (List.Perm.cons x (List.reverse_perm pre)).trans ?_
      exact (List.perm_append_singleton x pre).symm
    · rw [List.pairwise_reverse]
      apply insertReversed_sorted comp P hasym hnt x hPx pre.reverse
      · intro y hy; exact hPpre y (List.mem_reverse.mp hy)
      · rw [List.pairwise_reverse]; exact hsorted
  refine ⟨?_, hun⟩
  unfold insertionStep
  simp only [getD_length_append]
  by_cases hc : comp x ((pre ++ x :: post).getD 0 default) = true
  · rw [if_pos hc]
    refine ⟨x :: pre, ?_, (List.perm_append_singleton x pre).symm, ?_⟩
    · simp
    · rw [List.pairwise_cons]
      refine ⟨?_, hsorted⟩
      intro z hz
      rcases pre with _ | ⟨h, t⟩
      · simp at hz
      · have hc1 : comp x h = true := by simpa using hc
        rw [List.pairwise_cons] at hsorted
        rcases List.mem_cons.mp hz with e | e
        · rw [e]; exact hasym _ _ hc1
        · have hzh : comp z h = false := hsorted.1 z e
          have hxz : comp x z = true := by
            by_contra hcon
            have hf : comp x z = false := by simpa using hcon
            have := hnt x z h hPx (hPpre z hz) (hPpre h (List.mem_cons_self _ _)) hf hzh
            rw [hc1] at this
            cases this
          exact hasym _ _ hxz
  · rw [if_neg hc]
    exact hun

/-- A list splits at an index inside it. -/
theorem split_at_index (l : List α) (i : ℕ) (hi : i < l.length) :
    l = l.take i ++ l.getD i default :: l.drop (i + 1) ∧ (l.take i).length = i := by
  constructor
  · rw [getD_of_lt l i hi]
    nth_rewrite 1 [← List.take_append_drop i l]
    rw [List.drop_eq_getElem_cons hi]
  · rw [List.length_take]; omega

/-- The guarded insertion loop from position `i`, the first `i` elements being in
order: a permutation with the first `i + n` elements in order. -/
theorem insertionSortFrom_spec (comp : α → α → Bool) (P : α → Prop)
    (hasym : ∀ a b : α, comp a b = true → comp b a = false)
    (hnt : ∀ a b c : α, P a → P b → P c → comp a b = false → comp b c = false →
      comp a c = false) :
    ∀ (n : ℕ) (l : List α) (i : ℕ), i + n ≤ l.length → (∀ z ∈ l, P z) →
      ((l.take i).Pairwise fun a b => comp b a = false) →
      (insertionSortFrom comp 0 n l i).Perm l ∧
      ((insertionSortFrom comp 0 n l i).take (i + n)).Pairwise fun a b => comp b a = false := by
  intro n
  induction n with
  | zero => intro l i _ _ hs; exact ⟨List.Perm.refl _, hs⟩
  | succ n ih =>
    intro l i hlen hP hs
    have hi : i < l.length := by omega
    obtain ⟨hsplit, hprelen⟩ := split_at_index l i hi
    have hP1 : ∀ z ∈ l.take i ++ l.getD i default :: l.drop (i + 1), P z := by
      rw [← hsplit]; exact hP
    obtain ⟨⟨newpre, e1, p1, s1⟩, -⟩ := insertionStep_spec comp P hasym hnt (l.take i)
      (l.drop (i + 1)) (l.getD i default) hP1 hs
    rw [← hsplit, hprelen] at e1
    have hperm : (newpre ++ l.drop (i + 1)).Perm l := by
      nth_rewrite 2 [hsplit]
      have : l.take i ++ l.getD i default :: l.drop (i + 1)
          = (l.take i ++ [l.getD i default]) ++ l.drop (i + 1) := by simp
      rw [this]
      exact List.Perm.append_right _ p1
    have hnl : newpre.length = i + 1 := by
      rw [p1.length_eq]; simp [hprelen]
    have htake : (newpre ++ l.drop (i + 1)).take (i + 1) = newpre := by
      rw [← hnl]; exact List.take_left _ _
    unfold insertionSortFrom
    rw [e1]
    obtain ⟨r1, r2⟩ := ih (newpre ++ l.drop (i + 1)) (i + 1)
      (by rw [hperm.length_eq]; omega) (fun z hz => hP z (hperm.subset hz))
      (by rw [htake]; exact s1)
    refine ⟨r1.trans hperm, ?_⟩
    have : i + (n + 1) = i + 1 + n := by omega
    rw [this]; exact r2

/-- The unguarded insertion loop from position `i`, the first `i` elements being in
order: a permutation with the first `i + n` elements in order. -/
theorem unguardedInsertionSortFrom_spec (comp : α → α → Bool) (P : α → Prop)
    (hasym : ∀ a b : α, comp a b = true → comp b a = false)
    (hnt : ∀ a b c : α, P a → P b → P c → comp a b = false → comp b c = false →
      comp a c = false) :
    ∀ (n : ℕ) (l : List α) (i : ℕ), i + n ≤ l.length → (∀ z ∈ l, P z) →
      ((l.take i).Pairwise fun a b => comp b a = false) →
      (unguardedInsertionSortFrom comp n l i).Perm l ∧
      ((unguardedInsertionSortFrom comp n l i).take (i + n)).Pairwise
        fun a b => comp b a = false := by
  intro n
  induction n with
  | zero => intro l i _ _ hs; exact ⟨List.Perm.refl _, hs⟩
  | succ n ih =>
    intro l i hlen hP hs
    have hi : i < l.length := by omega
    obtain ⟨hsplit, hprelen⟩ := split_at_index l i hi
    have hP1 : ∀ z ∈ l.take i ++ l.getD i default :: l.drop (i + 1), P z := by
      rw [← hsplit]; exact hP
    obtain ⟨-, ⟨newpre, e1, p1, s1⟩⟩ := insertionStep_spec comp P hasym hnt (l.take i)
      (l.drop (i + 1)) (l.getD i default) hP1 hs
    rw [← hsplit, hprelen] at e1
    have hperm : (newpre ++ l.drop (i + 1)).Perm l := by
      nth_rewrite 2 [hsplit]
      have : l.take i ++ l.getD i default :: l.drop (i + 1)
          = (l.take i ++ [l.getD i default]) ++ l.drop (i + 1) := by simp
      rw [this]
      exact List.Perm.append_right _ p1
    have hnl : newpre.length = i + 1 := by
      rw [p1.length_eq]; simp [hprelen]
    have htake : (newpre ++ l.drop (i + 1)).take (i + 1) = newpre := by
      rw [← hnl]; exact List.take_left _ _
    unfold unguardedInsertionSortFrom
    rw [e1]
    obtain ⟨r1, r2⟩ := ih (newpre ++ l.drop (i + 1)) (i + 1)
      (by rw [hperm.length_eq]; omega) (fun z hz => hP z (hperm.subset hz))
      (by rw [htake]; exact s1)
    refine ⟨r1.trans hperm, ?_⟩
    have : i + (n + 1) = i + 1 + n := by omega
    rw [this]; exact r2

/-- The final insertion sort returns a permutation in order. -/
theorem finalInsertionSort_spec (comp : α → α → Bool) (P : α → Prop)
    (hasym : ∀ a b : α, comp a b = true → comp b a = false)
    (hnt : ∀ a b c : α, P a → P b → P c → comp a b = false → comp b c = false →
      comp a c = false)
    (l : List α) (hP : ∀ z ∈ l, P z) :
    (finalInsertionSort comp l).Perm l ∧
    (finalInsertionSort comp l).Pairwise fun a b => comp b a = false := by
  have hone : (l.take 1).Pairwise fun a b => comp b a = false := by
    rcases l with _ | ⟨x, xs⟩
    · simp
    · simp
  unfold finalInsertionSort
  split
  · rename_i h16
    obtain ⟨p1, s1⟩ := insertionSortFrom_spec comp P hasym hnt 15 l 1 (by omega) hP hone
    obtain ⟨p2, s2⟩ := unguardedInsertionSortFrom_spec comp P hasym hnt (l.length - 16)
      (insertionSortFrom comp 0 15 l 1) 16 (by rw [p1.length_eq]; omega)
      (fun z hz => hP z (p1.subset hz)) s1
    refine ⟨p2.trans p1, ?_⟩
    have hlen : 16 + (l.length - 16)
        = (unguardedInsertionSortFrom comp (l.length - 16)
            (insertionSortFrom comp 0 15 l 1) 16).length := by
      rw [p2.length_eq, p1.length_eq]; omega
    rw [hlen, List.take_length] at s2
    exact s2
  · rename_i h16
    rcases Nat.eq_zero_or_pos l.length with h0 | hpos
    · have hl : l = [] := List.eq_nil_of_length_eq_zero h0
      subst hl
      simp [insertionSortFrom]
    · obtain ⟨p1, s1⟩ := insertionSortFrom_spec comp P hasym hnt (l.length - 1) l 1
        (by omega) hP hone
      refine ⟨p1, ?_⟩
      have hlen : 1 + (l.length - 1) = (insertionSortFrom comp 0 (l.length - 1) l 1).length := by
        rw [p1.length_eq]; omega
      rw [hlen, List.take_length] at s1
      exact s1

/-- On 24 elements the `std::sort` of libstdc++ has a result, and the result meets
the postcondition of `std::sort`, for a comparison that is asymmetric and, on the
elements sorted, negatively transitive (a strict weak ordering). -/
theorem gnuSort_spec [DecidableEq α] (comp : α → α → Bool) (P : α → Prop)
    (hasym : ∀ a b : α, comp a b = true → comp b a = false)
    (hnt : ∀ a b c : α, P a → P b → P c → comp a b = false → comp b c = false →
      comp a c = false)
    (l : List α) (hlen : l.length = 24) (hP : ∀ z ∈ l, P z) :
    ∃ out, gnuSort comp l = some out ∧ StdSortPost comp l out := by
  obtain ⟨l1, e1, p1⟩ := introsortLoop_spec comp hasym (l.length + 1) l 0 l.length
    (lg l.length * 2) (le_refl _) (by rw [hlen]; decide) (by rw [hlen]; decide)
  obtain ⟨p2, s2⟩ := finalInsertionSort_spec comp P hasym hnt l1
    (fun z hz => hP z (p1.subset hz))
  refine ⟨finalInsertionSort comp l1, ?_, p2.trans p1, s2⟩
  unfold gnuSort
  rw [if_neg (by rw [hlen]; decide), e1]

end GnuSortProofs

theorem FP.lt_negtrans (a b c : FP) (ha : a ≠ FP.nan) (hb : b ≠ FP.nan) (hc : c ≠ FP.nan)
    (h1 : FP.lt a b = false) (h2 : FP.lt b c = false) : FP.lt a c = false := by
  rcases a with p | s | _ <;> rcases b with q | t | _ <;> rcases c with r | u | _ <;>
    simp [FP.lt] at h1 h2 ha hb hc ⊢
  · exact le_trans h2 h1
  all_goals (first | assumption | (simp_all))

/-- The `std::sort` of libstdc++ on `dists` with no NaN key: it has a result, which
meets the postcondition of `std::sort`. -/
theorem gnuStdSort_post (l : List (FP × Fin 24)) (hlen : l.length = 24)
    (hnan : ∀ p ∈ l, p.1 ≠ FP.nan) :
    gnuSort distLess l = some (gnuStdSort l) ∧ StdSortPost distLess l (gnuStdSort l) := by
  obtain ⟨out, e, hpost⟩ := gnuSort_spec distLess (fun p => p.1 ≠ FP.nan)
    (fun a b h => FP.lt_asymm a.1 b.1 h)
    (fun a b c ha hb hc h1 h2 => FP.lt_negtrans a.1 b.1 c.1 ha hb hc h1 h2) l hlen hnan
  have hg : gnuStdSort l = out := by
    unfold gnuStdSort; rw [e]; rfl
  rw [hg]
  exact ⟨e, hpost⟩

theorem dists_length {E : Type} (caffeine : Fin 24 → Atom E) (camera : Vec3) :
    (dists caffeine camera).length = 24 := by
  unfold dists
  rw [List.length_ofFn]

theorem dists_ne_nan {E : Type} (caffeine : Fin 24 → Atom E) (camera : Vec3)
    (hfinite : camera.finite = true ∧ ∀ i : Fin 24, (caffeine i).position.finite = true) :
    ∀ p ∈ dists caffeine camera, p.1 ≠ FP.nan := by
  intro p hp
  rw [fst_eq_of_mem_dists caffeine camera p hp]
  exact sqDist_ne_nan camera _ hfinite.1 (hfinite.2 p.2)

/-- The `std::sort` call of `sorted` meets the postcondition, whether it is that of
libstdc++ or any conforming one. -/
theorem stdSort_post {E : Type} (stdSort : List (FP × Fin 24) → List (FP × Fin 24))
    (caffeine : Fin 24 → Atom E) (camera : Vec3)
    (hfinite : camera.finite = true ∧ ∀ i : Fin 24, (caffeine i).position.finite = true)
    (hsort : stdSort = gnuStdSort ∨
      StdSortPost distLess (dists caffeine camera) (stdSort (dists caffeine camera))) :
    StdSortPost distLess (dists caffeine camera) (stdSort (dists caffeine camera)) := by
  rcases hsort with h | h
  · rw [h]
    exact (gnuStdSort_post _ (dists_length caffeine camera)
      (dists_ne_nan caffeine camera hfinite)).2
  · exact h

/-- C2, as the code has it: for every camera position and scene with finite
coordinates, the array returned by `sorted(camera)` has 24 entries, takes each scene
index exactly once (it is a permutation of the 24 scene atoms), and is ordered
non-decreasing by the key that lines 35-36 compute in `float`, the squared distance
`(dx*dx + dy*dy) + dz*dz` of `camera - position` with every operation rounded to
binary32: no atom has a key less than that of an atom before it, and of two finite
keys the earlier is at most the later.  The key of an atom whose exact difference
from the camera has components of magnitude at most `2^40`, one of them at least
`2^-40`, is finite and within the relative error `2^-19` of the squared Euclidean
distance; within that error the order need not agree with the exact distances.
The `std::sort` call is that of libstdc++ or any routine with the postcondition
the C++ standard gives it. -/
theorem sorted_is_ordered_permutation {E : Type}
    (stdSort : List (FP × Fin 24) → List (FP × Fin 24))
    (caffeine : Fin 24 → Atom E) (camera : Vec3)
    (hfinite : camera.finite = true ∧ ∀ i : Fin 24, (caffeine i).position.finite = true)
    (hsort : stdSort = gnuStdSort ∨
      StdSortPost distLess (dists caffeine camera) (stdSort (dists caffeine camera))) :
    (sorted stdSort caffeine camera).length = 24 ∧
    ((stdSort (dists caffeine camera)).map Prod.snd).Perm (List.finRange 24) ∧
    (sorted stdSort caffeine camera).Perm (List.ofFn caffeine) ∧
    (sorted stdSort caffeine camera).Pairwise
      (fun a b =>
        FP.lt (Vec3.dot (Vec3.sub camera b.position) (Vec3.sub camera b.position))
          (Vec3.dot (Vec3.sub camera a.position) (Vec3.sub camera a.position)) = false) ∧
    (sorted stdSort caffeine camera).Pairwise
      (fun a b => ∀ p q : ℚ,
        Vec3.dot (Vec3.sub camera a.position) (Vec3.sub camera a.position) = FP.fin p →
        Vec3.dot (Vec3.sub camera b.position) (Vec3.sub camera b.position) = FP.fin q →
        p ≤ q) ∧
    (∀ (i : Fin 24) (cx cy cz px py pz : ℚ), camera = vec cx cy cz →
      (caffeine i).position = vec px py pz →
      (vec (cx - px) (cy - py) (cz - pz)).moderate = true →
      ∃ k : ℚ,
        Vec3.dot (Vec3.sub camera (caffeine i).position)
          (Vec3.sub camera (caffeine i).position) = FP.fin k ∧
        |k - ((cx - px) * (cx - px) + (cy - py) * (cy - py) + (cz - pz) * (cz - pz))|
          ≤ ((cx - px) * (cx - px) + (cy - py) * (cy - py) + (cz - pz) * (cz - pz)) / 2 ^ 19) := by
  obtain ⟨hperm, hsorted⟩ := stdSort_post stdSort caffeine camera hfinite hsort
  have hidx : ((stdSort (dists caffeine camera)).map Prod.snd).Perm (List.finRange 24) := by
    rw [← dists_map_snd caffeine camera]
    exact hperm.map _
  have hmap : sorted stdSort caffeine camera
      = ((stdSort (dists caffeine camera)).map Prod.snd).map caffeine := by
    simp [sorted, List.map_map, Function.comp_def]
  have hkey : (sorted stdSort caffeine camera).Pairwise
      (fun a b =>
        FP.lt (Vec3.dot (Vec3.sub camera b.position) (Vec3.sub camera b.position))
          (Vec3.dot (Vec3.sub camera a.position) (Vec3.sub camera a.position)) = false) := by
    unfold sorted
    rw [List.pairwise_map]
    refine hsorted.imp_of_mem ?_
    intro a b ha hb h
    have ha1 := fst_eq_of_mem_dists caffeine camera a (hperm.subset ha)
    have hb1 := fst_eq_of_mem_dists caffeine camera b (hperm.subset hb)
    unfold distLess at h
    rw [ha1, hb1] at h
    exact h
  refine ⟨?_, hidx, ?_, hkey, ?_, ?_⟩
  · rw [hmap, List.length_map, hidx.length_eq, List.length_finRange]
  · rw [hmap, List.ofFn_eq_map]
    exact hidx.map _
  · refine hkey.imp ?_
    intro a b h p q hp hq
    rw [hp, hq] at h
    simpa [FP.lt] using h
  · intro i cx cy cz px py pz hc hp hmod
    rw [hc, hp]
    exact sqDist_within cx cy cz px py pz hmod

/-- C2 as the code has it, on the scene `lineScene` seen from (0, 0, 32), with the
`std::sort` of libstdc++. -/
theorem sorted_is_ordered_permutation_witness :
    (sorted gnuStdSort lineScene (vec 0 0 32)).length = 24 ∧
    ((gnuStdSort (dists lineScene (vec 0 0 32))).map Prod.snd).Perm (List.finRange 24) ∧
    (sorted gnuStdSort lineScene (vec 0 0 32)).Perm (List.ofFn lineScene) ∧
    (sorted gnuStdSort lineScene (vec 0 0 32)).Pairwise
      (fun a b =>
        FP.lt (Vec3.dot (Vec3.sub (vec 0 0 32) b.position) (Vec3.sub (vec 0 0 32) b.position))
          (Vec3.dot (Vec3.sub (vec 0 0 32) a.position) (Vec3.sub (vec 0 0 32) a.position))
          = false) ∧
    (sorted gnuStdSort lineScene (vec 0 0 32)).Pairwise
      (fun a b => ∀ p q : ℚ,
        Vec3.dot (Vec3.sub (vec 0 0 32) a.position) (Vec3.sub (vec 0 0 32) a.position)
          = FP.fin p →
        Vec3.dot (Vec3.sub (vec 0 0 32) b.position) (Vec3.sub (vec 0 0 32) b.position)
          = FP.fin q →
        p ≤ q) ∧
    (∀ (i : Fin 24) (cx cy cz px py pz : ℚ), vec 0 0 32 = vec cx cy cz →
      (lineScene i).position = vec px py pz →
      (vec (cx - px) (cy - py) (cz - pz)).moderate = true →
      ∃ k : ℚ,
        Vec3.dot (Vec3.sub (vec 0 0 32) (lineScene i).position)
          (Vec3.sub (vec 0 0 32) (lineScene i).position) = FP.fin k ∧
        |k - ((cx - px) * (cx - px) + (cy - py) * (cy - py) + (cz - pz) * (cz - pz))|
          ≤ ((cx - px) * (cx - px) + (cy - py) * (cy - py) + (cz - pz) * (cz - pz)) / 2 ^ 19) :=
  sorted_is_ordered_permutation gnuStdSort lineScene (vec 0 0 32)
    ⟨rfl, fun _ => rfl⟩ (Or.inl rfl)

/-- C2 as stated fails: the order is that of the keys computed in `float`, not that of
the squared Euclidean distance.  In the scene `invertedScene` seen from (0, 0, 32),
atom 0 is nearer to the camera than atom 1 (squared distances 1073414180/1048576
and 1073414185/1048576), but the key computed for atom 0, 16772097/16384, is
greater than the key computed for atom 1, 16379/16: libstdc++ returns atom 1 first,
and so does every `std::sort` that meets the standard's postcondition, so the
result is not non-decreasing in squared distance.  And in the scene `denseScene`
all 24 keys are computed as 1024 although the distances differ; libstdc++ returns
atom 12 first and atom 0 in the thirteenth place. -/
theorem sorted_not_ordered_by_exact_distance :
    (exactSqDist (vec 0 0 32) (invertedScene 0).position
        < exactSqDist (vec 0 0 32) (invertedScene 1).position ∧
      sqDist (vec 0 0 32) (invertedScene 0).position = FP.fin (16772097 / 16384) ∧
      sqDist (vec 0 0 32) (invertedScene 1).position = FP.fin (16379 / 16) ∧
      (sorted gnuStdSort invertedScene (vec 0 0 32)).map (fun atom => atom.element)
        = [1, 0, 2, 3, 4, 5, 6, 7, 8, 9, 10, 11, 12, 13, 14, 15, 16, 17, 18, 19, 20, 21, 22, 23] ∧
      ∀ stdSort : List (FP × Fin 24) → List (FP × Fin 24),
        StdSortPost distLess (dists invertedScene (vec 0 0 32))
          (stdSort (dists invertedScene (vec 0 0 32))) →
        ¬ (sorted stdSort invertedScene (vec 0 0 32)).Pairwise
          (fun a b => exactSqDist (vec 0 0 32) a.position
            ≤ exactSqDist (vec 0 0 32) b.position)) ∧
    ((dists denseScene (vec 0 0 32)).map Prod.fst = List.replicate 24 (FP.fin 1024) ∧
      exactSqDist (vec 0 0 32) (denseScene 0).position
        < exactSqDist (vec 0 0 32) (denseScene 12).position ∧
      (sorted gnuStdSort denseScene (vec 0 0 32)).map (fun atom => atom.element)
        = [12, 23, 22, 21, 20, 19, 18, 17, 16, 15, 14, 13, 0, 11, 10, 9, 8, 7, 6, 5, 4, 3, 2, 1]) := by
  refine ⟨⟨by decide!, by decide!, by decide!, by decide!, ?_⟩, by decide!, by decide!, by decide!⟩
  intro stdSort hpost hexact
  obtain ⟨hperm, hsorted⟩ := hpost
  unfold sorted at hexact
  rw [List.pairwise_map] at hexact
  have hboth := hsorted.and hexact
  have hsym : (stdSort (dists invertedScene (vec 0 0 32))).Pairwise
      (fun a b : FP × Fin 24 =>
        (distLess b a = false ∧
          exactSqDist (vec 0 0 32) (invertedScene a.2).position
            ≤ exactSqDist (vec 0 0 32) (invertedScene b.2).position) ∨
        (distLess a b = false ∧
          exactSqDist (vec 0 0 32) (invertedScene b.2).position
            ≤ exactSqDist (vec 0 0 32) (invertedScene a.2).position)) :=
    hboth.imp fun h => Or.inl h
  have hall := hsym.forall (fun a b h => h.symm)
  have hm0 : ((sqDist (vec 0 0 32) (invertedScene 0).position, (0 : Fin 24)) : FP × Fin 24)
      ∈ stdSort (dists invertedScene (vec 0 0 32)) := by
    apply hperm.symm.subset
    unfold dists
    rw [List.mem_ofFn]
    exact ⟨0, rfl⟩
  have hm1 : ((sqDist (vec 0 0 32) (invertedScene 1).position, (1 : Fin 24)) : FP × Fin 24)
      ∈ stdSort (dists invertedScene (vec 0 0 32)) := by
    apply hperm.symm.subset
    unfold dists
    rw [List.mem_ofFn]
    exact ⟨1, rfl⟩
  have hne : ((sqDist (vec 0 0 32) (invertedScene 0).position, (0 : Fin 24)) : FP × Fin 24)
      ≠ (sqDist (vec 0 0 32) (invertedScene 1).position, (1 : Fin 24)) := by
    intro h
    have := congrArg Prod.snd h
    simp at this
  have hlt : distLess (sqDist (vec 0 0 32) (invertedScene 1).position, (1 : Fin 24))
      (sqDist (vec 0 0 32) (invertedScene 0).position, (0 : Fin 24)) = true := by decide!
  have hex : ¬ exactSqDist (vec 0 0 32) (invertedScene 1).position
      ≤ exactSqDist (vec 0 0 32) (invertedScene 0).position := by decide!
  rcases hall hm0 hm1 hne with h | h
  · rw [hlt] at h
    exact absurd h.1 (by simp)
  · exact hex h.2

/-- C10, as the code has it: `std::sort` is not a stable sort, and the order in which
atoms with equal keys come out is not fixed by their indices.  What holds: for a
camera position and scene with finite coordinates at which the 24 keys computed in
`float` are pairwise distinct, the sorted atoms are strictly increasing in the key,
every sort meeting the `std::sort` postcondition (a stable one included) returns
the array that libstdc++ returns, and sorting the sorted array again returns it
unchanged. -/
theorem sorted_determined_when_distances_distinct {E : Type}
    (stdSort : List (FP × Fin 24) → List (FP × Fin 24))
    (caffeine : Fin 24 → Atom E) (camera : Vec3)
    (hfinite : camera.finite = true ∧ ∀ i : Fin 24, (caffeine i).position.finite = true)
    (hsort : stdSort = gnuStdSort ∨
      (StdSortPost distLess (dists caffeine camera) (stdSort (dists caffeine camera)) ∧
        StdSortPost distLess (stdSort (dists caffeine camera))
          (stdSort (stdSort (dists caffeine camera)))))
    (hdistinct : ∀ i j : Fin 24, i ≠ j →
      Vec3.dot (Vec3.sub camera (caffeine i).position) (Vec3.sub camera (caffeine i).position)
        ≠ Vec3.dot (Vec3.sub camera (caffeine j).position)
            (Vec3.sub camera (caffeine j).position)) :
    (sorted stdSort caffeine camera).Pairwise
      (fun a b =>
        FP.lt (Vec3.dot (Vec3.sub camera a.position) (Vec3.sub camera a.position))
          (Vec3.dot (Vec3.sub camera b.position) (Vec3.sub camera b.position)) = true) ∧
    (∀ other : List (FP × Fin 24), StdSortPost distLess (dists caffeine camera) other →
      other = stdSort (dists caffeine camera)) ∧
    gnuStdSort (dists caffeine camera) = stdSort (dists caffeine camera) ∧
    stdSort (stdSort (dists caffeine camera)) = stdSort (dists caffeine camera) := by
  have hnan := dists_ne_nan caffeine camera hfinite
  have hpost : StdSortPost distLess (dists caffeine camera) (stdSort (dists caffeine camera)) :=
    stdSort_post stdSort caffeine camera hfinite (hsort.imp id fun h => h.1)
  have hnan2 : ∀ p ∈ stdSort (dists caffeine camera), p.1 ≠ FP.nan :=
    fun p hp => hnan p (hpost.1.subset hp)
  have hrepost : StdSortPost distLess (stdSort (dists caffeine camera))
      (stdSort (stdSort (dists caffeine camera))) := by
    rcases hsort with h | h
    · rw [h]
      refine (gnuStdSort_post _ ?_ ?_).2
      · rw [← h, hpost.1.length_eq]; exact dists_length caffeine camera
      · rw [← h]; exact hnan2
    · exact h.2
  have hkeys := dists_keys_distinct caffeine camera hdistinct
  have h1 := strictly_sorted_of_post _ _ hpost hnan hkeys
  have hgnu := (gnuStdSort_post _ (dists_length caffeine camera) hnan).2
  have huniq : ∀ other : List (FP × Fin 24),
      StdSortPost distLess (dists caffeine camera) other →
      other = stdSort (dists caffeine camera) := by
    intro other hother
    exact eq_of_perm_of_strictly_sorted _ _ (hother.1.trans hpost.1.symm)
      (strictly_sorted_of_post _ _ hother hnan hkeys) h1
  refine ⟨?_, huniq, huniq _ hgnu, ?_⟩
  · unfold sorted
    rw [List.pairwise_map]
    refine h1.imp_of_mem ?_
    intro a b ha hb h
    have ha1 := fst_eq_of_mem_dists caffeine camera a (hpost.1.subset ha)
    have hb1 := fst_eq_of_mem_dists caffeine camera b (hpost.1.subset hb)
    rw [ha1, hb1] at h
    exact h
  · have hkeys2 : (stdSort (dists caffeine camera)).Pairwise fun a b => a.1 ≠ b.1 :=
      (hpost.1.pairwise_iff fun h => Ne.symm h).mpr hkeys
    exact eq_of_perm_of_strictly_sorted _ _ hrepost.1
      (strictly_sorted_of_post _ _ hrepost hnan2 hkeys2) h1

/-- C10 as the code has it, on the scene `lineScene` seen from (20, 0, 32), where all 24
keys differ, with the `std::sort` of libstdc++. -/
theorem sorted_determined_when_distances_distinct_witness :
    (sorted gnuStdSort lineScene (vec 20 0 32)).Pairwise
      (fun a b =>
        FP.lt (Vec3.dot (Vec3.sub (vec 20 0 32) a.position) (Vec3.sub (vec 20 0 32) a.position))
          (Vec3.dot (Vec3.sub (vec 20 0 32) b.position) (Vec3.sub (vec 20 0 32) b.position))
          = true) ∧
    (∀ other : List (FP × Fin 24), StdSortPost distLess (dists lineScene (vec 20 0 32)) other →
      other = gnuStdSort (dists lineScene (vec 20 0 32))) ∧
    gnuStdSort (dists lineScene (vec 20 0 32)) = gnuStdSort (dists lineScene (vec 20 0 32)) ∧
    gnuStdSort (gnuStdSort (dists lineScene (vec 20 0 32)))
      = gnuStdSort (dists lineScene (vec 20 0 32)) :=
  sorted_determined_when_distances_distinct gnuStdSort lineScene (vec 20 0 32)
    ⟨rfl, fun _ => rfl⟩ (Or.inl rfl) (by decide!)

/-- C10 as stated fails.  In the scene `ladderScene` seen from (0, 0, 32), atoms 0 and 1
have the same key and `dists` is already in non-decreasing order.  The `std::sort`
of libstdc++ returns a sorted permutation in which atom 1 comes before atom 0: index
order is not the tie-break, and sorting the already sorted sequence changes it. -/
theorem sorted_not_stable :
    sqDist (vec 0 0 32) (ladderScene 0).position
      = sqDist (vec 0 0 32) (ladderScene 1).position ∧
    ((dists ladderScene (vec 0 0 32)).Pairwise fun a b => distLess b a = false) ∧
    StdSortPost distLess (dists ladderScene (vec 0 0 32))
      (gnuStdSort (dists ladderScene (vec 0 0 32))) ∧
    gnuSort distLess (dists ladderScene (vec 0 0 32))
      = some (gnuStdSort (dists ladderScene (vec 0 0 32))) ∧
    (sorted gnuStdSort ladderScene (vec 0 0 32)).map (fun atom => atom.element)
      = [1, 0, 2, 3, 4, 5, 6, 7, 8, 9, 10, 11, 12, 13, 14, 15, 16, 17, 18, 19, 20, 21, 22, 23] ∧
    gnuStdSort (dists ladderScene (vec 0 0 32)) ≠ dists ladderScene (vec 0 0 32) := by
  refine ⟨by decide!, by decide!, by unfold StdSortPost; decide!, by decide!, by decide!,
    by decide!⟩

/-! ### Binary64 rounding of the timestamp -/

theorem abs_fl_sub_le (q : ℚ) : |fl q - q| ≤ |q| * (2 : ℚ) ^ (-53 : ℤ) := by
  unfold fl
  split
  · rename_i h; simp [h]
  · rename_i hq
    have hU : (0 : ℚ) < (2 : ℚ) ^ (binExp q - 52) := by positivity
    have hr := abs_roundNearestEven_sub_le (q / (2 : ℚ) ^ (binExp q - 52))
    have hb := two_zpow_binExp_le q hq
    have e1 : (roundNearestEven (q / (2 : ℚ) ^ (binExp q - 52)) : ℚ) * (2 : ℚ) ^ (binExp q - 52) - q
        = ((roundNearestEven (q / (2 : ℚ) ^ (binExp q - 52)) : ℚ)
            - q / (2 : ℚ) ^ (binExp q - 52)) * (2 : ℚ) ^ (binExp q - 52) := by
      field_simp
    rw [e1, abs_mul, abs_of_pos hU]
    have e2 : (2 : ℚ) ^ (binExp q - 52) = (2 : ℚ) ^ binExp q * (2 : ℚ) ^ (-53 : ℤ) * 2 := by
      rw [show binExp q - 52 = binExp q + (-53) + 1 by ring, zpow_add₀ two_ne_zero,
        zpow_add₀ two_ne_zero, zpow_one]
    have h53 : (0 : ℚ) < (2 : ℚ) ^ (-53 : ℤ) := by positivity
    calc |(roundNearestEven (q / (2 : ℚ) ^ (binExp q - 52)) : ℚ)
            - q / (2 : ℚ) ^ (binExp q - 52)| * (2 : ℚ) ^ (binExp q - 52)
        ≤ 1 / 2 * (2 : ℚ) ^ (binExp q - 52) := mul_le_mul_of_nonneg_right hr hU.le
      _ = (2 : ℚ) ^ binExp q * (2 : ℚ) ^ (-53 : ℤ) := by rw [e2]; ring
      _ ≤ |q| * (2 : ℚ) ^ (-53 : ℤ) := mul_le_mul_of_nonneg_right hb h53.le


theorem fl_natCast (n : ℕ) (hn : n < 2 ^ 53) : fl (n : ℚ) = n := by
  unfold fl
  split
  · rename_i h; exact h.symm
  · rename_i hq
    have hb := two_zpow_binExp_le (n : ℚ) hq
    rw [abs_of_nonneg (by positivity : (0 : ℚ) ≤ (n : ℚ))] at hb
    have hlt : (2 : ℚ) ^ binExp (n : ℚ) < (2 : ℚ) ^ (53 : ℤ) := by
      have h53 : ((n : ℕ) : ℚ) < (2 : ℚ) ^ (53 : ℤ) := by
        rw [zpow_ofNat]
        exact_mod_cast hn
      exact lt_of_le_of_lt hb h53
    have he : binExp (n : ℚ) < 53 := (zpow_lt_zpow_iff_right₀ (by norm_num)).mp hlt
    obtain ⟨m, hm⟩ : ∃ m : ℕ, binExp (n : ℚ) - 52 = -(m : ℤ) :=
      ⟨(52 - binExp (n : ℚ)).toNat, by omega⟩
    rw [hm, zpow_neg, zpow_natCast]
    have hpos : (0 : ℚ) < (2 : ℚ) ^ m := by positivity
    have e : (n : ℚ) / ((2 : ℚ) ^ m)⁻¹ = (((n * 2 ^ m : ℕ) : ℤ) : ℚ) := by
      push_cast
      field_simp
    rw [e, roundNearestEven_intCast]
    push_cast
    field_simp

theorem fl_nonneg (q : ℚ) (hq : 0 ≤ q) : 0 ≤ fl q := by
  have h := abs_fl_sub_le q
  rw [abs_of_nonneg hq, abs_le] at h
  have h53 : (2 : ℚ) ^ (-53 : ℤ) ≤ 1 := by
    rw [zpow_neg]; exact inv_le_one_of_one_le₀ (by norm_num)
  nlinarith [h.1]

theorem fl_lower (q : ℚ) (hq : 0 ≤ q) : q * (1 - (2 : ℚ) ^ (-53 : ℤ)) ≤ fl q := by
  have h := abs_fl_sub_le q
  rw [abs_of_nonneg hq, abs_le] at h
  linarith [h.1]

theorem fl_upper (q : ℚ) (hq : 0 ≤ q) : fl q ≤ q * (1 + (2 : ℚ) ^ (-53 : ℤ)) := by
  have h := abs_fl_sub_le q
  rw [abs_of_nonneg hq, abs_le] at h
  linarith [h.2]


theorem ticksPerFrame_small_divisors : ∀ s : ℕ, s < 301 → s ∣ 90000 →
    ticksPerFrame s = ((90000 / s : ℕ) : ℚ) ∧ ticksPerFrame (90000 / s) = ((s : ℕ) : ℚ) := by
  decide!

theorem ticksPerFrame_of_dvd (fps : ℕ) (h : fps ∣ 90000) :
    ticksPerFrame fps = ((90000 / fps : ℕ) : ℚ) := by
  obtain ⟨s, hs⟩ := h
  by_cases hf : fps < 301
  · exact (ticksPerFrame_small_divisors fps hf ⟨s, hs⟩).1
  · have hs1 : s < 301 := by
      by_contra hc
      have : 301 * 301 ≤ fps * s := Nat.mul_le_mul (by omega) (by omega)
      omega
    have hfps : fps = 90000 / s := by
      have hs0 : 0 < s := by
        rcases Nat.eq_zero_or_pos s with h0 | h0
        · subst h0; omega
        · exact h0
      rw [hs, Nat.mul_div_cancel _ hs0]
    have hq : 90000 / fps = s := by
      have hf0 : 0 < fps := by omega
      rw [hs, Nat.mul_div_cancel_left _ hf0]
    rw [hq]
    have := (ticksPerFrame_small_divisors s hs1 ⟨fps, by rw [hs]; ring⟩).2
    rw [← hfps] at this
    exact this


theorem two_zpow_neg53_le : (2 : ℚ) ^ (-53 : ℤ) ≤ 1 / 1000000000000000 := by
  norm_num

theorem fl_bounds (q : ℚ) (hq : 0 ≤ q) :
    q * (1 - 1 / 1000000000000000) ≤ fl q ∧ fl q ≤ q * (1 + 1 / 1000000000000000) := by
  have hl := fl_lower q hq
  have hu := fl_upper q hq
  have hd := two_zpow_neg53_le
  have h1 : q * (2 : ℚ) ^ (-53 : ℤ) ≤ q * (1 / 1000000000000000) :=
    mul_le_mul_of_nonneg_left hd hq
  generalize (2 : ℚ) ^ (-53 : ℤ) = u at hl hu h1
  have e1 : q * (1 - u) = q - q * u := by ring
  have e2 : q * (1 + u) = q + q * u := by ring
  rw [e1] at hl
  rw [e2] at hu
  constructor <;> linarith

theorem ticksPerFrame_bounds (fps : ℕ) (h1 : 1 ≤ fps) (h2 : fps ≤ 65535) :
    137 / 100 ≤ ticksPerFrame fps ∧ ticksPerFrame fps ≤ 90001 := by
  have hfpos : (0 : ℚ) < (fps : ℚ) := by exact_mod_cast h1
  have hx0 : (0 : ℚ) ≤ 1 / (fps : ℚ) := by positivity
  have hx1 : (1 : ℚ) / 65535 ≤ 1 / (fps : ℚ) := by
    apply one_div_le_one_div_of_le hfpos
    exact_mod_cast h2
  have hx2 : 1 / (fps : ℚ) ≤ 1 := by
    rw [div_le_one hfpos]
    exact_mod_cast h1
  obtain ⟨ha1, ha2⟩ := fl_bounds _ hx0
  have ha0 : 0 ≤ fl (1 / (fps : ℚ)) := fl_nonneg _ hx0
  have hb0 : 0 ≤ fl (1 / (fps : ℚ)) * 90000 := by positivity
  obtain ⟨hc1, hc2⟩ := fl_bounds _ hb0
  unfold ticksPerFrame
  constructor <;> linarith

theorem truncToInt_of_nonneg (q : ℚ) (hq : 0 ≤ q) : truncToInt q = ⌊q⌋ := by
  unfold truncToInt
  rw [if_pos hq]

theorem ptsOf_lt_succ (fps k : ℕ) (h1 : 1 ≤ fps) (h2 : fps ≤ 65535) (hk : k ≤ 65534) :
    ptsOf fps k < ptsOf fps (k + 1) := by
  obtain ⟨hc1, hc2⟩ := ticksPerFrame_bounds fps h1 h2
  have hc0 : 0 ≤ ticksPerFrame fps := by linarith
  have hk0 : (0 : ℚ) ≤ (k : ℚ) := by positivity
  have hk1 : (k : ℚ) ≤ 65534 := by exact_mod_cast hk
  have hP0 : 0 ≤ ticksPerFrame fps * (k : ℚ) := by positivity
  have hP1 : ticksPerFrame fps * (k : ℚ) ≤ ticksPerFrame fps * 65534 :=
    mul_le_mul_of_nonneg_left hk1 hc0
  have hQ : ticksPerFrame fps * ((k + 1 : ℕ) : ℚ)
      = ticksPerFrame fps * (k : ℚ) + ticksPerFrame fps := by
    push_cast; ring
  have hQ0 : 0 ≤ ticksPerFrame fps * ((k + 1 : ℕ) : ℚ) := by positivity
  obtain ⟨_, hy2⟩ := fl_bounds _ hP0
  obtain ⟨hz1, _⟩ := fl_bounds _ hQ0
  have hstep : fl (ticksPerFrame fps * (k : ℚ)) + 1
      ≤ fl (ticksPerFrame fps * ((k + 1 : ℕ) : ℚ)) := by
    rw [hQ] at hz1 ⊢
    linarith
  unfold ptsOf
  rw [truncToInt_of_nonneg _ (fl_nonneg _ hP0), truncToInt_of_nonneg _ (fl_nonneg _ hQ0)]
  have h3 : ⌊fl (ticksPerFrame fps * (k : ℚ))⌋ + 1
      ≤ ⌊fl (ticksPerFrame fps * ((k + 1 : ℕ) : ℚ))⌋ := by
    rw [← Int.floor_add_one]
    exact Int.floor_le_floor hstep
  omega

theorem ptsOf_of_dvd (fps k : ℕ) (hd : fps ∣ 90000) (hk : k ≤ 65535) :
    ptsOf fps k = ((90000 / fps * k : ℕ) : ℤ) := by
  have hs : 90000 / fps ≤ 90000 := Nat.div_le_self _ _
  have hlt : 90000 / fps * k < 2 ^ 53 := by
    calc 90000 / fps * k ≤ 90000 * 65535 := Nat.mul_le_mul hs hk
      _ < 2 ^ 53 := by norm_num
  unfold ptsOf
  rw [ticksPerFrame_of_dvd fps hd]
  have e : ((90000 / fps : ℕ) : ℚ) * (k : ℚ) = ((90000 / fps * k : ℕ) : ℚ) := by push_cast; ring
  rw [e, fl_natCast _ hlt, truncToInt_of_nonneg _ (by positivity)]
  exact Int.floor_natCast _

/-! ### The encoder lifecycle -/

theorem construct_ok_fresh : H265Encoder.construct okConstructEnv 64 64 30 = .ok freshEncoder := by
  rfl

/-- C8, as the code has it: `finish` throws exactly when the output format needs a file
(`AVFMT_NOFILE` clear) and `avio_close` reports an error; the result of
`av_write_trailer` is dropped and has no influence on the outcome, so `finish`
returns normally when writing the trailer fails and the close succeeds (or is not
attempted). -/
theorem finish_throws_iff_close_fails (e : H265Encoder) (env : FinishEnv) :
    ((∃ msg, (e.finish env).2 = Except.error msg) ↔ (e.noFile = false ∧ env.avioClose < 0)) ∧
    ((e.finish env).2 = Except.ok () ↔ ¬ (e.noFile = false ∧ env.avioClose < 0)) ∧
    (∀ code : ℤ, (e.finish { env with writeTrailer := code }).2 = (e.finish env).2) := by
  unfold H265Encoder.finish
  by_cases h1 : e.noFile = false
  · by_cases h2 : env.avioClose < 0
    · simp [h1, h2]
    · simp [h1, h2]
  · simp [h1]

/-- C8 as stated fails.  On the encoder for `("out.mp4", 64, 64, 30)`, opened, whose
format needs a file, a `finish` in which `av_write_trailer` reports the error -5 and
`avio_close` succeeds returns normally. -/
theorem finish_returns_normally_when_trailer_fails :
    trailerFailsEnv.writeTrailer < 0 ∧ openedEncoder.noFile = false ∧
    (openedEncoder.finish trailerFailsEnv).2 = Except.ok () := by
  refine ⟨by decide, rfl, ?_⟩
  simp [H265Encoder.finish, openedEncoder, H265Encoder.open, okOpenEnv, freshEncoder,
    trailerFailsEnv]

/-! ### Presentation timestamps -/

theorem write_state (e : H265Encoder) (env : WriteEnv) (hbuf : 0 ≤ env.getBuffer) :
    (e.write env).1.fps = e.fps ∧
    (e.write env).1.frameCounter = (e.frameCounter + 1) % 65536 ∧
    (e.write env).1.videoFrame = some (ptsOf e.fps e.frameCounter) := by
  unfold H265Encoder.write
  have h1 : ¬ (e.videoFrame = none ∧ env.getBuffer < 0) := fun h => absurd h.2 (not_lt.mpr hbuf)
  rw [if_neg h1]
  by_cases h2 : sendFrameResult e env < 0
  · simp [h2]
  · by_cases h3 : env.receivePacket = 0
    · simp [h2, h3]
    · simp [h2, h3]

theorem writeAll_state (envs : List WriteEnv) : ∀ e : H265Encoder,
    (∀ env ∈ envs, 0 ≤ env.getBuffer) → envs ≠ [] → e.frameCounter < 65536 →
    (e.writeAll envs).fps = e.fps ∧
    (e.writeAll envs).frameCounter = (e.frameCounter + envs.length) % 65536 ∧
    (e.writeAll envs).videoFrame
      = some (ptsOf e.fps ((e.frameCounter + envs.length - 1) % 65536)) := by
  induction envs with
  | nil => intro e _ h; exact absurd rfl h
  | cons env rest ih =>
    intro e hbuf _ hc
    obtain ⟨w1, w2, w3⟩ := write_state e env (hbuf env (List.mem_cons_self _ _))
    by_cases hrest : rest = []
    · subst hrest
      simp only [H265Encoder.writeAll, List.length_cons, List.length_nil]
      refine ⟨w1, w2, ?_⟩
      rw [w3]
      congr 2
      omega
    · have hlen : 1 ≤ rest.length := by
        rcases rest with _ | ⟨x, xs⟩
        · exact absurd rfl hrest
        · simp
      have hc1 : (e.write env).1.frameCounter < 65536 := by
        rw [w2]; exact Nat.mod_lt _ (by norm_num)
      obtain ⟨i1, i2, i3⟩ := ih (e.write env).1
        (fun x hx => hbuf x (List.mem_cons_of_mem _ hx)) hrest hc1
      simp only [H265Encoder.writeAll, List.length_cons]
      rw [w1] at i1 i3
      rw [w2] at i2 i3
      refine ⟨i1, ?_, ?_⟩
      · rw [i2]; omega
      · rw [i3]
        congr 2
        omega

theorem ptsAfter_eq (e : H265Encoder) (envs : List WriteEnv) (k : ℕ)
    (hfresh : e.frameCounter = 0) (hbuf : ∀ env ∈ envs, 0 ≤ env.getBuffer)
    (hk1 : 1 ≤ k) (hk2 : k ≤ envs.length) :
    ptsAfter e envs k = some (ptsOf e.fps ((k - 1) % 65536)) := by
  have hlen : (envs.take k).length = k := by
    rw [List.length_take]; omega
  have hne : envs.take k ≠ [] := by
    intro h
    rw [h] at hlen
    simp at hlen
    omega
  obtain ⟨_, _, h3⟩ := writeAll_state (envs.take k) e
    (fun x hx => hbuf x (List.mem_of_mem_take hx)) hne (by omega)
  unfold ptsAfter
  rw [h3, hlen, hfresh, Nat.zero_add]

/-- C1, as the code has it: on an encoder with a frame rate `fps` in 1..65535 whose
frame buffer allocation succeeds, for every `k` with 1 ≤ k ≤ 65535 (both calls made
before the 16-bit frame counter wraps) the timestamp assigned by the (k+1)-th call of
`write` is strictly greater than the one assigned by the k-th call; when `fps`
divides 90000 the difference is exactly `90000/fps` for every such `k`.  Timestamps
are computed in binary64 and truncated, as the code does. -/
theorem pts_strictly_increasing_before_wrap (e : H265Encoder) (envs : List WriteEnv) (k : ℕ)
    (hfresh : e.frameCounter = 0) (hfps1 : 1 ≤ e.fps) (hfps2 : e.fps ≤ 65535)
    (hbuf : ∀ env ∈ envs, 0 ≤ env.getBuffer)
    (hk1 : 1 ≤ k) (hk2 : k + 1 ≤ envs.length) (hwrap : k ≤ 65535) :
    ∃ p q, ptsAfter e envs k = some p ∧ ptsAfter e envs (k + 1) = some q ∧ p < q ∧
      (e.fps ∣ 90000 → q - p = ((90000 / e.fps : ℕ) : ℤ)) := by
  have hp := ptsAfter_eq e envs k hfresh hbuf hk1 (by omega)
  have hq := ptsAfter_eq e envs (k + 1) hfresh hbuf (by omega) hk2
  have e1 : (k - 1) % 65536 = k - 1 := Nat.mod_eq_of_lt (by omega)
  have e2 : (k + 1 - 1) % 65536 = (k - 1) + 1 := by
    rw [Nat.add_sub_cancel, Nat.mod_eq_of_lt (by omega)]; omega
  rw [e1] at hp
  rw [e2] at hq
  refine ⟨_, _, hp, hq, ptsOf_lt_succ e.fps (k - 1) hfps1 hfps2 (by omega), ?_⟩
  intro hd
  rw [ptsOf_of_dvd e.fps (k - 1) hd (by omega), ptsOf_of_dvd e.fps (k - 1 + 1) hd (by omega)]
  push_cast
  ring

/-- C1 as the code has it, on the opened encoder for 30 frames per second, three calls
of `write`, `k = 2`: the timestamps are 3000 and 6000. -/
theorem pts_strictly_increasing_before_wrap_witness :
    ∃ p q, ptsAfter openedEncoder [okWriteEnv, okWriteEnv, okWriteEnv] 2 = some p ∧
      ptsAfter openedEncoder [okWriteEnv, okWriteEnv, okWriteEnv] (2 + 1) = some q ∧ p < q ∧
      (openedEncoder.fps ∣ 90000 → q - p = ((90000 / openedEncoder.fps : ℕ) : ℤ)) :=
  pts_strictly_increasing_before_wrap openedEncoder [okWriteEnv, okWriteEnv, okWriteEnv] 2 rfl
    (by decide) (by decide) (by decide) (by decide) (by decide) (by decide)

/-- C1 as stated fails, in two ways.  At 7 frames per second the step is not constant:
the first calls assign 0, 12857, ..., the seventh and eighth 77142 and 90000, so the
step is 12857 between calls 1 and 2 and 12858 between calls 7 and 8.  At 30 frames
per second the 65536-th call assigns 196605000 and the 65537-th, the 16-bit counter
having wrapped to 0, assigns 0: the timestamp decreases. -/
theorem pts_step_not_constant_and_wraps :
    (ptsAfter sevenFpsEncoder (List.replicate 8 okWriteEnv) 1 = some 0 ∧
      ptsAfter sevenFpsEncoder (List.replicate 8 okWriteEnv) 2 = some 12857 ∧
      ptsAfter sevenFpsEncoder (List.replicate 8 okWriteEnv) 7 = some 77142 ∧
      ptsAfter sevenFpsEncoder (List.replicate 8 okWriteEnv) 8 = some 90000) ∧
    (ptsAfter openedEncoder (List.replicate 65537 okWriteEnv) 65536 = some 196605000 ∧
      ptsAfter openedEncoder (List.replicate 65537 okWriteEnv) 65537 = some 0) := by
  have hbuf : ∀ n : ℕ, ∀ env ∈ List.replicate n okWriteEnv, 0 ≤ env.getBuffer := by
    intro n env henv
    rw [List.eq_of_mem_replicate henv]
    decide
  refine ⟨⟨by decide!, by decide!, by decide!, by decide!⟩, ?_, ?_⟩
  · rw [ptsAfter_eq openedEncoder _ 65536 rfl (hbuf 65537) (by norm_num)
      (by rw [List.length_replicate]; norm_num)]
    decide!
  · rw [ptsAfter_eq openedEncoder _ 65537 rfl (hbuf 65537) (by norm_num)
      (le_of_eq (List.length_replicate _ _).symm)]
    decide!

end H265MWE
